import Mathlib

/-!
Verification development for the navigation/perception core of a tile-grid
game (recursive shadow-casting field of view, A* path search, spatial
occupancy index).  Definitions are shallow embeddings of the JavaScript
source files `src/fov.js`, `src/pathfinder.js` and `src/stage.js`.
-/

namespace Rogue

/-! ## Field of view (`src/fov.js`)

The JS function `createFOV(width, height, reveal, isOpaque)` returns
`refresh(originX, originY, radius)`.  The embedding threads the side effects
explicitly: instead of invoking the `reveal` and `isOpaque` callbacks, the
scan accumulates the list of coordinates passed to `reveal` (`rev`) and the
list of coordinates queried through `isOpaque` (`que`), in call order.

The slope quantities `(deltaX ± 0.5) / (deltaY ∓ 0.5)` are exact rationals;
they are represented as integer fractions with positive denominator
(`mkSlope (2*deltaX ± 1) (2*deltaY ∓ 1)` after clearing the halves), and
compared by cross-multiplication, which agrees with the rational order
because denominators are kept positive.  The mutable loop variables
`start`, `newStart`, `blocked` of `castShadows` become an explicit
`ScanState`; the recursion of `castShadows` is driven by a `fuel` argument
(the JS recursion always increases `row`, and rows only run while
`distance < radius`, so `radius.toNat + 1` fuel is enough;
fuel-independence is proved below for claim C10).
-/

/-- Octant coordinate transform, one entry of `octantTransforms` in `fov.js`. -/
structure Octant where
  xx : Int
  xy : Int
  yx : Int
  yy : Int
deriving DecidableEq, Repr

/-- The eight octant transforms, in the order of the `octantTransforms`
array in `fov.js`. -/
def octantTransforms : List Octant :=
  [⟨1, 0, 0, 1⟩, ⟨1, 0, 0, -1⟩, ⟨-1, 0, 0, 1⟩, ⟨-1, 0, 0, -1⟩,
   ⟨0, 1, 1, 0⟩, ⟨0, 1, -1, 0⟩, ⟨0, -1, 1, 0⟩, ⟨0, -1, -1, 0⟩]

/-- An exact rational slope value, stored as `num / den`.  All slopes built
by the scan have `0 < den` (enforced by `mkSlope`). -/
structure Slope where
  num : Int
  den : Int
deriving DecidableEq, Repr

/-- Build the fraction `n / d` with the sign normalized into the numerator,
so that the stored denominator is positive whenever `d ≠ 0`. -/
def mkSlope (n d : Int) : Slope := if d < 0 then ⟨-n, -d⟩ else ⟨n, d⟩

/-- The rational value of a stored slope. -/
def Slope.val (s : Slope) : ℚ := (s.num : ℚ) / (s.den : ℚ)

/-- Order test on stored slopes by cross-multiplication (correct whenever
both denominators are positive, which `mkSlope` guarantees). -/
def Slope.lt (a b : Slope) : Bool := decide (a.num * b.den < b.num * a.den)

/-- The slope constant `1` (initial `start` argument of `castShadows`). -/
def slopeOne : Slope := ⟨1, 1⟩

/-- The slope constant `0` (initial `end` argument, and the `let newStart = 0`
initialisation inside `castShadows`). -/
def slopeZero : Slope := ⟨0, 1⟩

/-- Left slope `(deltaX - 0.5) / (deltaY + 0.5)` of a scanned cell,
cleared of halves: `(2*deltaX - 1) / (2*deltaY + 1)`. -/
def leftSlope (dX dY : Int) : Slope := mkSlope (2 * dX - 1) (2 * dY + 1)

/-- Right slope `(deltaX + 0.5) / (deltaY - 0.5)` of a scanned cell,
cleared of halves: `(2*deltaX + 1) / (2*deltaY - 1)`. -/
def rightSlope (dX dY : Int) : Slope := mkSlope (2 * dX + 1) (2 * dY - 1)

/-- The mutable variables of one `castShadows` activation:  `start` (the
current start slope), `newStart` (candidate start slope recorded while
scanning an opaque run) and `blocked`. -/
structure ScanState where
  start : Slope
  newStart : Slope
  blocked : Bool
deriving DecidableEq, Repr

/-- Log of callback invocations: coordinates passed to `reveal` and
coordinates queried through `isOpaque`, in call order. -/
structure Logs where
  rev : List (Int × Int)
  que : List (Int × Int)
deriving DecidableEq, Repr

/-- Empty log. -/
def Logs.nil : Logs := ⟨[], []⟩

/-- Concatenation of two logs (earlier calls first). -/
def Logs.app (a b : Logs) : Logs := ⟨a.rev ++ b.rev, a.que ++ b.que⟩

/-- Static parameters of one FOV computation: grid bounds, the opacity
callback, the origin, the octant transform and the radius. -/
structure FovEnv where
  width : Int
  height : Int
  isOpaque : Int → Int → Bool
  ox : Int
  oy : Int
  t : Octant
  radius : Int

/-- World x-coordinate of the scanned cell
(`originX + deltaX * transform.xx + deltaY * transform.xy`). -/
def FovEnv.cellX (env : FovEnv) (dX dY : Int) : Int :=
  env.ox + dX * env.t.xx + dY * env.t.xy

/-- World y-coordinate of the scanned cell
(`originY + deltaX * transform.yx + deltaY * transform.yy`). -/
def FovEnv.cellY (env : FovEnv) (dX dY : Int) : Int :=
  env.oy + dX * env.t.yx + dY * env.t.yy

/-- Bounds test of `fov.js`:
`currentX >= 0 && currentY >= 0 && currentX < width && currentY < height`. -/
def FovEnv.inBounds (env : FovEnv) (cx cy : Int) : Bool :=
  decide (0 ≤ cx ∧ 0 ≤ cy ∧ cx < env.width ∧ cy < env.height)

/-- The radius test `Math.sqrt(deltaX*deltaX + deltaY*deltaY) <= radius` of
`fov.js`, expressed without square roots: for integers it is equivalent to
`0 ≤ radius ∧ deltaX² + deltaY² ≤ radius²`. -/
def sqrtLeRadius (dX dY radius : Int) : Bool :=
  decide (0 ≤ radius ∧ dX * dX + dY * dY ≤ radius * radius)

/-- Outcome of scanning a single cell of a row: either the loop continues
with an updated state and some logged callback invocations, or the row scan
stops (`break` on `end > leftSlope`). -/
inductive CellOut where
  | cont (logs : Logs) (st : ScanState)
  | brk
deriving Inhabited

/-- One iteration of the inner `for (let deltaX = -distance; deltaX <= 0; ...)`
loop body of `castShadows`, for `deltaX = dX` on row `distance`.
`endSlope` is the `end` parameter of the enclosing `castShadows` call and
`nested s e` stands for the recursive call
`castShadows(originX, originY, distance + 1, s, e, transform, radius)`. -/
def scanCell (env : FovEnv) (endSlope : Slope) (nested : Slope → Slope → Logs)
    (distance : Int) (dX : Int) (st : ScanState) : CellOut :=
  let dY : Int := -distance
  let cx := env.cellX dX dY
  let cy := env.cellY dX dY
  let lSlope := leftSlope dX dY
  let rSlope := rightSlope dX dY
  if ¬(env.inBounds cx cy = true) ∨ Slope.lt st.start rSlope then
    .cont Logs.nil st
  else if Slope.lt lSlope endSlope then
    .brk
  else
    let revLog : List (Int × Int) :=
      if sqrtLeRadius dX dY env.radius then [(cx, cy)] else []
    if st.blocked then
      if env.isOpaque cx cy then
        .cont ⟨revLog, [(cx, cy)]⟩ { st with newStart := rSlope }
      else
        .cont ⟨revLog, [(cx, cy)]⟩ { st with blocked := false, start := st.newStart }
    else
      if env.isOpaque cx cy ∧ distance < env.radius then
        let sub := nested st.start lSlope
        .cont ⟨revLog ++ sub.rev, (cx, cy) :: sub.que⟩
          { st with blocked := true, newStart := rSlope }
      else
        .cont ⟨revLog, [(cx, cy)]⟩ st

/-- The inner sweep of one row of `castShadows`: cells
`deltaX = -(k : Int), …, -1, 0` in order (the JS loop starts at
`deltaX = -distance`, so the row entry point is `k = distance.toNat`).
Returns the accumulated logs and the state after the row (a `break` leaves
the state of the breaking iteration unchanged). -/
def scanRow (env : FovEnv) (endSlope : Slope) (nested : Slope → Slope → Logs)
    (distance : Int) : Nat → ScanState → Logs × ScanState
  | k, st =>
    match scanCell env endSlope nested distance (-(k : Int)) st with
    | .brk => (Logs.nil, st)
    | .cont logs st' =>
      match k with
      | 0 => (logs, st')
      | k' + 1 =>
        let rest := scanRow env endSlope nested distance k' st'
        (logs.app rest.1, rest.2)

/-- The outer `for (let distance = row; distance < radius && !blocked; ...)`
loop of `castShadows`, starting at row `d` with state `st`; `endSlope` is
the `end` parameter of the enclosing call.  The nested recursive
`castShadows` call receives the remaining fuel.  (`rowsGo` is the loop of a
`castShadows` activation whose `start < end` entry guard already passed;
`castShadowsF` below adds that guard.) -/
def rowsGo (env : FovEnv) : Nat → Slope → Int → ScanState → Logs
  | 0, _, _, _ => Logs.nil
  | fuel + 1, endSlope, d, st =>
    if d < env.radius ∧ st.blocked = false then
      let nested : Slope → Slope → Logs := fun s e =>
        if Slope.lt s e then Logs.nil
        else rowsGo env fuel e (d + 1) ⟨s, slopeZero, false⟩
      let r := scanRow env endSlope nested d d.toNat st
      r.1.app (rowsGo env fuel endSlope (d + 1) r.2)
    else Logs.nil

/-- The `castShadows(originX, originY, row, start, end, transform, radius)`
function of `fov.js`: the `if (start < end) return` entry guard followed by
the row loop with `newStart = 0` and `blocked = false`. -/
def castShadowsF (env : FovEnv) (fuel : Nat) (row : Int) (s e : Slope) : Logs :=
  if Slope.lt s e then Logs.nil else rowsGo env fuel e row ⟨s, slopeZero, false⟩

/-- The `refresh(originX, originY, radius)` function returned by
`createFOV(width, height, reveal, isOpaque)`, at an explicit fuel: reveal
the origin unconditionally, then run
`castShadows(originX, originY, 1, 1, 0, t, radius)` for each octant
transform in order. -/
def refreshFuel (fuel : Nat) (width height : Int) (isOpaque : Int → Int → Bool)
    (ox oy radius : Int) : Logs :=
  (octantTransforms.foldl
    (fun acc t =>
      acc.app (castShadowsF ⟨width, height, isOpaque, ox, oy, t, radius⟩
        fuel 1 slopeOne slopeZero))
    ⟨[(ox, oy)], []⟩)

/-- The `refresh(originX, originY, radius)` function of `fov.js`, with the
canonical sufficient fuel `radius.toNat + 1` (the recursion of `castShadows`
strictly increases `row`, and rows only run while `distance < radius`;
fuel-independence beyond this bound is claim C10). -/
def refresh (width height : Int) (isOpaque : Int → Int → Bool)
    (ox oy radius : Int) : Logs :=
  refreshFuel (radius.toNat + 1) width height isOpaque ox oy radius

/-- An everywhere-transparent grid (no opaque cells). -/
def openGrid : Int → Int → Bool := fun _ _ => false

/-! ### Basic slope lemmas -/

theorem mkSlope_den_pos (n d : Int) (h : d ≠ 0) : 0 < (mkSlope n d).den := by
  unfold mkSlope
  split <;> simp <;> omega

theorem leftSlope_den_pos (dX dY : Int) : 0 < (leftSlope dX dY).den := by
  have : 2 * dY + 1 ≠ 0 := by omega
  exact mkSlope_den_pos _ _ this

theorem rightSlope_den_pos (dX dY : Int) : 0 < (rightSlope dX dY).den := by
  have : 2 * dY - 1 ≠ 0 := by omega
  exact mkSlope_den_pos _ _ this

theorem slope_lt_false_iff (a b : Slope) :
    Slope.lt a b = false ↔ b.num * a.den ≤ a.num * b.den := by
  simp [Slope.lt]

theorem slope_lt_true_iff (a b : Slope) :
    Slope.lt a b = true ↔ a.num * b.den < b.num * a.den := by
  simp [Slope.lt]

/-- Transitivity of the (non-strict, reversed) slope order used by the
scan guards: if `a ≤ b` and `b ≤ c` (as slope values, with positive
denominators) then `a ≤ c`. -/
theorem slope_nlt_trans {a b c : Slope} (ha : 0 < a.den) (hb : 0 < b.den)
    (hc : 0 < c.den) (hba : Slope.lt b a = false) (hcb : Slope.lt c b = false) :
    Slope.lt c a = false := by
  rw [slope_lt_false_iff] at hba hcb ⊢
  have h1 : a.num * b.den * c.den ≤ b.num * a.den * c.den :=
    mul_le_mul_of_nonneg_right hba (le_of_lt hc)
  have h2 : b.num * c.den * a.den ≤ c.num * b.den * a.den :=
    mul_le_mul_of_nonneg_right hcb (le_of_lt ha)
  have h3 : a.num * c.den * b.den ≤ c.num * a.den * b.den := by nlinarith
  exact le_of_mul_le_mul_right h3 hb

/-! ### Soundness of the octant scan

Every coordinate revealed by `castShadows` comes from a cone cell
`(deltaX, -distance)` with `-distance ≤ deltaX ≤ 0` and
`row ≤ distance < radius`, lies in bounds, passes the Euclidean radius
test, and has `leftSlope ≥ end`; every coordinate queried through
`isOpaque` lies in bounds.  This is independent of the grid contents and
of the scan state. -/

/-- The property guaranteed for every revealed coordinate of an octant scan
whose rows start at `lo` and whose `end` slope is `e`. -/
def RevOk (env : FovEnv) (lo : Int) (e : Slope) (c : Int × Int) : Prop :=
  ∃ dX d : Int,
    c.1 = env.cellX dX (-d) ∧ c.2 = env.cellY dX (-d) ∧
    -d ≤ dX ∧ dX ≤ 0 ∧ lo ≤ d ∧ d < env.radius ∧
    env.inBounds c.1 c.2 = true ∧
    sqrtLeRadius dX (-d) env.radius = true ∧
    Slope.lt (leftSlope dX (-d)) e = false

/-- Soundness of a single cell step: revealed cells satisfy `RevOk` (or come
from the nested call), queried cells are in bounds. -/
theorem scanCell_sound (env : FovEnv) (endSlope : Slope)
    (nested : Slope → Slope → Logs) (d dX : Int) (st : ScanState)
    (hdX : -d ≤ dX) (hdX0 : dX ≤ 0) (hd : d < env.radius)
    (he : 0 < endSlope.den)
    (hnest : ∀ s e, e = leftSlope dX (-d) → Slope.lt e endSlope = false →
      (∀ c ∈ (nested s e).rev, RevOk env (d + 1) e c) ∧
      (∀ c ∈ (nested s e).que, env.inBounds c.1 c.2 = true)) :
    ∀ logs st', scanCell env endSlope nested d dX st = .cont logs st' →
      (∀ c ∈ logs.rev, RevOk env d endSlope c) ∧
      (∀ c ∈ logs.que, env.inBounds c.1 c.2 = true) := by
  intro logs st' hcell
  unfold scanCell at hcell
  by_cases hguard : ¬(env.inBounds (env.cellX dX (-d)) (env.cellY dX (-d)) = true) ∨
      Slope.lt st.start (rightSlope dX (-d)) = true
  · simp only [if_pos hguard] at hcell
    cases hcell
    constructor <;> intro c hc <;> simp [Logs.nil] at hc
  · simp only [if_neg hguard] at hcell
    push_neg at hguard
    obtain ⟨hb, -⟩ := hguard
    by_cases hbrk : Slope.lt (leftSlope dX (-d)) endSlope = true
    · simp [if_pos hbrk] at hcell
    · simp only [if_neg hbrk, Bool.not_eq_true] at hcell
      rw [Bool.not_eq_true] at hbrk
      have hrevdir : ∀ c ∈ (if sqrtLeRadius dX (-d) env.radius then
          [(env.cellX dX (-d), env.cellY dX (-d))] else ([] : List (Int × Int))),
          RevOk env d endSlope c := by
        intro c hc
        by_cases hs : sqrtLeRadius dX (-d) env.radius
        · simp [hs] at hc
          subst hc
          exact ⟨dX, d, rfl, rfl, hdX, hdX0, le_refl d, hd, hb, hs, hbrk⟩
        · simp [hs] at hc
      by_cases hblk : st.blocked
      · simp only [if_pos hblk] at hcell
        by_cases hop : env.isOpaque (env.cellX dX (-d)) (env.cellY dX (-d))
        · simp only [if_pos hop] at hcell
          cases hcell
          refine ⟨hrevdir, ?_⟩
          intro c hc
          simp at hc
          subst hc
          exact hb
        · simp only [if_neg hop] at hcell
          cases hcell
          refine ⟨hrevdir, ?_⟩
          intro c hc
          simp at hc
          subst hc
          exact hb
      · simp only [if_neg hblk] at hcell
        by_cases hop : env.isOpaque (env.cellX dX (-d)) (env.cellY dX (-d)) = true ∧
            d < env.radius
        · simp only [if_pos hop] at hcell
          cases hcell
          obtain ⟨hnrev, hnque⟩ := hnest st.start (leftSlope dX (-d)) rfl hbrk
          constructor
          · intro c hc
            simp only [List.mem_append] at hc
            rcases hc with hc | hc
            · exact hrevdir c hc
            · obtain ⟨dX', d', h1, h2, h3, h4, h5, h6, h7, h8, h9⟩ := hnrev c hc
              refine ⟨dX', d', h1, h2, h3, h4, by omega, h6, h7, h8, ?_⟩
              exact slope_nlt_trans he (leftSlope_den_pos dX (-d))
                (leftSlope_den_pos dX' (-d')) hbrk h9
          · intro c hc
            simp only [List.mem_cons] at hc
            rcases hc with hc | hc
            · subst hc; exact hb
            · exact hnque c hc
        · simp only [if_neg hop] at hcell
          cases hcell
          refine ⟨hrevdir, ?_⟩
          intro c hc
          simp at hc
          subst hc
          exact hb

/-- Soundness of a row sweep, by induction over the remaining cells. -/
theorem scanRow_sound (env : FovEnv) (endSlope : Slope)
    (nested : Slope → Slope → Logs) (d : Int)
    (hd : d < env.radius) (he : 0 < endSlope.den)
    (hnest : ∀ s e dX, -d ≤ dX → dX ≤ 0 → e = leftSlope dX (-d) →
      Slope.lt e endSlope = false →
      (∀ c ∈ (nested s e).rev, RevOk env (d + 1) e c) ∧
      (∀ c ∈ (nested s e).que, env.inBounds c.1 c.2 = true)) :
    ∀ (k : Nat) (st : ScanState), ((k : Int) ≤ d) →
      (∀ c ∈ (scanRow env endSlope nested d k st).1.rev, RevOk env d endSlope c) ∧
      (∀ c ∈ (scanRow env endSlope nested d k st).1.que, env.inBounds c.1 c.2 = true) := by
  intro k
  induction k with
  | zero =>
    intro st hk
    rw [scanRow]
    cases hcc : scanCell env endSlope nested d (-((0 : Nat) : Int)) st with
    | brk => simp [Logs.nil]
    | cont logs st' =>
      have := scanCell_sound env endSlope nested d (-((0 : Nat) : Int)) st (by omega)
        (by omega) hd he
        (fun s e hedef helt => hnest s e _ (by omega) (by omega) hedef helt)
        logs st' hcc
      simpa using this
  | succ k' ih =>
    intro st hk
    rw [scanRow]
    cases hcc : scanCell env endSlope nested d (-((k' + 1 : Nat) : Int)) st with
    | brk => simp [Logs.nil]
    | cont logs st' =>
      have h1 := scanCell_sound env endSlope nested d (-((k' + 1 : Nat) : Int)) st
        (by push_cast; omega) (by push_cast; omega) hd he
        (fun s e hedef helt => hnest s e _ (by push_cast; omega) (by push_cast; omega)
          hedef helt)
        logs st' hcc
      have h2 := ih st' (by push_cast at hk ⊢; omega)
      simp only [Logs.app]
      constructor
      · intro c hc
        simp only [List.mem_append] at hc
        rcases hc with hc | hc
        · exact h1.1 c hc
        · exact h2.1 c hc
      · intro c hc
        simp only [List.mem_append] at hc
        rcases hc with hc | hc
        · exact h1.2 c hc
        · exact h2.2 c hc

/-- Soundness of the row loop, by induction on fuel. -/
theorem rowsGo_sound (env : FovEnv) :
    ∀ fuel endSlope d st, 1 ≤ d → 0 < endSlope.den →
      (∀ c ∈ (rowsGo env fuel endSlope d st).rev, RevOk env d endSlope c) ∧
      (∀ c ∈ (rowsGo env fuel endSlope d st).que, env.inBounds c.1 c.2 = true) := by
  intro fuel
  induction fuel with
  | zero =>
    intro endSlope d st _ _
    rw [rowsGo]
    simp [Logs.nil]
  | succ fuel ih =>
    intro endSlope d st hd he
    rw [rowsGo]
    by_cases hcond : d < env.radius ∧ st.blocked = false
    · simp only [if_pos hcond]
      have hnest : ∀ s e dX, -d ≤ dX → dX ≤ 0 → e = leftSlope dX (-d) →
          Slope.lt e endSlope = false →
          (∀ c ∈ ((fun s e => if Slope.lt s e then Logs.nil
            else rowsGo env fuel e (d + 1) ⟨s, slopeZero, false⟩) s e).rev,
            RevOk env (d + 1) e c) ∧
          (∀ c ∈ ((fun s e => if Slope.lt s e then Logs.nil
            else rowsGo env fuel e (d + 1) ⟨s, slopeZero, false⟩) s e).que,
            env.inBounds c.1 c.2 = true) := by
        intro s e dX _ _ hedef _
        by_cases hlt : Slope.lt s e
        · simp [hlt, Logs.nil]
        · simp only [hlt, if_false, Bool.false_eq_true]
          have hepos : 0 < e.den := by
            rw [hedef]; exact leftSlope_den_pos dX (-d)
          have := ih e (d + 1) ⟨s, slopeZero, false⟩ (by omega) hepos
          simpa using this
      have hrow := scanRow_sound env endSlope
        (fun s e => if Slope.lt s e then Logs.nil
          else rowsGo env fuel e (d + 1) ⟨s, slopeZero, false⟩)
        d hcond.1 he hnest d.toNat st (by omega)
      have hrest := ih endSlope (d + 1)
        (scanRow env endSlope
          (fun s e => if Slope.lt s e then Logs.nil
            else rowsGo env fuel e (d + 1) ⟨s, slopeZero, false⟩)
          d d.toNat st).2 (by omega) he
      simp only [Logs.app]
      constructor
      · intro c hc
        simp only [List.mem_append] at hc
        rcases hc with hc | hc
        · exact hrow.1 c hc
        · obtain ⟨dX', d', h1, h2, h3, h4, h5, h6, h7, h8, h9⟩ := hrest.1 c hc
          exact ⟨dX', d', h1, h2, h3, h4, by omega, h6, h7, h8, h9⟩
      · intro c hc
        simp only [List.mem_append] at hc
        rcases hc with hc | hc
        · exact hrow.2 c hc
        · exact hrest.2 c hc
    · simp only [if_neg hcond]
      simp [Logs.nil]

/-- Soundness of a full `castShadows` call. -/
theorem castShadowsF_sound (env : FovEnv) (fuel : Nat) (row : Int) (s e : Slope)
    (hrow : 1 ≤ row) (he : 0 < e.den) :
    (∀ c ∈ (castShadowsF env fuel row s e).rev, RevOk env row e c) ∧
    (∀ c ∈ (castShadowsF env fuel row s e).que, env.inBounds c.1 c.2 = true) := by
  unfold castShadowsF
  by_cases hlt : Slope.lt s e
  · simp [hlt, Logs.nil]
  · simp only [hlt, if_false, Bool.false_eq_true]
    exact rowsGo_sound env fuel e row ⟨s, slopeZero, false⟩ hrow he

/-! ### Fuel independence of the scan -/

theorem scanCell_congr (env : FovEnv) (endSlope : Slope)
    (nested₁ nested₂ : Slope → Slope → Logs) (d dX : Int) (st : ScanState)
    (h : ∀ s e, nested₁ s e = nested₂ s e) :
    scanCell env endSlope nested₁ d dX st = scanCell env endSlope nested₂ d dX st := by
  unfold scanCell
  simp only [h]

theorem scanRow_congr (env : FovEnv) (endSlope : Slope)
    (nested₁ nested₂ : Slope → Slope → Logs) (d : Int)
    (h : ∀ s e, nested₁ s e = nested₂ s e) :
    ∀ (k : Nat) (st : ScanState),
      scanRow env endSlope nested₁ d k st = scanRow env endSlope nested₂ d k st := by
  intro k
  induction k with
  | zero =>
    intro st
    rw [scanRow, scanRow, scanCell_congr env endSlope nested₁ nested₂ d _ st h]
  | succ k' ih =>
    intro st
    rw [scanRow, scanRow, scanCell_congr env endSlope nested₁ nested₂ d _ st h]
    cases scanCell env endSlope nested₂ d (-((k' + 1 : Nat) : Int)) st with
    | brk => rfl
    | cont logs st' => simp only [ih st']

/-- Once the row counter has reached the radius, the row loop is a no-op for
any fuel. -/
theorem rowsGo_stop (env : FovEnv) (fuel : Nat) (endSlope : Slope) (d : Int)
    (st : ScanState) (hd : env.radius ≤ d) :
    rowsGo env fuel endSlope d st = Logs.nil := by
  cases fuel with
  | zero => rw [rowsGo]
  | succ fuel =>
    rw [rowsGo]
    have : ¬(d < env.radius ∧ st.blocked = false) := by
      rintro ⟨h1, -⟩; omega
    rw [if_neg this]

/-- Fuel independence: any two fuels at least `(radius - d).toNat` give the
same scan result.  This is the termination argument of `castShadows`: each
recursive call strictly increases the row, and rows only run while
`distance < radius`. -/
theorem rowsGo_fuel (env : FovEnv) :
    ∀ (f₁ : Nat), ∀ (f₂ : Nat) (d : Int) (endSlope : Slope) (st : ScanState),
      (env.radius - d).toNat ≤ f₁ → (env.radius - d).toNat ≤ f₂ →
      rowsGo env f₁ endSlope d st = rowsGo env f₂ endSlope d st := by
  intro f₁
  induction f₁ with
  | zero =>
    intro f₂ d endSlope st h₁ h₂
    have hd : env.radius ≤ d := by omega
    rw [rowsGo_stop env 0 endSlope d st hd, rowsGo_stop env f₂ endSlope d st hd]
  | succ a ih =>
    intro f₂ d endSlope st h₁ h₂
    cases f₂ with
    | zero =>
      have hd : env.radius ≤ d := by omega
      rw [rowsGo_stop env (a + 1) endSlope d st hd, rowsGo_stop env 0 endSlope d st hd]
    | succ b =>
      rw [rowsGo, rowsGo]
      by_cases hcond : d < env.radius ∧ st.blocked = false
      · simp only [if_pos hcond]
        have hrec : (env.radius - (d + 1)).toNat ≤ a := by omega
        have hrec' : (env.radius - (d + 1)).toNat ≤ b := by omega
        have hnest : ∀ s e,
            (if Slope.lt s e then Logs.nil
              else rowsGo env a e (d + 1) ⟨s, slopeZero, false⟩) =
            (if Slope.lt s e then Logs.nil
              else rowsGo env b e (d + 1) ⟨s, slopeZero, false⟩) := by
          intro s e
          by_cases hlt : Slope.lt s e
          · simp [hlt]
          · simp only [hlt, if_false, Bool.false_eq_true]
            exact ih b (d + 1) e ⟨s, slopeZero, false⟩ hrec hrec'
        rw [scanRow_congr env endSlope _ _ d hnest d.toNat st]
        rw [ih b (d + 1) endSlope _ hrec hrec']
      · simp only [if_neg hcond]

/-- Fuel independence at the level of a full `castShadows` call. -/
theorem castShadowsF_fuel (env : FovEnv) (f₁ f₂ : Nat) (row : Int) (s e : Slope)
    (h₁ : (env.radius - row).toNat ≤ f₁) (h₂ : (env.radius - row).toNat ≤ f₂) :
    castShadowsF env f₁ row s e = castShadowsF env f₂ row s e := by
  unfold castShadowsF
  by_cases hlt : Slope.lt s e
  · simp [hlt]
  · simp only [hlt, if_false, Bool.false_eq_true]
    exact rowsGo_fuel env f₁ f₂ row e ⟨s, slopeZero, false⟩ h₁ h₂

/-! ### Refresh-level helpers -/

theorem logs_app_nil (a : Logs) : a.app Logs.nil = a := by
  simp [Logs.app, Logs.nil]

theorem mem_foldl_rev (f : Octant → Logs) (c : Int × Int) :
    ∀ (L : List Octant) (init : Logs),
      (c ∈ (L.foldl (fun acc t => acc.app (f t)) init).rev ↔
        c ∈ init.rev ∨ ∃ t ∈ L, c ∈ (f t).rev) := by
  intro L
  induction L with
  | nil => intro init; simp
  | cons t L ih =>
    intro init
    rw [List.foldl_cons, ih]
    simp only [Logs.app, List.mem_append, List.mem_cons]
    constructor
    · rintro (⟨h | h⟩ | ⟨t', ht', h⟩)
      · exact Or.inl h
      · exact Or.inr ⟨t, Or.inl rfl, h⟩
      · exact Or.inr ⟨t', Or.inr ht', h⟩
    · rintro (h | ⟨t', ht' | ht', h⟩)
      · exact Or.inl (Or.inl h)
      · subst ht'; exact Or.inl (Or.inr h)
      · exact Or.inr ⟨t', ht', h⟩

theorem mem_foldl_que (f : Octant → Logs) (c : Int × Int) :
    ∀ (L : List Octant) (init : Logs),
      (c ∈ (L.foldl (fun acc t => acc.app (f t)) init).que ↔
        c ∈ init.que ∨ ∃ t ∈ L, c ∈ (f t).que) := by
  intro L
  induction L with
  | nil => intro init; simp
  | cons t L ih =>
    intro init
    rw [List.foldl_cons, ih]
    simp only [Logs.app, List.mem_append, List.mem_cons]
    constructor
    · rintro (⟨h | h⟩ | ⟨t', ht', h⟩)
      · exact Or.inl h
      · exact Or.inr ⟨t, Or.inl rfl, h⟩
      · exact Or.inr ⟨t', Or.inr ht', h⟩
    · rintro (h | ⟨t', ht' | ht', h⟩)
      · exact Or.inl (Or.inl h)
      · subst ht'; exact Or.inl (Or.inr h)
      · exact Or.inr ⟨t', ht', h⟩

theorem refreshFuel_rev_mem (fuel : Nat) (width height : Int)
    (isOpaque : Int → Int → Bool) (ox oy radius : Int) (c : Int × Int) :
    c ∈ (refreshFuel fuel width height isOpaque ox oy radius).rev ↔
      c = (ox, oy) ∨ ∃ t ∈ octantTransforms,
        c ∈ (castShadowsF ⟨width, height, isOpaque, ox, oy, t, radius⟩
          fuel 1 slopeOne slopeZero).rev := by
  unfold refreshFuel
  rw [mem_foldl_rev]
  simp

theorem refreshFuel_que_mem (fuel : Nat) (width height : Int)
    (isOpaque : Int → Int → Bool) (ox oy radius : Int) (c : Int × Int) :
    c ∈ (refreshFuel fuel width height isOpaque ox oy radius).que ↔
      ∃ t ∈ octantTransforms,
        c ∈ (castShadowsF ⟨width, height, isOpaque, ox, oy, t, radius⟩
          fuel 1 slopeOne slopeZero).que := by
  unfold refreshFuel
  rw [mem_foldl_que]
  simp

/-! ### Claims C4 and C10, and the C1 counterexample -/

/-- C4 (counterexample): an out-of-bounds origin is not silently skipped;
`refresh(5, 5, 2)` on a 3×3 grid passes the out-of-bounds coordinate
`(5, 5)` to the `reveal` callback (it is in fact the only revealed
coordinate). -/
theorem fov_oob_origin_reaches_reveal :
    (refresh 3 3 openGrid 5 5 2).rev = [(5, 5)] ∧ ¬((5 : Int) < 3) := by
  constructor
  · decide
  · decide

/-- C4 (amended): every coordinate queried through `isOpaque` lies within
grid bounds, and every coordinate passed to `reveal` is either the origin
(which `refresh` reveals unconditionally, even out of bounds) or lies
within grid bounds.  There is no precondition on the arguments, and the
embedding is total, so no error is raised. -/
theorem fov_callback_bounds (w h : Int) (iso : Int → Int → Bool)
    (ox oy radius : Int) :
    (∀ c ∈ (refresh w h iso ox oy radius).que,
      0 ≤ c.1 ∧ 0 ≤ c.2 ∧ c.1 < w ∧ c.2 < h) ∧
    (∀ c ∈ (refresh w h iso ox oy radius).rev,
      c = (ox, oy) ∨ (0 ≤ c.1 ∧ 0 ≤ c.2 ∧ c.1 < w ∧ c.2 < h)) := by
  constructor
  · intro c hc
    rw [refresh, refreshFuel_que_mem] at hc
    obtain ⟨t, -, hc⟩ := hc
    have hs := (castShadowsF_sound ⟨w, h, iso, ox, oy, t, radius⟩
      (radius.toNat + 1) 1 slopeOne slopeZero (by omega) (by simp [slopeZero])).2
    have hb := hs c hc
    simp only [FovEnv.inBounds, decide_eq_true_eq] at hb
    exact ⟨hb.1, hb.2.1, hb.2.2.1, hb.2.2.2⟩
  · intro c hc
    rw [refresh, refreshFuel_rev_mem] at hc
    rcases hc with hc | ⟨t, -, hc⟩
    · exact Or.inl hc
    · have hs := (castShadowsF_sound ⟨w, h, iso, ox, oy, t, radius⟩
        (radius.toNat + 1) 1 slopeOne slopeZero (by omega) (by simp [slopeZero])).1
      obtain ⟨dX, d, -, -, -, -, -, -, hb, -, -⟩ := hs c hc
      simp only [FovEnv.inBounds, decide_eq_true_eq] at hb
      exact Or.inr ⟨hb.1, hb.2.1, hb.2.2.1, hb.2.2.2⟩

/-- C10: `refresh` terminates for every combination of bounds, callback,
origin and radius: its recursion is fuel-independent once the fuel reaches
`radius.toNat + 1` (each recursive `castShadows` call starts at a strictly
larger row and rows only run while `distance < radius`), and a radius at
most `0` reveals only the origin cell and queries nothing. -/
theorem refresh_terminates (w h : Int) (iso : Int → Int → Bool)
    (ox oy radius : Int) (fuel : Nat) (hf : radius.toNat + 1 ≤ fuel) :
    refreshFuel fuel w h iso ox oy radius = refresh w h iso ox oy radius ∧
    (radius ≤ 0 → (refresh w h iso ox oy radius).rev = [(ox, oy)] ∧
      (refresh w h iso ox oy radius).que = []) := by
  constructor
  · have hcast : ∀ t : Octant,
        castShadowsF ⟨w, h, iso, ox, oy, t, radius⟩ fuel 1 slopeOne slopeZero =
        castShadowsF ⟨w, h, iso, ox, oy, t, radius⟩ (radius.toNat + 1) 1
          slopeOne slopeZero := by
      intro t
      exact castShadowsF_fuel _ _ _ _ _ _ (by simp; omega) (by simp; omega)
    rw [refresh]
    unfold refreshFuel
    simp only [hcast]
  · intro hr
    have hnil : ∀ t : Octant,
        castShadowsF ⟨w, h, iso, ox, oy, t, radius⟩ (radius.toNat + 1) 1
          slopeOne slopeZero = Logs.nil := by
      intro t
      unfold castShadowsF
      have : Slope.lt slopeOne slopeZero = false := by decide
      rw [this]
      simp only [Bool.false_eq_true, if_false]
      exact rowsGo_stop _ _ _ _ _ (by simp; omega)
    rw [refresh]
    unfold refreshFuel
    simp [octantTransforms, hnil, logs_app_nil]

/-- C1 (counterexample): on a fully open 5×5 grid, `refresh(2, 2, 1)`
reveals only the origin `(2, 2)`; in particular the orthogonal neighbour
`(1, 2)`, which the claim requires to be revealed, is not revealed
(the row loop of `castShadows` only runs while `distance < radius`). -/
theorem fov_radius_one_only_origin :
    (refresh 5 5 openGrid 2 2 1).rev = [(2, 2)] ∧
    (1, 2) ∉ (refresh 5 5 openGrid 2 2 1).rev := by
  constructor
  · decide
  · decide

/-! ### Open-grid completeness (for claim C1) -/

/-- The `start < rightSlope` skip guard never fires while `start = 1` on a
cone cell. -/
theorem slopeOne_nlt_rightSlope (dX d : Int) (hd : 1 ≤ d) (h1 : -d ≤ dX) :
    Slope.lt slopeOne (rightSlope dX (-d)) = false := by
  unfold rightSlope mkSlope
  rw [if_pos (by omega : 2 * (-d) - 1 < 0)]
  simp only [slopeOne, Slope.lt, decide_eq_false_iff_not, not_lt]
  omega

/-- The `end > leftSlope` break guard never fires while `end = 0` on a cone
cell. -/
theorem leftSlope_nlt_slopeZero (dX d : Int) (hd : 1 ≤ d) (h0 : dX ≤ 0) :
    Slope.lt (leftSlope dX (-d)) slopeZero = false := by
  unfold leftSlope mkSlope
  rw [if_pos (by omega : 2 * (-d) + 1 < 0)]
  simp only [slopeZero, Slope.lt, decide_eq_false_iff_not, not_lt]
  omega

/-- On an open grid, a single cell step with `start = 1`, `end = 0` and
`blocked = false` reveals the cell exactly when it is in bounds and within
the Euclidean radius, queries it exactly when it is in bounds, and leaves
the state unchanged. -/
theorem open_scanCell (env : FovEnv) (henv : ∀ a b, env.isOpaque a b = false)
    (nested : Slope → Slope → Logs) (ns : Slope) (d dX : Int)
    (hd : 1 ≤ d) (h1 : -d ≤ dX) (h0 : dX ≤ 0) :
    scanCell env slopeZero nested d dX ⟨slopeOne, ns, false⟩ =
      .cont
        ⟨(if env.inBounds (env.cellX dX (-d)) (env.cellY dX (-d)) = true ∧
             sqrtLeRadius dX (-d) env.radius = true
           then [(env.cellX dX (-d), env.cellY dX (-d))] else []),
         (if env.inBounds (env.cellX dX (-d)) (env.cellY dX (-d)) = true
           then [(env.cellX dX (-d), env.cellY dX (-d))] else [])⟩
        ⟨slopeOne, ns, false⟩ := by
  unfold scanCell
  split_ifs <;>
    simp_all [slopeOne_nlt_rightSlope dX d hd h1, leftSlope_nlt_slopeZero dX d hd h0,
      henv, Logs.nil]

/-- On an open grid, a row sweep with `start = 1`, `end = 0`,
`blocked = false` preserves the state, and reveals exactly the in-bounds,
within-radius cells of the row. -/
theorem open_scanRow (env : FovEnv) (henv : ∀ a b, env.isOpaque a b = false)
    (nested : Slope → Slope → Logs) (ns : Slope) (d : Int) (hd : 1 ≤ d) :
    ∀ (k : Nat), ((k : Int) ≤ d) →
      (scanRow env slopeZero nested d k ⟨slopeOne, ns, false⟩).2 =
        ⟨slopeOne, ns, false⟩ ∧
      (∀ c, c ∈ (scanRow env slopeZero nested d k ⟨slopeOne, ns, false⟩).1.rev ↔
        ∃ dX : Int, -(k : Int) ≤ dX ∧ dX ≤ 0 ∧
          c = (env.cellX dX (-d), env.cellY dX (-d)) ∧
          env.inBounds (env.cellX dX (-d)) (env.cellY dX (-d)) = true ∧
          sqrtLeRadius dX (-d) env.radius = true) := by
  intro k
  induction k with
  | zero =>
    intro hk
    rw [scanRow, open_scanCell env henv nested ns d (-((0 : Nat) : Int)) hd
      (by omega) (by omega)]
    constructor
    · rfl
    · intro c
      constructor
      · intro hc
        simp at hc
        obtain ⟨⟨hb2, hs2⟩, hceq⟩ := hc
        exact ⟨0, by omega, by omega, by simpa using hceq, by simpa using hb2,
          by simpa using hs2⟩
      · rintro ⟨dX, hge, hle, hceq, hbound, hsq⟩
        have hdx : dX = 0 := by omega
        subst hdx
        simp
        exact ⟨⟨by simpa using hbound, by simpa using hsq⟩, by simpa using hceq⟩
  | succ k' ih =>
    intro hk
    have ihh := ih (by push_cast at hk ⊢; omega)
    rw [scanRow, open_scanCell env henv nested ns d (-((k' + 1 : Nat) : Int)) hd
      (by push_cast; omega) (by push_cast; omega)]
    simp only []
    constructor
    · simpa [Logs.app] using ihh.1
    · intro c
      simp only [Logs.app, List.mem_append]
      constructor
      · rintro (hc | hc)
        · simp at hc
          obtain ⟨⟨hb2, hs2⟩, hceq⟩ := hc
          refine ⟨-1 + -(k' : Int), by push_cast; omega, by omega, ?_, ?_, ?_⟩
          · simpa using hceq
          · simpa using hb2
          · simpa using hs2
        · obtain ⟨dX, hge, hle, hceq, hbound, hsq⟩ := (ihh.2 c).1 hc
          exact ⟨dX, by push_cast at hge ⊢; omega, hle, hceq, hbound, hsq⟩
      · rintro ⟨dX, hge, hle, hceq, hbound, hsq⟩
        by_cases hdx : dX = -((k' + 1 : Nat) : Int)
        · subst hdx
          left
          simp
          exact ⟨⟨by simpa using hbound, by simpa using hsq⟩, by simpa using hceq⟩
        · right
          exact (ihh.2 c).2 ⟨dX, by push_cast at hge ⊢; omega, hle, hceq, hbound, hsq⟩

/-- On an open grid, the row loop started at row `d` with `start = 1`,
`end = 0`, `blocked = false` reveals exactly the in-bounds, within-radius
cone cells of rows `d, …, radius - 1`. -/
theorem open_rowsGo (env : FovEnv) (henv : ∀ a b, env.isOpaque a b = false)
    (ns : Slope) :
    ∀ (fuel : Nat) (d : Int), 1 ≤ d → (env.radius - d).toNat < fuel →
      ∀ c, c ∈ (rowsGo env fuel slopeZero d ⟨slopeOne, ns, false⟩).rev ↔
        ∃ dX d' : Int, -d' ≤ dX ∧ dX ≤ 0 ∧ d ≤ d' ∧ d' < env.radius ∧
          c = (env.cellX dX (-d'), env.cellY dX (-d')) ∧
          env.inBounds (env.cellX dX (-d')) (env.cellY dX (-d')) = true ∧
          sqrtLeRadius dX (-d') env.radius = true := by
  intro fuel
  induction fuel with
  | zero => intro d hd hf; omega
  | succ f ih =>
    intro d hd hf c
    rw [rowsGo]
    by_cases hdr : d < env.radius
    · rw [if_pos ⟨hdr, rfl⟩]
      simp only []
      have hrow := open_scanRow env henv
        (fun s e => if Slope.lt s e then Logs.nil
          else rowsGo env f e (d + 1) ⟨s, slopeZero, false⟩) ns d hd d.toNat
        (by omega)
      rw [hrow.1]
      simp only [Logs.app, List.mem_append]
      have hrec := ih (d + 1) (by omega) (by omega)
      constructor
      · rintro (hc | hc)
        · obtain ⟨dX, hge, hle, hceq, hbound, hsq⟩ := (hrow.2 c).1 hc
          exact ⟨dX, d, by omega, hle, by omega, hdr, hceq, hbound, hsq⟩
        · obtain ⟨dX, d', h1, h2, h3, h4, h5, h6, h7⟩ := (hrec c).1 hc
          exact ⟨dX, d', h1, h2, by omega, h4, h5, h6, h7⟩
      · rintro ⟨dX, d', h1, h2, h3, h4, h5, h6, h7⟩
        by_cases hdd : d' = d
        · subst hdd
          left
          exact (hrow.2 c).2 ⟨dX, by omega, h2, h5, h6, h7⟩
        · right
          exact (hrec c).2 ⟨dX, d', h1, h2, by omega, h4, h5, h6, h7⟩
    · rw [if_neg (by rintro ⟨h, -⟩; exact hdr h)]
      simp only [Logs.nil, List.not_mem_nil, false_iff, not_exists]
      intro dX d'
      rintro ⟨-, -, h3, h4, -⟩
      omega

/-- Characterisation of the cells revealed by one octant's `castShadows` on
an open grid. -/
theorem open_castShadows_mem (w h ox oy r : Int) (t : Octant) (c : Int × Int) :
    c ∈ (castShadowsF ⟨w, h, openGrid, ox, oy, t, r⟩ (r.toNat + 1) 1
        slopeOne slopeZero).rev ↔
      ∃ dX d' : Int, -d' ≤ dX ∧ dX ≤ 0 ∧ 1 ≤ d' ∧ d' < r ∧
        c.1 = ox + dX * t.xx + (-d') * t.xy ∧
        c.2 = oy + dX * t.yx + (-d') * t.yy ∧
        (0 ≤ c.1 ∧ 0 ≤ c.2 ∧ c.1 < w ∧ c.2 < h) ∧
        (0 ≤ r ∧ dX * dX + d' * d' ≤ r * r) := by
  unfold castShadowsF
  rw [if_neg (by rw [show Slope.lt slopeOne slopeZero = false from by decide]; simp)]
  rw [open_rowsGo ⟨w, h, openGrid, ox, oy, t, r⟩ (fun a b => rfl) slopeZero
    (r.toNat + 1) 1 (by omega) (by dsimp only; omega) c]
  obtain ⟨c1, c2⟩ := c
  simp only [FovEnv.cellX, FovEnv.cellY, FovEnv.inBounds, sqrtLeRadius,
    decide_eq_true_eq, neg_mul_neg, Prod.mk.injEq]
  constructor
  · rintro ⟨dX, d', h1, h2, h3, h4, ⟨hx, hy⟩, h6, h7⟩
    subst hx
    subst hy
    exact ⟨dX, d', h1, h2, h3, h4, rfl, rfl, h6, h7.1, h7.2⟩
  · rintro ⟨dX, d', h1, h2, h3, h4, hx, hy, hb, hr0, hsq⟩
    subst hx
    subst hy
    exact ⟨dX, d', h1, h2, h3, h4, ⟨rfl, rfl⟩, hb, hr0, hsq⟩

set_option maxHeartbeats 1600000 in
/-- C1 (amended): on a fully unobstructed grid, `refresh(originX, originY, R)`
reveals exactly the origin (unconditionally, even out of bounds) together
with the in-bounds cells whose Chebyshev distance from the origin is
between `1` and `R - 1` and whose Euclidean distance is at most `R`
(the row loop only runs while `distance < radius`, so the cells at
Chebyshev distance exactly `R` claimed by the spec are never scanned). -/
theorem fov_open_grid_characterization (w h ox oy r x y : Int) :
    ((x, y) ∈ (refresh w h openGrid ox oy r).rev) ↔
      ((x = ox ∧ y = oy) ∨
        (0 ≤ x ∧ 0 ≤ y ∧ x < w ∧ y < h ∧ ¬(x = ox ∧ y = oy) ∧
         ox - (r - 1) ≤ x ∧ x ≤ ox + (r - 1) ∧
         oy - (r - 1) ≤ y ∧ y ≤ oy + (r - 1) ∧
         (x - ox) * (x - ox) + (y - oy) * (y - oy) ≤ r * r)) := by
  rw [refresh, refreshFuel_rev_mem]
  constructor
  · rintro (hc | ⟨t, ht, hc⟩)
    · rw [Prod.mk.injEq] at hc
      exact Or.inl hc
    · rw [open_castShadows_mem] at hc
      obtain ⟨dX, d', h1, h2, h3, h4, hx, hy, hb, hr0, hsq⟩ := hc
      dsimp only at hx hy hb
      simp only [octantTransforms, List.mem_cons, List.not_mem_nil, or_false] at ht
      rcases ht with rfl | rfl | rfl | rfl | rfl | rfl | rfl | rfl <;>
        dsimp only at hx hy <;> right
      · have e1 : x - ox = dX := by omega
        have e2 : y - oy = -d' := by omega
        refine ⟨hb.1, hb.2.1, hb.2.2.1, hb.2.2.2, by omega, by omega, by omega,
          by omega, by omega, ?_⟩
        rw [e1, e2]; nlinarith [hsq]
      · have e1 : x - ox = dX := by omega
        have e2 : y - oy = d' := by omega
        refine ⟨hb.1, hb.2.1, hb.2.2.1, hb.2.2.2, by omega, by omega, by omega,
          by omega, by omega, ?_⟩
        rw [e1, e2]; nlinarith [hsq]
      · have e1 : x - ox = -dX := by omega
        have e2 : y - oy = -d' := by omega
        refine ⟨hb.1, hb.2.1, hb.2.2.1, hb.2.2.2, by omega, by omega, by omega,
          by omega, by omega, ?_⟩
        rw [e1, e2]; nlinarith [hsq]
      · have e1 : x - ox = -dX := by omega
        have e2 : y - oy = d' := by omega
        refine ⟨hb.1, hb.2.1, hb.2.2.1, hb.2.2.2, by omega, by omega, by omega,
          by omega, by omega, ?_⟩
        rw [e1, e2]; nlinarith [hsq]
      · have e1 : x - ox = -d' := by omega
        have e2 : y - oy = dX := by omega
        refine ⟨hb.1, hb.2.1, hb.2.2.1, hb.2.2.2, by omega, by omega, by omega,
          by omega, by omega, ?_⟩
        rw [e1, e2]; nlinarith [hsq]
      · have e1 : x - ox = -d' := by omega
        have e2 : y - oy = -dX := by omega
        refine ⟨hb.1, hb.2.1, hb.2.2.1, hb.2.2.2, by omega, by omega, by omega,
          by omega, by omega, ?_⟩
        rw [e1, e2]; nlinarith [hsq]
      · have e1 : x - ox = d' := by omega
        have e2 : y - oy = dX := by omega
        refine ⟨hb.1, hb.2.1, hb.2.2.1, hb.2.2.2, by omega, by omega, by omega,
          by omega, by omega, ?_⟩
        rw [e1, e2]; nlinarith [hsq]
      · have e1 : x - ox = d' := by omega
        have e2 : y - oy = -dX := by omega
        refine ⟨hb.1, hb.2.1, hb.2.2.1, hb.2.2.2, by omega, by omega, by omega,
          by omega, by omega, ?_⟩
        rw [e1, e2]; nlinarith [hsq]
  · rintro (⟨hx, hy⟩ | ⟨hb1, hb2, hb3, hb4, hno, hc1, hc2, hc3, hc4, hsq⟩)
    · exact Or.inl (by rw [hx, hy])
    · right
      by_cases hu : x - ox ≤ 0
      · by_cases hv : y - oy ≤ 0
        · by_cases hcmp : y - oy ≤ x - ox
          · refine ⟨⟨1, 0, 0, 1⟩, by simp [octantTransforms], ?_⟩
            rw [open_castShadows_mem]
            refine ⟨x - ox, -(y - oy), by omega, by omega, by omega, by omega,
              by dsimp only; omega, by dsimp only; omega,
              ⟨hb1, hb2, hb3, hb4⟩, by omega, by nlinarith [hsq]⟩
          · refine ⟨⟨0, 1, 1, 0⟩, by simp [octantTransforms], ?_⟩
            rw [open_castShadows_mem]
            refine ⟨y - oy, -(x - ox), by omega, by omega, by omega, by omega,
              by dsimp only; omega, by dsimp only; omega,
              ⟨hb1, hb2, hb3, hb4⟩, by omega, by nlinarith [hsq]⟩
        · by_cases hcmp : -(y - oy) ≤ x - ox
          · refine ⟨⟨1, 0, 0, -1⟩, by simp [octantTransforms], ?_⟩
            rw [open_castShadows_mem]
            refine ⟨x - ox, y - oy, by omega, by omega, by omega, by omega,
              by dsimp only; omega, by dsimp only; omega,
              ⟨hb1, hb2, hb3, hb4⟩, by omega, by nlinarith [hsq]⟩
          · refine ⟨⟨0, 1, -1, 0⟩, by simp [octantTransforms], ?_⟩
            rw [open_castShadows_mem]
            refine ⟨-(y - oy), -(x - ox), by omega, by omega, by omega, by omega,
              by dsimp only; omega, by dsimp only; omega,
              ⟨hb1, hb2, hb3, hb4⟩, by omega, by nlinarith [hsq]⟩
      · by_cases hv : y - oy ≤ 0
        · by_cases hcmp : y - oy ≤ -(x - ox)
          · refine ⟨⟨-1, 0, 0, 1⟩, by simp [octantTransforms], ?_⟩
            rw [open_castShadows_mem]
            refine ⟨-(x - ox), -(y - oy), by omega, by omega, by omega, by omega,
              by dsimp only; omega, by dsimp only; omega,
              ⟨hb1, hb2, hb3, hb4⟩, by omega, by nlinarith [hsq]⟩
          · refine ⟨⟨0, -1, 1, 0⟩, by simp [octantTransforms], ?_⟩
            rw [open_castShadows_mem]
            refine ⟨y - oy, x - ox, by omega, by omega, by omega, by omega,
              by dsimp only; omega, by dsimp only; omega,
              ⟨hb1, hb2, hb3, hb4⟩, by omega, by nlinarith [hsq]⟩
        · by_cases hcmp : x - ox ≤ y - oy
          · refine ⟨⟨-1, 0, 0, -1⟩, by simp [octantTransforms], ?_⟩
            rw [open_castShadows_mem]
            refine ⟨-(x - ox), y - oy, by omega, by omega, by omega, by omega,
              by dsimp only; omega, by dsimp only; omega,
              ⟨hb1, hb2, hb3, hb4⟩, by omega, by nlinarith [hsq]⟩
          · refine ⟨⟨0, -1, -1, 0⟩, by simp [octantTransforms], ?_⟩
            rw [open_castShadows_mem]
            refine ⟨-(y - oy), x - ox, by omega, by omega, by omega, by omega,
              by dsimp only; omega, by dsimp only; omega,
              ⟨hb1, hb2, hb3, hb4⟩, by omega, by nlinarith [hsq]⟩

/-! ### Machinery for claim C6 (shadow blocking)

The grid for C6 has exactly one opaque cell.  The lemmas below characterise
the scan of an octant whose coordinates place the opaque cell at
`(deltaX, distance) = (-p, q)`:  rows before `q` leave the state unchanged,
row `q` reveals the opaque cell, recurses with `end = leftSlope(-p, q)` and
ends either still blocked (the octant dies) or with
`start = rightSlope(-p, q)`, and later rows are scanned with that narrowed
`start`, which skips every farther cell on the same ray. -/

/-- A cell step on a non-opaque cell with `blocked = false` and `end = 0`
leaves the state unchanged; anything it reveals is that very cell, and the
reveal implies the skip guard `start < rightSlope` did not fire. -/
theorem scanCell_open_cont (env : FovEnv) (nested : Slope → Slope → Logs)
    (d dX : Int) (st : ScanState) (hd : 1 ≤ d) (h0 : dX ≤ 0)
    (hblk : st.blocked = false)
    (hnop : env.isOpaque (env.cellX dX (-d)) (env.cellY dX (-d)) = false) :
    ∃ logs : Logs, scanCell env slopeZero nested d dX st = .cont logs st ∧
      ∀ c ∈ logs.rev, c = (env.cellX dX (-d), env.cellY dX (-d)) ∧
        Slope.lt st.start (rightSlope dX (-d)) = false := by
  unfold scanCell
  by_cases hguard : ¬(env.inBounds (env.cellX dX (-d)) (env.cellY dX (-d)) = true) ∨
      Slope.lt st.start (rightSlope dX (-d)) = true
  · refine ⟨Logs.nil, ?_, ?_⟩
    · rw [if_pos hguard]
    · intro c hc
      simp [Logs.nil] at hc
  · rw [if_neg hguard]
    push_neg at hguard
    rw [if_neg (by rw [leftSlope_nlt_slopeZero dX d hd h0]; simp)]
    refine ⟨⟨(if sqrtLeRadius dX (-d) env.radius = true
        then [(env.cellX dX (-d), env.cellY dX (-d))] else []),
      [(env.cellX dX (-d), env.cellY dX (-d))]⟩, ?_, ?_⟩
    · simp only [hblk, Bool.false_eq_true, if_false]
      rw [if_neg (by rw [hnop]; simp)]
    · intro c hc
      have hlt : Slope.lt st.start (rightSlope dX (-d)) = false :=
        Bool.eq_false_iff.mpr hguard.2
      constructor
      · by_cases hs : sqrtLeRadius dX (-d) env.radius = true
        · simp [hs] at hc
          exact hc
        · simp [hs] at hc
      · exact hlt

/-- A row sweep over non-opaque cells with `blocked = false` and `end = 0`
leaves the state unchanged; everything it reveals is a cell of the row
whose `start < rightSlope` skip guard did not fire. -/
theorem scanRow_open_cells (env : FovEnv) (nested : Slope → Slope → Logs)
    (d : Int) (hd : 1 ≤ d) :
    ∀ (k : Nat) (st : ScanState), st.blocked = false →
      (∀ dX : Int, -(k : Int) ≤ dX → dX ≤ 0 →
        env.isOpaque (env.cellX dX (-d)) (env.cellY dX (-d)) = false) →
      (scanRow env slopeZero nested d k st).2 = st ∧
      ∀ c ∈ (scanRow env slopeZero nested d k st).1.rev,
        ∃ dX : Int, -(k : Int) ≤ dX ∧ dX ≤ 0 ∧
          c = (env.cellX dX (-d), env.cellY dX (-d)) ∧
          Slope.lt st.start (rightSlope dX (-d)) = false := by
  intro k
  induction k with
  | zero =>
    intro st hblk hnop
    obtain ⟨logs, heq, hmem⟩ := scanCell_open_cont env nested d (-((0 : Nat) : Int))
      st hd (by omega) hblk (hnop _ (by omega) (by omega))
    rw [scanRow, heq]
    refine ⟨rfl, ?_⟩
    intro c hc
    obtain ⟨hceq, hlt⟩ := hmem c hc
    exact ⟨-((0 : Nat) : Int), by omega, by omega, hceq, hlt⟩
  | succ k' ih =>
    intro st hblk hnop
    obtain ⟨logs, heq, hmem⟩ := scanCell_open_cont env nested d
      (-((k' + 1 : Nat) : Int)) st hd (by push_cast; omega) hblk
      (hnop _ (by omega) (by push_cast; omega))
    rw [scanRow, heq]
    have ihh := ih st hblk (fun dX h1 h2 => hnop dX (by push_cast at h1 ⊢; omega) h2)
    simp only []
    constructor
    · exact ihh.1
    · intro c hc
      simp only [Logs.app, List.mem_append] at hc
      rcases hc with hc | hc
      · obtain ⟨hceq, hlt⟩ := hmem c hc
        exact ⟨-((k' + 1 : Nat) : Int), by omega, by push_cast; omega, hceq, hlt⟩
      · obtain ⟨dX, h1, h2, hceq, hlt⟩ := ihh.2 c hc
        exact ⟨dX, by push_cast at h1 ⊢; omega, h2, hceq, hlt⟩

/-- A row sweep over non-opaque cells that starts in the blocked state with
`end = 0` either stays blocked with an unchanged state, or switches to the
unblocked state `⟨newStart, newStart, false⟩` (the `blocked = false;
start = newStart` exit of an opaque run); everything it reveals is a cell
of the row. -/
theorem scanRow_blocked_cells (env : FovEnv) (nested : Slope → Slope → Logs)
    (d : Int) (hd : 1 ≤ d) :
    ∀ (k : Nat) (s₀ ns₀ : Slope),
      (∀ dX : Int, -(k : Int) ≤ dX → dX ≤ 0 →
        env.isOpaque (env.cellX dX (-d)) (env.cellY dX (-d)) = false) →
      ((scanRow env slopeZero nested d k ⟨s₀, ns₀, true⟩).2 = ⟨s₀, ns₀, true⟩ ∨
       (scanRow env slopeZero nested d k ⟨s₀, ns₀, true⟩).2 = ⟨ns₀, ns₀, false⟩) ∧
      ∀ c ∈ (scanRow env slopeZero nested d k ⟨s₀, ns₀, true⟩).1.rev,
        ∃ dX : Int, -(k : Int) ≤ dX ∧ dX ≤ 0 ∧
          c = (env.cellX dX (-d), env.cellY dX (-d)) := by
  intro k
  induction k with
  | zero =>
    intro s₀ ns₀ hnop
    rw [scanRow]
    unfold scanCell
    by_cases hguard : ¬(env.inBounds (env.cellX (-((0 : Nat) : Int)) (-d))
        (env.cellY (-((0 : Nat) : Int)) (-d)) = true) ∨
        Slope.lt (⟨s₀, ns₀, true⟩ : ScanState).start
          (rightSlope (-((0 : Nat) : Int)) (-d)) = true
    · rw [if_pos hguard]
      exact ⟨Or.inl rfl, by intro c hc; simp [Logs.nil] at hc⟩
    · rw [if_neg hguard]
      rw [if_neg (by rw [leftSlope_nlt_slopeZero _ d hd (by omega)]; simp)]
      rw [if_pos (by rfl)]
      rw [if_neg (by rw [hnop _ (by omega) (by omega)]; simp)]
      refine ⟨Or.inr rfl, ?_⟩
      intro c hc
      simp at hc
      exact ⟨0, by omega, by omega, hc.2⟩
  | succ k' ih =>
    intro s₀ ns₀ hnop
    rw [scanRow]
    unfold scanCell
    by_cases hguard : ¬(env.inBounds (env.cellX (-((k' + 1 : Nat) : Int)) (-d))
        (env.cellY (-((k' + 1 : Nat) : Int)) (-d)) = true) ∨
        Slope.lt (⟨s₀, ns₀, true⟩ : ScanState).start
          (rightSlope (-((k' + 1 : Nat) : Int)) (-d)) = true
    · rw [if_pos hguard]
      simp only []
      have ihh := ih s₀ ns₀ (fun dX h1 h2 => hnop dX (by push_cast at h1 ⊢; omega) h2)
      refine ⟨ihh.1, ?_⟩
      intro c hc
      simp only [Logs.nil, Logs.app, List.nil_append] at hc
      obtain ⟨dX, h1, h2, hceq⟩ := ihh.2 c hc
      exact ⟨dX, by push_cast at h1 ⊢; omega, h2, hceq⟩
    · rw [if_neg hguard]
      rw [if_neg (by rw [leftSlope_nlt_slopeZero _ d hd (by push_cast; omega)]; simp)]
      rw [if_pos (by rfl)]
      rw [if_neg (by rw [hnop _ (by omega) (by push_cast; omega)]; simp)]
      simp only []
      have hrest := scanRow_open_cells env nested d hd k' ⟨ns₀, ns₀, false⟩ rfl
        (fun dX h1 h2 => hnop dX (by push_cast at h1 ⊢; omega) h2)
      constructor
      · right
        exact hrest.1
      · intro c hc
        simp only [Logs.app, List.mem_append] at hc
        rcases hc with hc | hc
        · simp at hc
          exact ⟨-1 + -(k' : Int), by push_cast; omega, by omega, hc.2⟩
        · obtain ⟨dX, h1, h2, hceq, -⟩ := hrest.2 c hc
          exact ⟨dX, by push_cast at h1 ⊢; omega, h2, hceq⟩

/-- The row loop exits immediately when the state is blocked. -/
theorem rowsGo_blocked (env : FovEnv) (fuel : Nat) (endSlope : Slope) (d : Int)
    (st : ScanState) (hblk : st.blocked = true) :
    rowsGo env fuel endSlope d st = Logs.nil := by
  cases fuel with
  | zero => rw [rowsGo]
  | succ fuel =>
    rw [rowsGo]
    rw [if_neg (by rintro ⟨-, h⟩; rw [hblk] at h; exact Bool.true_eq_false.mp h)]

/-- Arithmetic of collinear cone points: if `(p, q)` and `(r, s)` lie on the
same ray through the origin of the octant (`p * s = q * r`) with
`0 ≤ p ≤ q`, `1 ≤ q` and `q < s`, then `0 ≤ r ≤ s` and `p + q < r + s`. -/
theorem ray_facts (p q r s : Int) (h0p : 0 ≤ p) (hpq : p ≤ q) (h1q : 1 ≤ q)
    (hps : p * s = q * r) (hqs : q < s) : 0 ≤ r ∧ r ≤ s ∧ p + q < r + s := by
  have hs0 : (0 : Int) < s := by omega
  have hq0 : (0 : Int) < q := by omega
  have h1 : 0 ≤ q * r := by
    rw [← hps]
    exact mul_nonneg h0p (le_of_lt hs0)
  have hr0 : 0 ≤ r := by
    by_contra hneg
    push_neg at hneg
    have : 0 < q * (-r) := mul_pos hq0 (by omega)
    nlinarith
  have hrs : r ≤ s := by
    have h2 : p * s ≤ q * s := mul_le_mul_of_nonneg_right hpq (le_of_lt hs0)
    have h3 : q * r ≤ q * s := by rw [← hps]; exact h2
    exact le_of_mul_le_mul_left h3 hq0
  have hsum : p + q < r + s := by
    have key : q * (r + s) = s * (p + q) := by linear_combination (-1 : Int) * hps
    have h4 : q * (p + q) < s * (p + q) :=
      mul_lt_mul_of_pos_right hqs (by omega)
    have h5 : q * (p + q) < q * (r + s) := by rw [key]; exact h4
    exact lt_of_mul_lt_mul_left h5 (le_of_lt hq0)
  exact ⟨hr0, hrs, hsum⟩

/-- On the same ray, the farther cell's left slope is strictly below the
opaque cell's left slope: the `end` of the nested recursion cuts it off. -/
theorem farther_leftSlope_lt (p q r s : Int) (h0p : 0 ≤ p) (hpq : p ≤ q)
    (h1q : 1 ≤ q) (hps : p * s = q * r) (hqs : q < s) :
    Slope.lt (leftSlope (-r) (-s)) (leftSlope (-p) (-q)) = true := by
  obtain ⟨hr0, hrs, hsum⟩ := ray_facts p q r s h0p hpq h1q hps hqs
  unfold leftSlope mkSlope
  rw [if_pos (by omega : 2 * (-s) + 1 < 0), if_pos (by omega : 2 * (-q) + 1 < 0)]
  simp only [Slope.lt, decide_eq_true_eq]
  have key : (-(2 * (-p) - 1)) * (-(2 * (-s) + 1)) - (-(2 * (-r) - 1)) * (-(2 * (-q) + 1)) =
      4 * (p * s - q * r) + 2 * ((r + s) - (p + q)) := by ring
  nlinarith [key]

/-- On the same ray, the farther cell's right slope is strictly above the
opaque cell's right slope: the narrowed `start` skips it. -/
theorem farther_rightSlope_gt (p q r s : Int) (h0p : 0 ≤ p) (hpq : p ≤ q)
    (h1q : 1 ≤ q) (hps : p * s = q * r) (hqs : q < s) :
    Slope.lt (rightSlope (-p) (-q)) (rightSlope (-r) (-s)) = true := by
  obtain ⟨hr0, hrs, hsum⟩ := ray_facts p q r s h0p hpq h1q hps hqs
  unfold rightSlope mkSlope
  rw [if_pos (by omega : 2 * (-q) - 1 < 0), if_pos (by omega : 2 * (-s) - 1 < 0)]
  simp only [Slope.lt, decide_eq_true_eq]
  have key : (-(2 * (-r) + 1)) * (-(2 * (-q) - 1)) - (-(2 * (-p) + 1)) * (-(2 * (-s) - 1)) =
      4 * (q * r - p * s) + 2 * ((r + s) - (p + q)) := by ring
  nlinarith [key]

/-- The sweep of the row containing the single opaque cell `(-p, q)`,
entered with `start = 1` and `blocked = false` at cell `deltaX = -(p + n)`:
the opaque cell is revealed; the recursion is entered with
`end = leftSlope(-p, q)`; every other reveal is a cell of row `q`; and the
row ends either unblocked with `start = newStart = rightSlope(-p, q)` or
still blocked. -/
theorem scanRow_at_q (env : FovEnv) (p q : Int)
    (hp0 : 0 ≤ p) (hpq : p ≤ q) (h1q : 1 ≤ q) (hqrad : q < env.radius)
    (hrad0 : 0 ≤ env.radius) (heuc : p * p + q * q ≤ env.radius * env.radius)
    (hbound : env.inBounds (env.cellX (-p) (-q)) (env.cellY (-p) (-q)) = true)
    (hop : ∀ dX d : Int,
      env.isOpaque (env.cellX dX (-d)) (env.cellY dX (-d)) = true ↔
        (dX = -p ∧ d = q))
    (nested : Slope → Slope → Logs) :
    ∀ (n : Nat) (ns : Slope), ((p.toNat + n : Nat) : Int) ≤ q →
      ((scanRow env slopeZero nested q (p.toNat + n) ⟨slopeOne, ns, false⟩).2 =
          ⟨rightSlope (-p) (-q), rightSlope (-p) (-q), false⟩ ∨
       (scanRow env slopeZero nested q (p.toNat + n) ⟨slopeOne, ns, false⟩).2 =
          ⟨slopeOne, rightSlope (-p) (-q), true⟩) ∧
      (env.cellX (-p) (-q), env.cellY (-p) (-q)) ∈
        (scanRow env slopeZero nested q (p.toNat + n) ⟨slopeOne, ns, false⟩).1.rev ∧
      (∀ c ∈ (scanRow env slopeZero nested q (p.toNat + n) ⟨slopeOne, ns, false⟩).1.rev,
        (∃ dX : Int, -q ≤ dX ∧ dX ≤ 0 ∧ c = (env.cellX dX (-q), env.cellY dX (-q))) ∨
        c ∈ (nested slopeOne (leftSlope (-p) (-q))).rev) := by
  intro n
  induction n with
  | zero =>
    intro ns hk
    rw [Nat.add_zero, scanRow]
    rw [show (-((p.toNat : Nat) : Int)) = -p from by omega]
    have hcell : scanCell env slopeZero nested q (-p) ⟨slopeOne, ns, false⟩ =
        .cont ⟨(env.cellX (-p) (-q), env.cellY (-p) (-q)) ::
                 (nested slopeOne (leftSlope (-p) (-q))).rev,
               (env.cellX (-p) (-q), env.cellY (-p) (-q)) ::
                 (nested slopeOne (leftSlope (-p) (-q))).que⟩
          ⟨slopeOne, rightSlope (-p) (-q), true⟩ := by
      unfold scanCell
      rw [if_neg (by
        rw [slopeOne_nlt_rightSlope (-p) q h1q (by omega)]
        simp [hbound])]
      rw [if_neg (by rw [leftSlope_nlt_slopeZero (-p) q h1q (by omega)]; simp)]
      simp only []
      rw [if_neg (by simp)]
      rw [if_pos ⟨(hop (-p) q).mpr ⟨rfl, rfl⟩, hqrad⟩]
      rw [if_pos (by
        simp only [sqrtLeRadius, decide_eq_true_eq]
        constructor
        · exact hrad0
        · nlinarith)]
      rfl
    rw [hcell]
    cases hp : p.toNat with
    | zero =>
      simp only []
      refine ⟨by right; first | rfl | trivial, by simp, ?_⟩
      intro c hc
      simp only [List.mem_cons] at hc
      rcases hc with hc | hc
      · exact Or.inl ⟨-p, by omega, by omega, hc⟩
      · exact Or.inr hc
    | succ k' =>
      simp only []
      have hrest := scanRow_blocked_cells env nested q h1q k' slopeOne
        (rightSlope (-p) (-q))
        (by
          intro dX hge hle
          have : ¬(dX = -p ∧ q = q) := by omega
          exact Bool.eq_false_iff.mpr (fun habs => this ((hop dX q).mp habs)))
      constructor
      · rcases hrest.1 with h | h
        · right; exact h
        · left; exact h
      · constructor
        · simp [Logs.app]
        · intro c hc
          simp only [Logs.app, List.mem_append, List.mem_cons] at hc
          rcases hc with (hc | hc) | hc
          · exact Or.inl ⟨-p, by omega, by omega, hc⟩
          · exact Or.inr hc
          · obtain ⟨dX, h1, h2, hceq⟩ := hrest.2 c hc
            exact Or.inl ⟨dX, by omega, h2, hceq⟩
  | succ n ih =>
    intro ns hk
    have hkk : p.toNat + (n + 1) = (p.toNat + n) + 1 := by omega
    rw [hkk, scanRow]
    obtain ⟨logs, heq, hmem⟩ := scanCell_open_cont env nested q
      (-(((p.toNat + n) + 1 : Nat) : Int)) ⟨slopeOne, ns, false⟩ h1q
      (by push_cast; omega) rfl
      (by
        apply Bool.eq_false_iff.mpr
        intro habs
        have := (hop _ q).mp habs
        omega)
    rw [heq]
    simp only []
    have ihh := ih ns (by omega)
    refine ⟨ihh.1, ?_, ?_⟩
    · simp only [Logs.app, List.mem_append]
      right
      exact ihh.2.1
    · intro c hc
      simp only [Logs.app, List.mem_append] at hc
      rcases hc with hc | hc
      · obtain ⟨hceq, -⟩ := hmem c hc
        exact Or.inl ⟨-(((p.toNat + n) + 1 : Nat) : Int), by omega,
          by push_cast; omega, hceq⟩
      · exact ihh.2.2 c hc

/-- After the opaque row, the scan continues with
`start = rightSlope(-p, q)`, and the farther cell `(-r, s)` on the same ray
is always skipped by the `start < rightSlope` guard. -/
theorem rowsGo_after (env : FovEnv) (p q r s : Int) (h1q : 1 ≤ q)
    (hop : ∀ dX d : Int,
      env.isOpaque (env.cellX dX (-d)) (env.cellY dX (-d)) = true ↔
        (dX = -p ∧ d = q))
    (hinj : ∀ dX d dX' d' : Int, env.cellX dX (-d) = env.cellX dX' (-d') →
      env.cellY dX (-d) = env.cellY dX' (-d') → dX = dX' ∧ d = d')
    (harith : Slope.lt (rightSlope (-p) (-q)) (rightSlope (-r) (-s)) = true) :
    ∀ (fuel : Nat) (d : Int) (ns : Slope), q < d →
      (env.cellX (-r) (-s), env.cellY (-r) (-s)) ∉
        (rowsGo env fuel slopeZero d ⟨rightSlope (-p) (-q), ns, false⟩).rev := by
  intro fuel
  induction fuel with
  | zero =>
    intro d ns hd
    rw [rowsGo]
    simp [Logs.nil]
  | succ f ih =>
    intro d ns hd
    rw [rowsGo]
    by_cases hdr : d < env.radius
    · rw [if_pos ⟨hdr, rfl⟩]
      simp only []
      have hrow := scanRow_open_cells env
        (fun s' e => if Slope.lt s' e then Logs.nil
          else rowsGo env f e (d + 1) ⟨s', slopeZero, false⟩)
        d (by omega) d.toNat ⟨rightSlope (-p) (-q), ns, false⟩ rfl
        (by
          intro dX hge hle
          apply Bool.eq_false_iff.mpr
          intro habs
          have := (hop dX d).mp habs
          omega)
      rw [hrow.1]
      simp only [Logs.app, List.mem_append]
      rintro (hc | hc)
      · obtain ⟨dX, h1, h2, hceq, hlt⟩ := hrow.2 _ hc
        rw [Prod.mk.injEq] at hceq
        obtain ⟨hdx, hdd⟩ := hinj _ _ _ _ hceq.1 hceq.2
        subst hdx
        subst hdd
        rw [harith] at hlt
        exact Bool.true_eq_false.mp hlt
      · exact ih (d + 1) ns (by omega) hc
    · rw [if_neg (by rintro ⟨h, -⟩; exact hdr h)]
      simp [Logs.nil]

/-- Main induction for claim C6, rows `d ≤ q` of an octant whose single
opaque cell sits at `(-p, q)`: the opaque cell is revealed and the farther
ray cell `(-r, s)` is not. -/
theorem rowsGo_upto (env : FovEnv) (p q r s : Int)
    (hp0 : 0 ≤ p) (hpq : p ≤ q) (h1q : 1 ≤ q) (hqrad : q < env.radius)
    (hrad0 : 0 ≤ env.radius) (heuc : p * p + q * q ≤ env.radius * env.radius)
    (hps : p * s = q * r) (hqs : q < s)
    (hbound : env.inBounds (env.cellX (-p) (-q)) (env.cellY (-p) (-q)) = true)
    (hop : ∀ dX d : Int,
      env.isOpaque (env.cellX dX (-d)) (env.cellY dX (-d)) = true ↔
        (dX = -p ∧ d = q))
    (hinj : ∀ dX d dX' d' : Int, env.cellX dX (-d) = env.cellX dX' (-d') →
      env.cellY dX (-d) = env.cellY dX' (-d') → dX = dX' ∧ d = d') :
    ∀ (fuel : Nat) (d : Int) (ns : Slope), 1 ≤ d → d ≤ q →
      (env.radius - d).toNat < fuel →
      (env.cellX (-p) (-q), env.cellY (-p) (-q)) ∈
        (rowsGo env fuel slopeZero d ⟨slopeOne, ns, false⟩).rev ∧
      (env.cellX (-r) (-s), env.cellY (-r) (-s)) ∉
        (rowsGo env fuel slopeZero d ⟨slopeOne, ns, false⟩).rev := by
  have hfar_ne_q : ∀ (c : Int × Int) (dX : Int),
      c = (env.cellX dX (-q), env.cellY dX (-q)) →
      c ≠ (env.cellX (-r) (-s), env.cellY (-r) (-s)) := by
    intro c dX hceq habs
    rw [habs, Prod.mk.injEq] at hceq
    obtain ⟨-, hdd⟩ := hinj _ _ _ _ hceq.1.symm hceq.2.symm
    omega
  intro fuel
  induction fuel with
  | zero => intro d ns h1 h2 hf; omega
  | succ f ih =>
    intro d ns h1 h2 hf
    rw [rowsGo]
    rw [if_pos ⟨by omega, rfl⟩]
    simp only []
    by_cases hdq : d = q
    · subst hdq
      have hcnt : d.toNat = p.toNat + (d.toNat - p.toNat) := by omega
      rw [hcnt]
      have hrowq := scanRow_at_q env p d hp0 hpq h1q hqrad hrad0 heuc hbound hop
        (fun s' e => if Slope.lt s' e then Logs.nil
          else rowsGo env f e (d + 1) ⟨s', slopeZero, false⟩)
        (d.toNat - p.toNat) ns (by omega)
      have hnff : (env.cellX (-r) (-s), env.cellY (-r) (-s)) ∉
          ((fun s' e => if Slope.lt s' e then Logs.nil
            else rowsGo env f e (d + 1) ⟨s', slopeZero, false⟩)
            slopeOne (leftSlope (-p) (-d))).rev := by
        simp only []
        by_cases hlt : Slope.lt slopeOne (leftSlope (-p) (-d))
        · simp [hlt, Logs.nil]
        · rw [if_neg hlt]
          intro habs
          have hs := (rowsGo_sound env f (leftSlope (-p) (-d)) (d + 1)
            ⟨slopeOne, slopeZero, false⟩ (by omega)
            (leftSlope_den_pos (-p) (-d))).1 _ habs
          obtain ⟨dX', d', hx, hy, -, -, -, -, -, -, hlts⟩ := hs
          obtain ⟨hdx, hdd⟩ := hinj _ _ _ _ hx.symm hy.symm
          rw [hdx, hdd] at hlts
          rw [farther_leftSlope_lt p d r s hp0 hpq h1q hps hqs] at hlts
          exact Bool.true_eq_false.mp hlts
      constructor
      · simp only [Logs.app, List.mem_append]
        left
        exact hrowq.2.1
      · simp only [Logs.app, List.mem_append]
        rintro (hc | hc)
        · rcases hrowq.2.2 _ hc with ⟨dX, -, -, hceq⟩ | hmem
          · exact hfar_ne_q _ dX hceq rfl
          · exact hnff hmem
        · rcases hrowq.1 with hst | hst
          · rw [hst] at hc
            exact rowsGo_after env p d r s h1q hop hinj
              (farther_rightSlope_gt p d r s hp0 hpq h1q hps hqs) f (d + 1)
              (rightSlope (-p) (-d)) (by omega) hc
          · rw [hst, rowsGo_blocked env f slopeZero (d + 1) _ rfl] at hc
            simp [Logs.nil] at hc
    · have hrow := scanRow_open_cells env
        (fun s' e => if Slope.lt s' e then Logs.nil
          else rowsGo env f e (d + 1) ⟨s', slopeZero, false⟩)
        d (by omega) d.toNat ⟨slopeOne, ns, false⟩ rfl
        (by
          intro dX hge hle
          apply Bool.eq_false_iff.mpr
          intro habs
          have := (hop dX d).mp habs
          omega)
      rw [hrow.1]
      have ihh := ih (d + 1) ns (by omega) (by omega) (by omega)
      constructor
      · simp only [Logs.app, List.mem_append]
        right
        exact ihh.1
      · simp only [Logs.app, List.mem_append]
        rintro (hc | hc)
        · obtain ⟨dX, -, -, hceq, -⟩ := hrow.2 _ hc
          have habs : (env.cellX (-r) (-s), env.cellY (-r) (-s)) =
              (env.cellX dX (-d), env.cellY dX (-d)) := hceq
          rw [Prod.mk.injEq] at habs
          obtain ⟨-, hdd⟩ := hinj _ _ _ _ habs.1 habs.2
          omega
        · exact ihh.2 hc

/-- Claim C6, at the level of one octant on the grid whose only opaque cell
sits at octant coordinates `(-p, q)`: `castShadows` reveals the opaque cell
and does not reveal the farther collinear cell `(-r, s)`. -/
theorem castShadows_single_opaque (env : FovEnv) (p q r s : Int)
    (hp0 : 0 ≤ p) (hpq : p ≤ q) (h1q : 1 ≤ q) (hqrad : q < env.radius)
    (hrad0 : 0 ≤ env.radius) (heuc : p * p + q * q ≤ env.radius * env.radius)
    (hps : p * s = q * r) (hqs : q < s)
    (hbound : env.inBounds (env.cellX (-p) (-q)) (env.cellY (-p) (-q)) = true)
    (hop : ∀ dX d : Int,
      env.isOpaque (env.cellX dX (-d)) (env.cellY dX (-d)) = true ↔
        (dX = -p ∧ d = q))
    (hinj : ∀ dX d dX' d' : Int, env.cellX dX (-d) = env.cellX dX' (-d') →
      env.cellY dX (-d) = env.cellY dX' (-d') → dX = dX' ∧ d = d') :
    (env.cellX (-p) (-q), env.cellY (-p) (-q)) ∈
      (castShadowsF env (env.radius.toNat + 1) 1 slopeOne slopeZero).rev ∧
    (env.cellX (-r) (-s), env.cellY (-r) (-s)) ∉
      (castShadowsF env (env.radius.toNat + 1) 1 slopeOne slopeZero).rev := by
  unfold castShadowsF
  rw [if_neg (by rw [show Slope.lt slopeOne slopeZero = false from by decide]; simp)]
  exact rowsGo_upto env p q r s hp0 hpq h1q hqrad hrad0 heuc hps hqs hbound hop
    hinj (env.radius.toNat + 1) 1 slopeZero (by omega) (by omega) (by omega)

/-! ### World-level assembly for claim C6 -/

theorem le_of_sq_le_sq (x y : Int) (hx : 0 ≤ x) (hy : 0 ≤ y)
    (h : x * x ≤ y * y) : x ≤ y := by
  by_contra hlt
  push_neg at hlt
  have h1 : y * y ≤ y * x := mul_le_mul_of_nonneg_left (le_of_lt hlt) hy
  have h2 : y * x < x * x := by
    have hx0 : 0 < x := by omega
    calc y * x = x * y := by ring
    _ < x * x := mul_lt_mul_of_pos_left hlt hx0
  linarith

theorem factor_nonneg (m x : Int) (hm : 1 ≤ m) (h : 0 ≤ m * x) : 0 ≤ x := by
  by_contra hx
  push_neg at hx
  nlinarith [mul_le_mul_of_nonneg_left (show x ≤ -1 from by omega)
    (show (0 : Int) ≤ m from by omega)]

theorem factor_pos (m x : Int) (hm : 1 ≤ m) (h : 1 ≤ m * x) : 1 ≤ x := by
  by_contra hx
  push_neg at hx
  nlinarith [mul_le_mul_of_nonneg_left (show x ≤ 0 from by omega)
    (show (0 : Int) ≤ m from by omega)]

theorem factor_le (m x y : Int) (hm : 1 ≤ m) (h : m * x ≤ m * y) : x ≤ y :=
  le_of_mul_le_mul_left h (by omega)

/-- Scaling facts along a ray direction `(A, B)` with `0 ≤ A ≤ B`, `1 ≤ B`:
the octant coordinates of the `k`-th and `m`-th ray points. -/
theorem ray_scale_facts (k m A B radius : Int) (hk : 1 ≤ k) (hkm : k < m)
    (hA0 : 0 ≤ A) (hAB : A ≤ B) (hB1 : 1 ≤ B) (hrad0 : 0 ≤ radius)
    (heucm : (m * A) * (m * A) + (m * B) * (m * B) ≤ radius * radius) :
    0 ≤ k * A ∧ k * A ≤ k * B ∧ 1 ≤ k * B ∧ k * B < m * B ∧ m * B ≤ radius ∧
    (k * A) * (k * A) + (k * B) * (k * B) ≤ radius * radius := by
  have hk0 : (0 : Int) ≤ k := by omega
  have g1 : 0 ≤ k * A := mul_nonneg hk0 hA0
  have g2 : k * A ≤ k * B := mul_le_mul_of_nonneg_left hAB hk0
  have g3 : 1 ≤ k * B := by
    nlinarith [mul_nonneg (show (0 : Int) ≤ k - 1 from by omega)
      (show (0 : Int) ≤ B - 1 from by omega)]
  have g4 : k * B < m * B := by
    have h1 : (1 : Int) * 1 ≤ (m - k) * B :=
      mul_le_mul (by omega) hB1 (by omega) (by omega)
    nlinarith [h1]
  have g5 : m * B ≤ radius := by
    refine le_of_sq_le_sq (m * B) radius (mul_nonneg (by omega) (by omega))
      hrad0 ?_
    nlinarith [heucm, mul_self_nonneg (m * A)]
  have g6 : (k * A) * (k * A) + (k * B) * (k * B) ≤ radius * radius := by
    have hk2 : k * k ≤ m * m := by
      nlinarith [mul_nonneg (show (0 : Int) ≤ m - k from by omega)
        (show (0 : Int) ≤ m + k from by omega)]
    have hsq : 0 ≤ A * A + B * B := by positivity
    nlinarith [mul_le_mul_of_nonneg_right hk2 hsq, heucm]
  exact ⟨g1, g2, g3, g4, g5, g6⟩

/-- One octant of claim C6 at world level: on the grid whose only opaque
cell is the `k`-th point of the ray with direction `(a, b)` from the origin
(the octant sees the ray direction as `(A, B)` in cone coordinates, with
`0 ≤ A ≤ B`), `castShadows` reveals the opaque `k`-th ray point and does
not reveal the farther `m`-th ray point. -/
theorem world_octant (env : FovEnv) (ox oy a b k m A B : Int)
    (hmap : ∀ j : Int, env.cellX (-(j * A)) (-(j * B)) = ox + j * a ∧
      env.cellY (-(j * A)) (-(j * B)) = oy + j * b)
    (hinj : ∀ dX d dX' d' : Int, env.cellX dX (-d) = env.cellX dX' (-d') →
      env.cellY dX (-d) = env.cellY dX' (-d') → dX = dX' ∧ d = d')
    (hop : ∀ dX d : Int,
      env.isOpaque (env.cellX dX (-d)) (env.cellY dX (-d)) = true ↔
        (dX = -(k * A) ∧ d = k * B))
    (hk : 1 ≤ k) (hkm : k < m)
    (hA0 : 0 ≤ A) (hAB : A ≤ B) (hB1 : 1 ≤ B)
    (hrad0 : 0 ≤ env.radius)
    (heucm : (m * A) * (m * A) + (m * B) * (m * B) ≤ env.radius * env.radius)
    (hob : 0 ≤ ox + k * a ∧ 0 ≤ oy + k * b ∧
      ox + k * a < env.width ∧ oy + k * b < env.height) :
    (ox + k * a, oy + k * b) ∈
      (castShadowsF env (env.radius.toNat + 1) 1 slopeOne slopeZero).rev ∧
    (ox + m * a, oy + m * b) ∉
      (castShadowsF env (env.radius.toNat + 1) 1 slopeOne slopeZero).rev := by
  obtain ⟨g1, g2, g3, g4, g5, g6⟩ :=
    ray_scale_facts k m A B env.radius hk hkm hA0 hAB hB1 hrad0 heucm
  have hpack := castShadows_single_opaque env (k * A) (k * B) (m * A) (m * B)
    g1 g2 g3 (by linarith) hrad0 g6 (by ring) g4
    (by
      rw [(hmap k).1, (hmap k).2]
      simp only [FovEnv.inBounds, decide_eq_true_eq]
      exact ⟨hob.1, hob.2.1, hob.2.2.1, hob.2.2.2⟩)
    hop hinj
  constructor
  · have he : ((env.cellX (-(k * A)) (-(k * B)) : Int),
        (env.cellY (-(k * A)) (-(k * B)) : Int)) = (ox + k * a, oy + k * b) := by
      rw [(hmap k).1, (hmap k).2]
    rw [← he]
    exact hpack.1
  · have he : ((env.cellX (-(m * A)) (-(m * B)) : Int),
        (env.cellY (-(m * A)) (-(m * B)) : Int)) = (ox + m * a, oy + m * b) := by
      rw [(hmap m).1, (hmap m).2]
    rw [← he]
    exact hpack.2

set_option maxHeartbeats 3200000 in
/-- C6: on a grid whose single opaque cell is the `k`-th point of the
integer ray with direction `(a, b)` from the origin, and whose `m`-th
point (`k < m`, farther on the same ray) is in bounds and within the
Euclidean radius, `refresh` reveals the opaque cell but not the farther
cell: walls are visible and block sight past themselves. -/
theorem fov_shadow_blocking (w h ox oy radius a b k m : Int)
    (hv : ¬(a = 0 ∧ b = 0)) (hk : 1 ≤ k) (hkm : k < m)
    (hob : 0 ≤ ox + k * a ∧ 0 ≤ oy + k * b ∧ ox + k * a < w ∧ oy + k * b < h)
    (hfb : 0 ≤ ox + m * a ∧ 0 ≤ oy + m * b ∧ ox + m * a < w ∧ oy + m * b < h)
    (hrad0 : 0 ≤ radius)
    (heuc : (m * a) * (m * a) + (m * b) * (m * b) ≤ radius * radius) :
    (ox + k * a, oy + k * b) ∈
      (refresh w h (fun x y => decide (x = ox + k * a ∧ y = oy + k * b))
        ox oy radius).rev ∧
    (ox + m * a, oy + m * b) ∉
      (refresh w h (fun x y => decide (x = ox + k * a ∧ y = oy + k * b))
        ox oy radius).rev := by
  constructor
  · rw [refresh, refreshFuel_rev_mem]
    by_cases hu : a ≤ 0
    · by_cases hv2 : b ≤ 0
      · by_cases hcmp : b ≤ a
        · exact Or.inr ⟨⟨1, 0, 0, 1⟩, by simp [octantTransforms],
            (world_octant
              ⟨w, h, fun x y => decide (x = ox + k * a ∧ y = oy + k * b),
                ox, oy, ⟨1, 0, 0, 1⟩, radius⟩ ox oy a b k m (-a) (-b)
              (by
                intro j
                constructor <;> (simp only [FovEnv.cellX, FovEnv.cellY]; ring))
              (by
                intro dX₁ d₁ dX₂ d₂ h1 h2
                simp only [FovEnv.cellX, FovEnv.cellY] at h1 h2
                constructor <;> linarith)
              (by
                intro dX₁ d₁
                simp only [FovEnv.cellX, FovEnv.cellY, decide_eq_true_eq]
                constructor <;> (rintro ⟨h1, h2⟩; exact ⟨by linarith, by linarith⟩))
              hk hkm (by omega) (by omega) (by omega)
              hrad0
              (by nlinarith [heuc])
              hob).1⟩
        · exact Or.inr ⟨⟨0, 1, 1, 0⟩, by simp [octantTransforms],
            (world_octant
              ⟨w, h, fun x y => decide (x = ox + k * a ∧ y = oy + k * b),
                ox, oy, ⟨0, 1, 1, 0⟩, radius⟩ ox oy a b k m (-b) (-a)
              (by
                intro j
                constructor <;> (simp only [FovEnv.cellX, FovEnv.cellY]; ring))
              (by
                intro dX₁ d₁ dX₂ d₂ h1 h2
                simp only [FovEnv.cellX, FovEnv.cellY] at h1 h2
                constructor <;> linarith)
              (by
                intro dX₁ d₁
                simp only [FovEnv.cellX, FovEnv.cellY, decide_eq_true_eq]
                constructor <;> (rintro ⟨h1, h2⟩; exact ⟨by linarith, by linarith⟩))
              hk hkm (by omega) (by omega) (by omega)
              hrad0
              (by nlinarith [heuc])
              hob).1⟩
      · by_cases hcmp : -a ≤ b
        · exact Or.inr ⟨⟨1, 0, 0, -1⟩, by simp [octantTransforms],
            (world_octant
              ⟨w, h, fun x y => decide (x = ox + k * a ∧ y = oy + k * b),
                ox, oy, ⟨1, 0, 0, -1⟩, radius⟩ ox oy a b k m (-a) (b)
              (by
                intro j
                constructor <;> (simp only [FovEnv.cellX, FovEnv.cellY]; ring))
              (by
                intro dX₁ d₁ dX₂ d₂ h1 h2
                simp only [FovEnv.cellX, FovEnv.cellY] at h1 h2
                constructor <;> linarith)
              (by
                intro dX₁ d₁
                simp only [FovEnv.cellX, FovEnv.cellY, decide_eq_true_eq]
                constructor <;> (rintro ⟨h1, h2⟩; exact ⟨by linarith, by linarith⟩))
              hk hkm (by omega) (by omega) (by omega)
              hrad0
              (by nlinarith [heuc])
              hob).1⟩
        · exact Or.inr ⟨⟨0, 1, -1, 0⟩, by simp [octantTransforms],
            (world_octant
              ⟨w, h, fun x y => decide (x = ox + k * a ∧ y = oy + k * b),
                ox, oy, ⟨0, 1, -1, 0⟩, radius⟩ ox oy a b k m (b) (-a)
              (by
                intro j
                constructor <;> (simp only [FovEnv.cellX, FovEnv.cellY]; ring))
              (by
                intro dX₁ d₁ dX₂ d₂ h1 h2
                simp only [FovEnv.cellX, FovEnv.cellY] at h1 h2
                constructor <;> linarith)
              (by
                intro dX₁ d₁
                simp only [FovEnv.cellX, FovEnv.cellY, decide_eq_true_eq]
                constructor <;> (rintro ⟨h1, h2⟩; exact ⟨by linarith, by linarith⟩))
              hk hkm (by omega) (by omega) (by omega)
              hrad0
              (by nlinarith [heuc])
              hob).1⟩
    · by_cases hv2 : b ≤ 0
      · by_cases hcmp : b ≤ -a
        · exact Or.inr ⟨⟨-1, 0, 0, 1⟩, by simp [octantTransforms],
            (world_octant
              ⟨w, h, fun x y => decide (x = ox + k * a ∧ y = oy + k * b),
                ox, oy, ⟨-1, 0, 0, 1⟩, radius⟩ ox oy a b k m (a) (-b)
              (by
                intro j
                constructor <;> (simp only [FovEnv.cellX, FovEnv.cellY]; ring))
              (by
                intro dX₁ d₁ dX₂ d₂ h1 h2
                simp only [FovEnv.cellX, FovEnv.cellY] at h1 h2
                constructor <;> linarith)
              (by
                intro dX₁ d₁
                simp only [FovEnv.cellX, FovEnv.cellY, decide_eq_true_eq]
                constructor <;> (rintro ⟨h1, h2⟩; exact ⟨by linarith, by linarith⟩))
              hk hkm (by omega) (by omega) (by omega)
              hrad0
              (by nlinarith [heuc])
              hob).1⟩
        · exact Or.inr ⟨⟨0, -1, 1, 0⟩, by simp [octantTransforms],
            (world_octant
              ⟨w, h, fun x y => decide (x = ox + k * a ∧ y = oy + k * b),
                ox, oy, ⟨0, -1, 1, 0⟩, radius⟩ ox oy a b k m (-b) (a)
              (by
                intro j
                constructor <;> (simp only [FovEnv.cellX, FovEnv.cellY]; ring))
              (by
                intro dX₁ d₁ dX₂ d₂ h1 h2
                simp only [FovEnv.cellX, FovEnv.cellY] at h1 h2
                constructor <;> linarith)
              (by
                intro dX₁ d₁
                simp only [FovEnv.cellX, FovEnv.cellY, decide_eq_true_eq]
                constructor <;> (rintro ⟨h1, h2⟩; exact ⟨by linarith, by linarith⟩))
              hk hkm (by omega) (by omega) (by omega)
              hrad0
              (by nlinarith [heuc])
              hob).1⟩
      · by_cases hcmp : a ≤ b
        · exact Or.inr ⟨⟨-1, 0, 0, -1⟩, by simp [octantTransforms],
            (world_octant
              ⟨w, h, fun x y => decide (x = ox + k * a ∧ y = oy + k * b),
                ox, oy, ⟨-1, 0, 0, -1⟩, radius⟩ ox oy a b k m (a) (b)
              (by
                intro j
                constructor <;> (simp only [FovEnv.cellX, FovEnv.cellY]; ring))
              (by
                intro dX₁ d₁ dX₂ d₂ h1 h2
                simp only [FovEnv.cellX, FovEnv.cellY] at h1 h2
                constructor <;> linarith)
              (by
                intro dX₁ d₁
                simp only [FovEnv.cellX, FovEnv.cellY, decide_eq_true_eq]
                constructor <;> (rintro ⟨h1, h2⟩; exact ⟨by linarith, by linarith⟩))
              hk hkm (by omega) (by omega) (by omega)
              hrad0
              (by nlinarith [heuc])
              hob).1⟩
        · exact Or.inr ⟨⟨0, -1, -1, 0⟩, by simp [octantTransforms],
            (world_octant
              ⟨w, h, fun x y => decide (x = ox + k * a ∧ y = oy + k * b),
                ox, oy, ⟨0, -1, -1, 0⟩, radius⟩ ox oy a b k m (b) (a)
              (by
                intro j
                constructor <;> (simp only [FovEnv.cellX, FovEnv.cellY]; ring))
              (by
                intro dX₁ d₁ dX₂ d₂ h1 h2
                simp only [FovEnv.cellX, FovEnv.cellY] at h1 h2
                constructor <;> linarith)
              (by
                intro dX₁ d₁
                simp only [FovEnv.cellX, FovEnv.cellY, decide_eq_true_eq]
                constructor <;> (rintro ⟨h1, h2⟩; exact ⟨by linarith, by linarith⟩))
              hk hkm (by omega) (by omega) (by omega)
              hrad0
              (by nlinarith [heuc])
              hob).1⟩
  · intro hmem
    rw [refresh, refreshFuel_rev_mem] at hmem
    rcases hmem with heq | ⟨t, ht, hc⟩
    · rw [Prod.mk.injEq] at heq
      have h1 : m * a = 0 := by linarith [heq.1]
      have h2 : m * b = 0 := by linarith [heq.2]
      rcases mul_eq_zero.mp h1 with hm0 | ha0
      · omega
      · rcases mul_eq_zero.mp h2 with hm0 | hb0
        · omega
        · exact hv ⟨ha0, hb0⟩
    · simp only [octantTransforms, List.mem_cons, List.not_mem_nil, or_false] at ht
      rcases ht with rfl | rfl | rfl | rfl | rfl | rfl | rfl | rfl
      · obtain ⟨dX, d, hx, hy, hcone1, hcone2, hlo, hhi, -, -, -⟩ :=
          (castShadowsF_sound
            ⟨w, h, fun x y => decide (x = ox + k * a ∧ y = oy + k * b),
              ox, oy, ⟨1, 0, 0, 1⟩, radius⟩ (radius.toNat + 1) 1 slopeOne slopeZero
            (by omega) (by simp [slopeZero])).1 _ hc
        have hmapT : ∀ j : Int,
            FovEnv.cellX ⟨w, h, fun x y => decide (x = ox + k * a ∧ y = oy + k * b),
              ox, oy, ⟨1, 0, 0, 1⟩, radius⟩ (-(j * (-a))) (-(j * (-b))) = ox + j * a ∧
            FovEnv.cellY ⟨w, h, fun x y => decide (x = ox + k * a ∧ y = oy + k * b),
              ox, oy, ⟨1, 0, 0, 1⟩, radius⟩ (-(j * (-a))) (-(j * (-b))) = oy + j * b := by
          intro j
          constructor <;> (simp only [FovEnv.cellX, FovEnv.cellY]; ring)
        have hinjT : ∀ dX₁ d₁ dX₂ d₂ : Int,
            FovEnv.cellX ⟨w, h, fun x y => decide (x = ox + k * a ∧ y = oy + k * b),
              ox, oy, ⟨1, 0, 0, 1⟩, radius⟩ dX₁ (-d₁) = FovEnv.cellX ⟨w, h, fun x y => decide (x = ox + k * a ∧ y = oy + k * b),
              ox, oy, ⟨1, 0, 0, 1⟩, radius⟩ dX₂ (-d₂) →
            FovEnv.cellY ⟨w, h, fun x y => decide (x = ox + k * a ∧ y = oy + k * b),
              ox, oy, ⟨1, 0, 0, 1⟩, radius⟩ dX₁ (-d₁) = FovEnv.cellY ⟨w, h, fun x y => decide (x = ox + k * a ∧ y = oy + k * b),
              ox, oy, ⟨1, 0, 0, 1⟩, radius⟩ dX₂ (-d₂) →
            dX₁ = dX₂ ∧ d₁ = d₂ := by
          intro dX₁ d₁ dX₂ d₂ h1 h2
          simp only [FovEnv.cellX, FovEnv.cellY] at h1 h2
          constructor <;> linarith
        have hopT : ∀ dX₁ d₁ : Int,
            FovEnv.isOpaque ⟨w, h, fun x y => decide (x = ox + k * a ∧ y = oy + k * b),
              ox, oy, ⟨1, 0, 0, 1⟩, radius⟩
              (FovEnv.cellX ⟨w, h, fun x y => decide (x = ox + k * a ∧ y = oy + k * b),
              ox, oy, ⟨1, 0, 0, 1⟩, radius⟩ dX₁ (-d₁))
              (FovEnv.cellY ⟨w, h, fun x y => decide (x = ox + k * a ∧ y = oy + k * b),
              ox, oy, ⟨1, 0, 0, 1⟩, radius⟩ dX₁ (-d₁)) = true ↔
              (dX₁ = -(k * (-a)) ∧ d₁ = k * (-b)) := by
          intro dX₁ d₁
          simp only [FovEnv.cellX, FovEnv.cellY, decide_eq_true_eq]
          constructor <;> (rintro ⟨h1, h2⟩; exact ⟨by linarith, by linarith⟩)
        have hex := hinjT dX d (-(m * (-a))) (m * (-b))
          (by rw [← hx, (hmapT m).1]) (by rw [← hy, (hmapT m).2])
        have hA0 : 0 ≤ (-a) := factor_nonneg m _ (by omega) (by linarith [hex.1, hcone2])
        have hB1 : 1 ≤ (-b) := factor_pos m _ (by omega) (by linarith [hex.2, hlo])
        have hAB : (-a) ≤ (-b) := factor_le m _ _ (by omega)
          (by linarith [hex.1, hex.2, hcone1])
        exact (world_octant _ ox oy a b k m (-a) (-b) hmapT hinjT hopT hk hkm
          hA0 hAB hB1 hrad0 (by nlinarith [heuc]) hob).2 hc
      · obtain ⟨dX, d, hx, hy, hcone1, hcone2, hlo, hhi, -, -, -⟩ :=
          (castShadowsF_sound
            ⟨w, h, fun x y => decide (x = ox + k * a ∧ y = oy + k * b),
              ox, oy, ⟨1, 0, 0, -1⟩, radius⟩ (radius.toNat + 1) 1 slopeOne slopeZero
            (by omega) (by simp [slopeZero])).1 _ hc
        have hmapT : ∀ j : Int,
            FovEnv.cellX ⟨w, h, fun x y => decide (x = ox + k * a ∧ y = oy + k * b),
              ox, oy, ⟨1, 0, 0, -1⟩, radius⟩ (-(j * (-a))) (-(j * (b))) = ox + j * a ∧
            FovEnv.cellY ⟨w, h, fun x y => decide (x = ox + k * a ∧ y = oy + k * b),
              ox, oy, ⟨1, 0, 0, -1⟩, radius⟩ (-(j * (-a))) (-(j * (b))) = oy + j * b := by
          intro j
          constructor <;> (simp only [FovEnv.cellX, FovEnv.cellY]; ring)
        have hinjT : ∀ dX₁ d₁ dX₂ d₂ : Int,
            FovEnv.cellX ⟨w, h, fun x y => decide (x = ox + k * a ∧ y = oy + k * b),
              ox, oy, ⟨1, 0, 0, -1⟩, radius⟩ dX₁ (-d₁) = FovEnv.cellX ⟨w, h, fun x y => decide (x = ox + k * a ∧ y = oy + k * b),
              ox, oy, ⟨1, 0, 0, -1⟩, radius⟩ dX₂ (-d₂) →
            FovEnv.cellY ⟨w, h, fun x y => decide (x = ox + k * a ∧ y = oy + k * b),
              ox, oy, ⟨1, 0, 0, -1⟩, radius⟩ dX₁ (-d₁) = FovEnv.cellY ⟨w, h, fun x y => decide (x = ox + k * a ∧ y = oy + k * b),
              ox, oy, ⟨1, 0, 0, -1⟩, radius⟩ dX₂ (-d₂) →
            dX₁ = dX₂ ∧ d₁ = d₂ := by
          intro dX₁ d₁ dX₂ d₂ h1 h2
          simp only [FovEnv.cellX, FovEnv.cellY] at h1 h2
          constructor <;> linarith
        have hopT : ∀ dX₁ d₁ : Int,
            FovEnv.isOpaque ⟨w, h, fun x y => decide (x = ox + k * a ∧ y = oy + k * b),
              ox, oy, ⟨1, 0, 0, -1⟩, radius⟩
              (FovEnv.cellX ⟨w, h, fun x y => decide (x = ox + k * a ∧ y = oy + k * b),
              ox, oy, ⟨1, 0, 0, -1⟩, radius⟩ dX₁ (-d₁))
              (FovEnv.cellY ⟨w, h, fun x y => decide (x = ox + k * a ∧ y = oy + k * b),
              ox, oy, ⟨1, 0, 0, -1⟩, radius⟩ dX₁ (-d₁)) = true ↔
              (dX₁ = -(k * (-a)) ∧ d₁ = k * (b)) := by
          intro dX₁ d₁
          simp only [FovEnv.cellX, FovEnv.cellY, decide_eq_true_eq]
          constructor <;> (rintro ⟨h1, h2⟩; exact ⟨by linarith, by linarith⟩)
        have hex := hinjT dX d (-(m * (-a))) (m * (b))
          (by rw [← hx, (hmapT m).1]) (by rw [← hy, (hmapT m).2])
        have hA0 : 0 ≤ (-a) := factor_nonneg m _ (by omega) (by linarith [hex.1, hcone2])
        have hB1 : 1 ≤ (b) := factor_pos m _ (by omega) (by linarith [hex.2, hlo])
        have hAB : (-a) ≤ (b) := factor_le m _ _ (by omega)
          (by linarith [hex.1, hex.2, hcone1])
        exact (world_octant _ ox oy a b k m (-a) (b) hmapT hinjT hopT hk hkm
          hA0 hAB hB1 hrad0 (by nlinarith [heuc]) hob).2 hc
      · obtain ⟨dX, d, hx, hy, hcone1, hcone2, hlo, hhi, -, -, -⟩ :=
          (castShadowsF_sound
            ⟨w, h, fun x y => decide (x = ox + k * a ∧ y = oy + k * b),
              ox, oy, ⟨-1, 0, 0, 1⟩, radius⟩ (radius.toNat + 1) 1 slopeOne slopeZero
            (by omega) (by simp [slopeZero])).1 _ hc
        have hmapT : ∀ j : Int,
            FovEnv.cellX ⟨w, h, fun x y => decide (x = ox + k * a ∧ y = oy + k * b),
              ox, oy, ⟨-1, 0, 0, 1⟩, radius⟩ (-(j * (a))) (-(j * (-b))) = ox + j * a ∧
            FovEnv.cellY ⟨w, h, fun x y => decide (x = ox + k * a ∧ y = oy + k * b),
              ox, oy, ⟨-1, 0, 0, 1⟩, radius⟩ (-(j * (a))) (-(j * (-b))) = oy + j * b := by
          intro j
          constructor <;> (simp only [FovEnv.cellX, FovEnv.cellY]; ring)
        have hinjT : ∀ dX₁ d₁ dX₂ d₂ : Int,
            FovEnv.cellX ⟨w, h, fun x y => decide (x = ox + k * a ∧ y = oy + k * b),
              ox, oy, ⟨-1, 0, 0, 1⟩, radius⟩ dX₁ (-d₁) = FovEnv.cellX ⟨w, h, fun x y => decide (x = ox + k * a ∧ y = oy + k * b),
              ox, oy, ⟨-1, 0, 0, 1⟩, radius⟩ dX₂ (-d₂) →
            FovEnv.cellY ⟨w, h, fun x y => decide (x = ox + k * a ∧ y = oy + k * b),
              ox, oy, ⟨-1, 0, 0, 1⟩, radius⟩ dX₁ (-d₁) = FovEnv.cellY ⟨w, h, fun x y => decide (x = ox + k * a ∧ y = oy + k * b),
              ox, oy, ⟨-1, 0, 0, 1⟩, radius⟩ dX₂ (-d₂) →
            dX₁ = dX₂ ∧ d₁ = d₂ := by
          intro dX₁ d₁ dX₂ d₂ h1 h2
          simp only [FovEnv.cellX, FovEnv.cellY] at h1 h2
          constructor <;> linarith
        have hopT : ∀ dX₁ d₁ : Int,
            FovEnv.isOpaque ⟨w, h, fun x y => decide (x = ox + k * a ∧ y = oy + k * b),
              ox, oy, ⟨-1, 0, 0, 1⟩, radius⟩
              (FovEnv.cellX ⟨w, h, fun x y => decide (x = ox + k * a ∧ y = oy + k * b),
              ox, oy, ⟨-1, 0, 0, 1⟩, radius⟩ dX₁ (-d₁))
              (FovEnv.cellY ⟨w, h, fun x y => decide (x = ox + k * a ∧ y = oy + k * b),
              ox, oy, ⟨-1, 0, 0, 1⟩, radius⟩ dX₁ (-d₁)) = true ↔
              (dX₁ = -(k * (a)) ∧ d₁ = k * (-b)) := by
          intro dX₁ d₁
          simp only [FovEnv.cellX, FovEnv.cellY, decide_eq_true_eq]
          constructor <;> (rintro ⟨h1, h2⟩; exact ⟨by linarith, by linarith⟩)
        have hex := hinjT dX d (-(m * (a))) (m * (-b))
          (by rw [← hx, (hmapT m).1]) (by rw [← hy, (hmapT m).2])
        have hA0 : 0 ≤ (a) := factor_nonneg m _ (by omega) (by linarith [hex.1, hcone2])
        have hB1 : 1 ≤ (-b) := factor_pos m _ (by omega) (by linarith [hex.2, hlo])
        have hAB : (a) ≤ (-b) := factor_le m _ _ (by omega)
          (by linarith [hex.1, hex.2, hcone1])
        exact (world_octant _ ox oy a b k m (a) (-b) hmapT hinjT hopT hk hkm
          hA0 hAB hB1 hrad0 (by nlinarith [heuc]) hob).2 hc
      · obtain ⟨dX, d, hx, hy, hcone1, hcone2, hlo, hhi, -, -, -⟩ :=
          (castShadowsF_sound
            ⟨w, h, fun x y => decide (x = ox + k * a ∧ y = oy + k * b),
              ox, oy, ⟨-1, 0, 0, -1⟩, radius⟩ (radius.toNat + 1) 1 slopeOne slopeZero
            (by omega) (by simp [slopeZero])).1 _ hc
        have hmapT : ∀ j : Int,
            FovEnv.cellX ⟨w, h, fun x y => decide (x = ox + k * a ∧ y = oy + k * b),
              ox, oy, ⟨-1, 0, 0, -1⟩, radius⟩ (-(j * (a))) (-(j * (b))) = ox + j * a ∧
            FovEnv.cellY ⟨w, h, fun x y => decide (x = ox + k * a ∧ y = oy + k * b),
              ox, oy, ⟨-1, 0, 0, -1⟩, radius⟩ (-(j * (a))) (-(j * (b))) = oy + j * b := by
          intro j
          constructor <;> (simp only [FovEnv.cellX, FovEnv.cellY]; ring)
        have hinjT : ∀ dX₁ d₁ dX₂ d₂ : Int,
            FovEnv.cellX ⟨w, h, fun x y => decide (x = ox + k * a ∧ y = oy + k * b),
              ox, oy, ⟨-1, 0, 0, -1⟩, radius⟩ dX₁ (-d₁) = FovEnv.cellX ⟨w, h, fun x y => decide (x = ox + k * a ∧ y = oy + k * b),
              ox, oy, ⟨-1, 0, 0, -1⟩, radius⟩ dX₂ (-d₂) →
            FovEnv.cellY ⟨w, h, fun x y => decide (x = ox + k * a ∧ y = oy + k * b),
              ox, oy, ⟨-1, 0, 0, -1⟩, radius⟩ dX₁ (-d₁) = FovEnv.cellY ⟨w, h, fun x y => decide (x = ox + k * a ∧ y = oy + k * b),
              ox, oy, ⟨-1, 0, 0, -1⟩, radius⟩ dX₂ (-d₂) →
            dX₁ = dX₂ ∧ d₁ = d₂ := by
          intro dX₁ d₁ dX₂ d₂ h1 h2
          simp only [FovEnv.cellX, FovEnv.cellY] at h1 h2
          constructor <;> linarith
        have hopT : ∀ dX₁ d₁ : Int,
            FovEnv.isOpaque ⟨w, h, fun x y => decide (x = ox + k * a ∧ y = oy + k * b),
              ox, oy, ⟨-1, 0, 0, -1⟩, radius⟩
              (FovEnv.cellX ⟨w, h, fun x y => decide (x = ox + k * a ∧ y = oy + k * b),
              ox, oy, ⟨-1, 0, 0, -1⟩, radius⟩ dX₁ (-d₁))
              (FovEnv.cellY ⟨w, h, fun x y => decide (x = ox + k * a ∧ y = oy + k * b),
              ox, oy, ⟨-1, 0, 0, -1⟩, radius⟩ dX₁ (-d₁)) = true ↔
              (dX₁ = -(k * (a)) ∧ d₁ = k * (b)) := by
          intro dX₁ d₁
          simp only [FovEnv.cellX, FovEnv.cellY, decide_eq_true_eq]
          constructor <;> (rintro ⟨h1, h2⟩; exact ⟨by linarith, by linarith⟩)
        have hex := hinjT dX d (-(m * (a))) (m * (b))
          (by rw [← hx, (hmapT m).1]) (by rw [← hy, (hmapT m).2])
        have hA0 : 0 ≤ (a) := factor_nonneg m _ (by omega) (by linarith [hex.1, hcone2])
        have hB1 : 1 ≤ (b) := factor_pos m _ (by omega) (by linarith [hex.2, hlo])
        have hAB : (a) ≤ (b) := factor_le m _ _ (by omega)
          (by linarith [hex.1, hex.2, hcone1])
        exact (world_octant _ ox oy a b k m (a) (b) hmapT hinjT hopT hk hkm
          hA0 hAB hB1 hrad0 (by nlinarith [heuc]) hob).2 hc
      · obtain ⟨dX, d, hx, hy, hcone1, hcone2, hlo, hhi, -, -, -⟩ :=
          (castShadowsF_sound
            ⟨w, h, fun x y => decide (x = ox + k * a ∧ y = oy + k * b),
              ox, oy, ⟨0, 1, 1, 0⟩, radius⟩ (radius.toNat + 1) 1 slopeOne slopeZero
            (by omega) (by simp [slopeZero])).1 _ hc
        have hmapT : ∀ j : Int,
            FovEnv.cellX ⟨w, h, fun x y => decide (x = ox + k * a ∧ y = oy + k * b),
              ox, oy, ⟨0, 1, 1, 0⟩, radius⟩ (-(j * (-b))) (-(j * (-a))) = ox + j * a ∧
            FovEnv.cellY ⟨w, h, fun x y => decide (x = ox + k * a ∧ y = oy + k * b),
              ox, oy, ⟨0, 1, 1, 0⟩, radius⟩ (-(j * (-b))) (-(j * (-a))) = oy + j * b := by
          intro j
          constructor <;> (simp only [FovEnv.cellX, FovEnv.cellY]; ring)
        have hinjT : ∀ dX₁ d₁ dX₂ d₂ : Int,
            FovEnv.cellX ⟨w, h, fun x y => decide (x = ox + k * a ∧ y = oy + k * b),
              ox, oy, ⟨0, 1, 1, 0⟩, radius⟩ dX₁ (-d₁) = FovEnv.cellX ⟨w, h, fun x y => decide (x = ox + k * a ∧ y = oy + k * b),
              ox, oy, ⟨0, 1, 1, 0⟩, radius⟩ dX₂ (-d₂) →
            FovEnv.cellY ⟨w, h, fun x y => decide (x = ox + k * a ∧ y = oy + k * b),
              ox, oy, ⟨0, 1, 1, 0⟩, radius⟩ dX₁ (-d₁) = FovEnv.cellY ⟨w, h, fun x y => decide (x = ox + k * a ∧ y = oy + k * b),
              ox, oy, ⟨0, 1, 1, 0⟩, radius⟩ dX₂ (-d₂) →
            dX₁ = dX₂ ∧ d₁ = d₂ := by
          intro dX₁ d₁ dX₂ d₂ h1 h2
          simp only [FovEnv.cellX, FovEnv.cellY] at h1 h2
          constructor <;> linarith
        have hopT : ∀ dX₁ d₁ : Int,
            FovEnv.isOpaque ⟨w, h, fun x y => decide (x = ox + k * a ∧ y = oy + k * b),
              ox, oy, ⟨0, 1, 1, 0⟩, radius⟩
              (FovEnv.cellX ⟨w, h, fun x y => decide (x = ox + k * a ∧ y = oy + k * b),
              ox, oy, ⟨0, 1, 1, 0⟩, radius⟩ dX₁ (-d₁))
              (FovEnv.cellY ⟨w, h, fun x y => decide (x = ox + k * a ∧ y = oy + k * b),
              ox, oy, ⟨0, 1, 1, 0⟩, radius⟩ dX₁ (-d₁)) = true ↔
              (dX₁ = -(k * (-b)) ∧ d₁ = k * (-a)) := by
          intro dX₁ d₁
          simp only [FovEnv.cellX, FovEnv.cellY, decide_eq_true_eq]
          constructor <;> (rintro ⟨h1, h2⟩; exact ⟨by linarith, by linarith⟩)
        have hex := hinjT dX d (-(m * (-b))) (m * (-a))
          (by rw [← hx, (hmapT m).1]) (by rw [← hy, (hmapT m).2])
        have hA0 : 0 ≤ (-b) := factor_nonneg m _ (by omega) (by linarith [hex.1, hcone2])
        have hB1 : 1 ≤ (-a) := factor_pos m _ (by omega) (by linarith [hex.2, hlo])
        have hAB : (-b) ≤ (-a) := factor_le m _ _ (by omega)
          (by linarith [hex.1, hex.2, hcone1])
        exact (world_octant _ ox oy a b k m (-b) (-a) hmapT hinjT hopT hk hkm
          hA0 hAB hB1 hrad0 (by nlinarith [heuc]) hob).2 hc
      · obtain ⟨dX, d, hx, hy, hcone1, hcone2, hlo, hhi, -, -, -⟩ :=
          (castShadowsF_sound
            ⟨w, h, fun x y => decide (x = ox + k * a ∧ y = oy + k * b),
              ox, oy, ⟨0, 1, -1, 0⟩, radius⟩ (radius.toNat + 1) 1 slopeOne slopeZero
            (by omega) (by simp [slopeZero])).1 _ hc
        have hmapT : ∀ j : Int,
            FovEnv.cellX ⟨w, h, fun x y => decide (x = ox + k * a ∧ y = oy + k * b),
              ox, oy, ⟨0, 1, -1, 0⟩, radius⟩ (-(j * (b))) (-(j * (-a))) = ox + j * a ∧
            FovEnv.cellY ⟨w, h, fun x y => decide (x = ox + k * a ∧ y = oy + k * b),
              ox, oy, ⟨0, 1, -1, 0⟩, radius⟩ (-(j * (b))) (-(j * (-a))) = oy + j * b := by
          intro j
          constructor <;> (simp only [FovEnv.cellX, FovEnv.cellY]; ring)
        have hinjT : ∀ dX₁ d₁ dX₂ d₂ : Int,
            FovEnv.cellX ⟨w, h, fun x y => decide (x = ox + k * a ∧ y = oy + k * b),
              ox, oy, ⟨0, 1, -1, 0⟩, radius⟩ dX₁ (-d₁) = FovEnv.cellX ⟨w, h, fun x y => decide (x = ox + k * a ∧ y = oy + k * b),
              ox, oy, ⟨0, 1, -1, 0⟩, radius⟩ dX₂ (-d₂) →
            FovEnv.cellY ⟨w, h, fun x y => decide (x = ox + k * a ∧ y = oy + k * b),
              ox, oy, ⟨0, 1, -1, 0⟩, radius⟩ dX₁ (-d₁) = FovEnv.cellY ⟨w, h, fun x y => decide (x = ox + k * a ∧ y = oy + k * b),
              ox, oy, ⟨0, 1, -1, 0⟩, radius⟩ dX₂ (-d₂) →
            dX₁ = dX₂ ∧ d₁ = d₂ := by
          intro dX₁ d₁ dX₂ d₂ h1 h2
          simp only [FovEnv.cellX, FovEnv.cellY] at h1 h2
          constructor <;> linarith
        have hopT : ∀ dX₁ d₁ : Int,
            FovEnv.isOpaque ⟨w, h, fun x y => decide (x = ox + k * a ∧ y = oy + k * b),
              ox, oy, ⟨0, 1, -1, 0⟩, radius⟩
              (FovEnv.cellX ⟨w, h, fun x y => decide (x = ox + k * a ∧ y = oy + k * b),
              ox, oy, ⟨0, 1, -1, 0⟩, radius⟩ dX₁ (-d₁))
              (FovEnv.cellY ⟨w, h, fun x y => decide (x = ox + k * a ∧ y = oy + k * b),
              ox, oy, ⟨0, 1, -1, 0⟩, radius⟩ dX₁ (-d₁)) = true ↔
              (dX₁ = -(k * (b)) ∧ d₁ = k * (-a)) := by
          intro dX₁ d₁
          simp only [FovEnv.cellX, FovEnv.cellY, decide_eq_true_eq]
          constructor <;> (rintro ⟨h1, h2⟩; exact ⟨by linarith, by linarith⟩)
        have hex := hinjT dX d (-(m * (b))) (m * (-a))
          (by rw [← hx, (hmapT m).1]) (by rw [← hy, (hmapT m).2])
        have hA0 : 0 ≤ (b) := factor_nonneg m _ (by omega) (by linarith [hex.1, hcone2])
        have hB1 : 1 ≤ (-a) := factor_pos m _ (by omega) (by linarith [hex.2, hlo])
        have hAB : (b) ≤ (-a) := factor_le m _ _ (by omega)
          (by linarith [hex.1, hex.2, hcone1])
        exact (world_octant _ ox oy a b k m (b) (-a) hmapT hinjT hopT hk hkm
          hA0 hAB hB1 hrad0 (by nlinarith [heuc]) hob).2 hc
      · obtain ⟨dX, d, hx, hy, hcone1, hcone2, hlo, hhi, -, -, -⟩ :=
          (castShadowsF_sound
            ⟨w, h, fun x y => decide (x = ox + k * a ∧ y = oy + k * b),
              ox, oy, ⟨0, -1, 1, 0⟩, radius⟩ (radius.toNat + 1) 1 slopeOne slopeZero
            (by omega) (by simp [slopeZero])).1 _ hc
        have hmapT : ∀ j : Int,
            FovEnv.cellX ⟨w, h, fun x y => decide (x = ox + k * a ∧ y = oy + k * b),
              ox, oy, ⟨0, -1, 1, 0⟩, radius⟩ (-(j * (-b))) (-(j * (a))) = ox + j * a ∧
            FovEnv.cellY ⟨w, h, fun x y => decide (x = ox + k * a ∧ y = oy + k * b),
              ox, oy, ⟨0, -1, 1, 0⟩, radius⟩ (-(j * (-b))) (-(j * (a))) = oy + j * b := by
          intro j
          constructor <;> (simp only [FovEnv.cellX, FovEnv.cellY]; ring)
        have hinjT : ∀ dX₁ d₁ dX₂ d₂ : Int,
            FovEnv.cellX ⟨w, h, fun x y => decide (x = ox + k * a ∧ y = oy + k * b),
              ox, oy, ⟨0, -1, 1, 0⟩, radius⟩ dX₁ (-d₁) = FovEnv.cellX ⟨w, h, fun x y => decide (x = ox + k * a ∧ y = oy + k * b),
              ox, oy, ⟨0, -1, 1, 0⟩, radius⟩ dX₂ (-d₂) →
            FovEnv.cellY ⟨w, h, fun x y => decide (x = ox + k * a ∧ y = oy + k * b),
              ox, oy, ⟨0, -1, 1, 0⟩, radius⟩ dX₁ (-d₁) = FovEnv.cellY ⟨w, h, fun x y => decide (x = ox + k * a ∧ y = oy + k * b),
              ox, oy, ⟨0, -1, 1, 0⟩, radius⟩ dX₂ (-d₂) →
            dX₁ = dX₂ ∧ d₁ = d₂ := by
          intro dX₁ d₁ dX₂ d₂ h1 h2
          simp only [FovEnv.cellX, FovEnv.cellY] at h1 h2
          constructor <;> linarith
        have hopT : ∀ dX₁ d₁ : Int,
            FovEnv.isOpaque ⟨w, h, fun x y => decide (x = ox + k * a ∧ y = oy + k * b),
              ox, oy, ⟨0, -1, 1, 0⟩, radius⟩
              (FovEnv.cellX ⟨w, h, fun x y => decide (x = ox + k * a ∧ y = oy + k * b),
              ox, oy, ⟨0, -1, 1, 0⟩, radius⟩ dX₁ (-d₁))
              (FovEnv.cellY ⟨w, h, fun x y => decide (x = ox + k * a ∧ y = oy + k * b),
              ox, oy, ⟨0, -1, 1, 0⟩, radius⟩ dX₁ (-d₁)) = true ↔
              (dX₁ = -(k * (-b)) ∧ d₁ = k * (a)) := by
          intro dX₁ d₁
          simp only [FovEnv.cellX, FovEnv.cellY, decide_eq_true_eq]
          constructor <;> (rintro ⟨h1, h2⟩; exact ⟨by linarith, by linarith⟩)
        have hex := hinjT dX d (-(m * (-b))) (m * (a))
          (by rw [← hx, (hmapT m).1]) (by rw [← hy, (hmapT m).2])
        have hA0 : 0 ≤ (-b) := factor_nonneg m _ (by omega) (by linarith [hex.1, hcone2])
        have hB1 : 1 ≤ (a) := factor_pos m _ (by omega) (by linarith [hex.2, hlo])
        have hAB : (-b) ≤ (a) := factor_le m _ _ (by omega)
          (by linarith [hex.1, hex.2, hcone1])
        exact (world_octant _ ox oy a b k m (-b) (a) hmapT hinjT hopT hk hkm
          hA0 hAB hB1 hrad0 (by nlinarith [heuc]) hob).2 hc
      · obtain ⟨dX, d, hx, hy, hcone1, hcone2, hlo, hhi, -, -, -⟩ :=
          (castShadowsF_sound
            ⟨w, h, fun x y => decide (x = ox + k * a ∧ y = oy + k * b),
              ox, oy, ⟨0, -1, -1, 0⟩, radius⟩ (radius.toNat + 1) 1 slopeOne slopeZero
            (by omega) (by simp [slopeZero])).1 _ hc
        have hmapT : ∀ j : Int,
            FovEnv.cellX ⟨w, h, fun x y => decide (x = ox + k * a ∧ y = oy + k * b),
              ox, oy, ⟨0, -1, -1, 0⟩, radius⟩ (-(j * (b))) (-(j * (a))) = ox + j * a ∧
            FovEnv.cellY ⟨w, h, fun x y => decide (x = ox + k * a ∧ y = oy + k * b),
              ox, oy, ⟨0, -1, -1, 0⟩, radius⟩ (-(j * (b))) (-(j * (a))) = oy + j * b := by
          intro j
          constructor <;> (simp only [FovEnv.cellX, FovEnv.cellY]; ring)
        have hinjT : ∀ dX₁ d₁ dX₂ d₂ : Int,
            FovEnv.cellX ⟨w, h, fun x y => decide (x = ox + k * a ∧ y = oy + k * b),
              ox, oy, ⟨0, -1, -1, 0⟩, radius⟩ dX₁ (-d₁) = FovEnv.cellX ⟨w, h, fun x y => decide (x = ox + k * a ∧ y = oy + k * b),
              ox, oy, ⟨0, -1, -1, 0⟩, radius⟩ dX₂ (-d₂) →
            FovEnv.cellY ⟨w, h, fun x y => decide (x = ox + k * a ∧ y = oy + k * b),
              ox, oy, ⟨0, -1, -1, 0⟩, radius⟩ dX₁ (-d₁) = FovEnv.cellY ⟨w, h, fun x y => decide (x = ox + k * a ∧ y = oy + k * b),
              ox, oy, ⟨0, -1, -1, 0⟩, radius⟩ dX₂ (-d₂) →
            dX₁ = dX₂ ∧ d₁ = d₂ := by
          intro dX₁ d₁ dX₂ d₂ h1 h2
          simp only [FovEnv.cellX, FovEnv.cellY] at h1 h2
          constructor <;> linarith
        have hopT : ∀ dX₁ d₁ : Int,
            FovEnv.isOpaque ⟨w, h, fun x y => decide (x = ox + k * a ∧ y = oy + k * b),
              ox, oy, ⟨0, -1, -1, 0⟩, radius⟩
              (FovEnv.cellX ⟨w, h, fun x y => decide (x = ox + k * a ∧ y = oy + k * b),
              ox, oy, ⟨0, -1, -1, 0⟩, radius⟩ dX₁ (-d₁))
              (FovEnv.cellY ⟨w, h, fun x y => decide (x = ox + k * a ∧ y = oy + k * b),
              ox, oy, ⟨0, -1, -1, 0⟩, radius⟩ dX₁ (-d₁)) = true ↔
              (dX₁ = -(k * (b)) ∧ d₁ = k * (a)) := by
          intro dX₁ d₁
          simp only [FovEnv.cellX, FovEnv.cellY, decide_eq_true_eq]
          constructor <;> (rintro ⟨h1, h2⟩; exact ⟨by linarith, by linarith⟩)
        have hex := hinjT dX d (-(m * (b))) (m * (a))
          (by rw [← hx, (hmapT m).1]) (by rw [← hy, (hmapT m).2])
        have hA0 : 0 ≤ (b) := factor_nonneg m _ (by omega) (by linarith [hex.1, hcone2])
        have hB1 : 1 ≤ (a) := factor_pos m _ (by omega) (by linarith [hex.2, hlo])
        have hAB : (b) ≤ (a) := factor_le m _ _ (by omega)
          (by linarith [hex.1, hex.2, hcone1])
        exact (world_octant _ ox oy a b k m (b) (a) hmapT hinjT hopT hk hkm
          hA0 hAB hB1 hrad0 (by nlinarith [heuc]) hob).2 hc


/-- Witness for C6 at a concrete instance: a 7x7 grid with the single
opaque cell (3, 2), origin (1, 2), radius 5, ray direction (1, 0),
wall at the 2nd ray point and farther cell at the 4th. -/
theorem fov_shadow_blocking_witness :
    (1 + 2 * 1, 2 + 2 * 0) ∈
      (refresh 7 7 (fun x y => decide (x = 1 + 2 * 1 ∧ y = 2 + 2 * 0))
        1 2 5).rev ∧
    (1 + 4 * 1, 2 + 4 * 0) ∉
      (refresh 7 7 (fun x y => decide (x = 1 + 2 * 1 ∧ y = 2 + 2 * 0))
        1 2 5).rev :=
  fov_shadow_blocking 7 7 1 2 5 1 0 2 4 (by decide) (by decide) (by decide)
    (by decide) (by decide) (by decide) (by decide)


/-- Witness for C10 at a concrete instance: negative radius `-1` on a 4x4
grid, fuel 5. -/
theorem refresh_terminates_witness :
    ((-1 : Int).toNat + 1 ≤ 5) ∧
    (refreshFuel 5 4 4 openGrid 1 1 (-1) = refresh 4 4 openGrid 1 1 (-1) ∧
     ((-1 : Int) ≤ 0 → (refresh 4 4 openGrid 1 1 (-1)).rev = [(1, 1)] ∧
       (refresh 4 4 openGrid 1 1 (-1)).que = [])) :=
  ⟨by decide, refresh_terminates 4 4 openGrid 1 1 (-1) 5 (by decide)⟩


/-! ## Pathfinder embedding (src/src/pathfinder.js, docs/tutorial/part-6.md)

JavaScript `Map` keys are the strings `` `${x},${y}` `` produced by
`index`; the map `(x, y) ↦ "x,y"` is injective, so keys are modelled
directly as integer pairs.  Object references are modelled as values
carrying an identity `oid`; the JS `!==` test compares identities. -/

/-- A JavaScript object reference holding the fields `x` and `y` of a
point: `oid` is the reference identity, so two `JsObj`s with distinct
`oid`s are distinct objects even when their coordinate values agree. -/
structure JsObj where
  oid : Nat
  x : Int
  y : Int
deriving DecidableEq

/-- A JavaScript pointer-like value: an object reference, `null`, or
`undefined` (the result of `Map.get` on a missing key). -/
inductive JsPtr (α : Type) where
  | obj (a : α)
  | null
  | missing
deriving DecidableEq

/-- Runtime outcomes of the embedding: `typeError` is the `TypeError`
raised by reading `.x`/`.y` of `null` or `undefined`; `fuelOut` marks
exhaustion of the explicit recursion fuel of the embedding (an artifact of
the shallow embedding, proved unreachable where relevant). -/
inductive JsErr where
  | typeError
  | fuelOut
deriving DecidableEq

/-- `Map.get`: the value stored under key `k`, if any. -/
def mapGet {α : Type} : List ((Int × Int) × α) → (Int × Int) → Option α
  | [], _ => none
  | (k', v) :: rest, k => if k' = k then some v else mapGet rest k

/-- `Map.set`: replace the value stored under key `k`, or append a fresh
entry for a new key. -/
def mapSet {α : Type} :
    List ((Int × Int) × α) → (Int × Int) → α → List ((Int × Int) × α)
  | [], k, v => [(k, v)]
  | (k', v') :: rest, k, v =>
      if k' = k then (k, v) :: rest else (k', v') :: mapSet rest k v

/-- `PriorityQueue.poll`: remove and return the earliest entry carrying a
minimal priority, together with the remaining queue. -/
def pollMin {α : Type} : List (α × Int) → Option ((α × Int) × List (α × Int))
  | [] => none
  | e :: rest =>
    match pollMin rest with
    | none => some (e, [])
    | some (m, rest') =>
        if m.2 < e.2 then some (m, e :: rest') else some (e, rest)

/-- The loop of `tracePath`, generic in the point representation `α`:
`isOrigin` is the JS identity test `current !== origin` (negated) and
`idx` is `index(current)`.  When `current` is `null` or `undefined`,
evaluating `index(current)` reads `current.x` and raises `TypeError`. -/
def traceGo {α : Type} (isOrigin : α → Bool) (idx : α → Int × Int)
    (paths : List ((Int × Int) × JsPtr α)) :
    Nat → JsPtr α → List α → Except JsErr (List α)
  | 0, _, _ => .error .fuelOut
  | fuel + 1, .obj c, acc =>
      if isOrigin c then .ok acc.reverse
      else
        match mapGet paths (idx c) with
        | some v => traceGo isOrigin idx paths fuel v (acc ++ [c])
        | none => traceGo isOrigin idx paths fuel .missing (acc ++ [c])
  | _ + 1, .null, _ => .error .typeError
  | _ + 1, .missing, _ => .error .typeError

/-- The mutable state of `search`: the priority queue `frontier`, the maps
`costs` and `visited`, and the supply `ctr` of fresh object identities for
the candidate objects allocated by `adjacentNodes`. -/
structure ObjSt where
  frontier : List (JsObj × Int)
  costs : List ((Int × Int) × Int)
  visited : List ((Int × Int) × JsPtr JsObj)
  ctr : Nat

/-- The body of the `for (let candidate of adjacentNodes(...))` loop of
`search` for one candidate cell. -/
def relaxObj (tc : Int → Int → Int) (heur : (Int × Int) → (Int × Int) → Int)
    (trav : Int → Int → Bool) (target : Int × Int) (cur : JsObj)
    (st : ObjSt) (cand : Int × Int) : ObjSt :=
  if trav cand.1 cand.2 then
    let costSum := (mapGet st.costs (cur.x, cur.y)).getD 0 + tc cand.1 cand.2
    let improve :=
      match mapGet st.costs cand with
      | none => true
      | some old => decide (costSum < old)
    if improve then
      ⟨st.frontier ++ [(⟨st.ctr, cand.1, cand.2⟩, costSum + heur target cand)],
       mapSet st.costs cand costSum,
       mapSet st.visited cand (.obj cur),
       st.ctr + 1⟩
    else st
  else st

/-- The `while (!frontier.isEmpty())` loop of `search`. -/
def loopObj (adj : Int → Int → List (Int × Int))
    (heur : (Int × Int) → (Int × Int) → Int) (tc : Int → Int → Int)
    (trav : Int → Int → Bool) (target : Int × Int) :
    Nat → ObjSt → Except JsErr ObjSt
  | 0, _ => .error .fuelOut
  | fuel + 1, st =>
    match pollMin st.frontier with
    | none => .ok st
    | some ((cur, _), rest) =>
      if cur.x = target.1 ∧ cur.y = target.2 then
        .ok ⟨rest, st.costs, st.visited, st.ctr⟩
      else
        loopObj adj heur tc trav target fuel
          ((adj cur.x cur.y).foldl (relaxObj tc heur trav target cur)
            ⟨rest, st.costs, st.visited, st.ctr⟩)

/-- `search(origin, target)` from `createPathfinder`: initialise the
frontier and the maps with the origin, run the loop, then `tracePath`.
Fresh candidate identities start above both input identities. -/
def searchObj (adj : Int → Int → List (Int × Int))
    (heur : (Int × Int) → (Int × Int) → Int) (tc : Int → Int → Int)
    (trav : Int → Int → Bool) (origin target : JsObj) (fuel : Nat) :
    Except JsErr (List JsObj) :=
  let st0 : ObjSt :=
    ⟨[(origin, 0)], [((origin.x, origin.y), 0)],
     [((origin.x, origin.y), .null)], max origin.oid target.oid + 1⟩
  match loopObj adj heur tc trav (target.x, target.y) fuel st0 with
  | .error e => .error e
  | .ok st =>
      traceGo (fun c => decide (c.oid = origin.oid)) (fun c => (c.x, c.y))
        st.visited fuel (.obj target) []

/-- The value-level shadow of `ObjSt`: object references erased to their
coordinate values. -/
structure ValSt where
  frontier : List ((Int × Int) × Int)
  costs : List ((Int × Int) × Int)
  visited : List ((Int × Int) × JsPtr (Int × Int))

/-- Value-level `relaxObj`. -/
def relaxVal (tc : Int → Int → Int) (heur : (Int × Int) → (Int × Int) → Int)
    (trav : Int → Int → Bool) (target : Int × Int) (cur : Int × Int)
    (st : ValSt) (cand : Int × Int) : ValSt :=
  if trav cand.1 cand.2 then
    let costSum := (mapGet st.costs cur).getD 0 + tc cand.1 cand.2
    let improve :=
      match mapGet st.costs cand with
      | none => true
      | some old => decide (costSum < old)
    if improve then
      ⟨st.frontier ++ [(cand, costSum + heur target cand)],
       mapSet st.costs cand costSum,
       mapSet st.visited cand (.obj cur)⟩
    else st
  else st

/-- Value-level `loopObj`. -/
def loopVal (adj : Int → Int → List (Int × Int))
    (heur : (Int × Int) → (Int × Int) → Int) (tc : Int → Int → Int)
    (trav : Int → Int → Bool) (target : Int × Int) :
    Nat → ValSt → Except JsErr ValSt
  | 0, _ => .error .fuelOut
  | fuel + 1, st =>
    match pollMin st.frontier with
    | none => .ok st
    | some ((cur, _), rest) =>
      if cur = target then .ok ⟨rest, st.costs, st.visited⟩
      else
        loopVal adj heur tc trav target fuel
          ((adj cur.1 cur.2).foldl (relaxVal tc heur trav target cur)
            ⟨rest, st.costs, st.visited⟩)

/-- Value-level `search`. -/
def searchVal (adj : Int → Int → List (Int × Int))
    (heur : (Int × Int) → (Int × Int) → Int) (tc : Int → Int → Int)
    (trav : Int → Int → Bool) (origin target : Int × Int) (fuel : Nat) :
    Except JsErr (List (Int × Int)) :=
  let st0 : ValSt := ⟨[(origin, 0)], [(origin, 0)], [(origin, .null)]⟩
  match loopVal adj heur tc trav target fuel st0 with
  | .error e => .error e
  | .ok st =>
      traceGo (fun c => decide (c = origin)) (fun c => c)
        st.visited fuel (.obj target) []

/-- `Directions.CARDINAL` (docs/tutorial/part-6.md). -/
def cardinal : List (Int × Int) := [(-1, 0), (1, 0), (0, -1), (0, 1)]

/-- `Stage.adjacentPoints` (docs/tutorial/part-6.md): the cardinal
neighbours of `(x, y)`, skipping points out of the map bounds. -/
def adjacentPoints (w h : Int) (x y : Int) : List (Int × Int) :=
  (cardinal.map (fun d => (x + d.1, y + d.2))).filter
    (fun c => decide (0 ≤ c.1 ∧ c.1 < w ∧ 0 ≤ c.2 ∧ c.2 < h))

/-- Plain Manhattan distance, the `costHeuristic` parameter fixed by
claim C5 (no tie-break inflation), applied as `costHeuristic(target,
candidate)`. -/
def manhattan (t c : Int × Int) : Int := |t.1 - c.1| + |t.2 - c.2|


/-! ### Exhaustive breadth-first search (reference distance for C5) -/

/-- Insert a cell into a duplicate-free accumulator. -/
def insertPt (acc : List (Int × Int)) (q : Int × Int) : List (Int × Int) :=
  if q ∈ acc then acc else acc ++ [q]

/-- The cells reachable from `o` in at most `n` traversable cardinal
steps, by exhaustive breadth-first expansion. -/
def reachIn (w h : Int) (trav : Int → Int → Bool) (o : Int × Int) :
    Nat → List (Int × Int)
  | 0 => [o]
  | n + 1 =>
    let acc := reachIn w h trav o n
    ((acc.map (fun p =>
        (adjacentPoints w h p.1 p.2).filter (fun q => trav q.1 q.2))).flatten).foldl
      insertPt acc

/-- Linear scan for the least step count reaching `t`. -/
def bfsDistGo (w h : Int) (trav : Int → Int → Bool) (o t : Int × Int) :
    Nat → Nat → Option Nat
  | 0, _ => none
  | b + 1, n =>
      if t ∈ reachIn w h trav o n then some n
      else bfsDistGo w h trav o t b (n + 1)

/-- Exhaustive breadth-first shortest distance from `o` to `t`: the least
step count at which `t` becomes reachable, searched up to the cell count
of the grid. -/
def bfsDist (w h : Int) (trav : Int → Int → Bool) (o t : Int × Int) :
    Option Nat :=
  bfsDistGo w h trav o t (w.toNat * h.toNat + 1) 0

/-- One traversable cardinal step of the search graph. -/
def stepOk (w h : Int) (trav : Int → Int → Bool) (p q : Int × Int) : Prop :=
  q ∈ adjacentPoints w h p.1 p.2 ∧ trav q.1 q.2 = true

/-- `Walk w h trav a l b`: `l` lists the successive cells of a walk from
`a` to `b` whose every step enters a traversable in-bounds cell. -/
def Walk (w h : Int) (trav : Int → Int → Bool) :
    (Int × Int) → List (Int × Int) → (Int × Int) → Prop
  | a, [], b => a = b
  | a, q :: rest, b => stepOk w h trav a q ∧ Walk w h trav q rest b

/-- C2 (code bug): on a 3×1 strip whose middle cell is not traversable,
the target `(2, 0)` is unreachable from the origin `(0, 0)` (exhaustive
breadth-first search finds no route), and `search` raises `TypeError`
instead of returning a defined empty result: the frontier empties without
the target being visited, `tracePath` steps from the target to the
`undefined` result of `paths.get`, and `index(undefined)` reads `.x`. -/
theorem pathfinder_unreachable_type_error :
    bfsDist 3 1 (fun x _ => decide (x ≠ 1)) (0, 0) (2, 0) = none ∧
    searchObj (adjacentPoints 3 1) manhattan (fun _ _ => 1)
      (fun x _ => decide (x ≠ 1)) ⟨0, 0, 0⟩ ⟨1, 2, 0⟩ 9 =
      .error .typeError := by
  exact ⟨rfl, rfl⟩

/-- C3 (counterexample): when origin and target are distinct objects that
carry the same coordinates `(1, 1)`, `search` raises `TypeError` instead
of returning an empty sequence: the loop breaks at once, but `tracePath`
compares `current !== origin` by object identity, so it walks from the
target object to the `null` predecessor stored under the origin key, and
`index(null)` reads `.x`. -/
theorem pathfinder_self_distinct_objects_crash :
    searchObj (adjacentPoints 3 3) manhattan (fun _ _ => 1)
      (fun _ _ => true) ⟨0, 1, 1⟩ ⟨1, 1, 1⟩ 9 = .error .typeError := by
  exact rfl

/-- C3 (amended): when the target is the origin object itself, `search`
short-circuits: the first poll returns the origin, the break condition
holds, and `tracePath` stops at once, returning the empty sequence. -/
theorem pathfinder_self_path (adj : Int → Int → List (Int × Int))
    (heur : (Int × Int) → (Int × Int) → Int) (tc : Int → Int → Int)
    (trav : Int → Int → Bool) (o : JsObj) (fuel : Nat) :
    searchObj adj heur tc trav o o (fuel + 1) = .ok [] := by
  simp [searchObj, loopObj, pollMin, traceGo]

/-- C9 (counterexample): replacing the target by a distinct object with
the same coordinate values changes the result of `search` from the empty
path to a `TypeError`: the result depends on object identity, not only on
coordinate values. -/
theorem pathfinder_identity_dependent :
    searchObj (adjacentPoints 3 3) manhattan (fun _ _ => 1)
      (fun _ _ => true) ⟨0, 1, 1⟩ ⟨0, 1, 1⟩ 9 = .ok [] ∧
    searchObj (adjacentPoints 3 3) manhattan (fun _ _ => 1)
      (fun _ _ => true) ⟨0, 1, 1⟩ ⟨2, 1, 1⟩ 9 = .error .typeError := by
  exact ⟨rfl, rfl⟩


/-! ### Map, queue and erasure lemmas -/

theorem mapGet_mem {α : Type} {l : List ((Int × Int) × α)} {k : Int × Int}
    {v : α} (h : mapGet l k = some v) : (k, v) ∈ l := by
  induction l with
  | nil => simp [mapGet] at h
  | cons e rest ih =>
    obtain ⟨k', v'⟩ := e
    rw [mapGet] at h
    by_cases hk : k' = k
    · rw [if_pos hk] at h
      subst hk
      cases h
      exact List.mem_cons_self _ _
    · rw [if_neg hk] at h
      exact List.mem_cons_of_mem _ (ih h)

theorem mem_mapSet {α : Type} {l : List ((Int × Int) × α)} {k : Int × Int}
    {v : α} {e : (Int × Int) × α} (h : e ∈ mapSet l k v) :
    e ∈ l ∨ e = (k, v) := by
  induction l with
  | nil =>
    rw [mapSet] at h
    simp at h
    exact Or.inr h
  | cons e' rest ih =>
    obtain ⟨k', v'⟩ := e'
    rw [mapSet] at h
    by_cases hk : k' = k
    · rw [if_pos hk] at h
      rcases List.mem_cons.mp h with h | h
      · exact Or.inr h
      · exact Or.inl (List.mem_cons_of_mem _ h)
    · rw [if_neg hk] at h
      rcases List.mem_cons.mp h with h | h
      · exact Or.inl (h ▸ List.mem_cons_self _ _)
      · rcases ih h with h | h
        · exact Or.inl (List.mem_cons_of_mem _ h)
        · exact Or.inr h

theorem mapGet_mapSet_self {α : Type} (l : List ((Int × Int) × α))
    (k : Int × Int) (v : α) : mapGet (mapSet l k v) k = some v := by
  induction l with
  | nil => simp [mapSet, mapGet]
  | cons e rest ih =>
    obtain ⟨k', v'⟩ := e
    rw [mapSet]
    by_cases hk : k' = k
    · rw [if_pos hk, mapGet, if_pos rfl]
    · rw [if_neg hk, mapGet, if_neg hk]
      exact ih

theorem mapGet_mapSet_ne {α : Type} (l : List ((Int × Int) × α))
    (k k' : Int × Int) (v : α) (h : k' ≠ k) :
    mapGet (mapSet l k v) k' = mapGet l k' := by
  induction l with
  | nil =>
    simp only [mapSet, mapGet]
    rw [if_neg (fun he => h he.symm)]
  | cons e rest ih =>
    obtain ⟨k₀, v₀⟩ := e
    rw [mapSet]
    by_cases hk : k₀ = k
    · rw [if_pos hk, mapGet, mapGet, if_neg (fun he => h he.symm), hk,
        if_neg (fun he => h he.symm)]
    · rw [if_neg hk, mapGet, mapGet]
      by_cases hk' : k₀ = k'
      · rw [if_pos hk', if_pos hk']
      · rw [if_neg hk', if_neg hk']
        exact ih

theorem mapGet_map {α β : Type} (f : α → β) (l : List ((Int × Int) × α))
    (k : Int × Int) :
    mapGet (l.map (fun e => (e.1, f e.2))) k = (mapGet l k).map f := by
  induction l with
  | nil => simp [mapGet]
  | cons e rest ih =>
    obtain ⟨k', v⟩ := e
    rw [List.map_cons, mapGet, mapGet]
    by_cases hk : k' = k
    · rw [if_pos hk, if_pos hk]
      simp
    · rw [if_neg hk, if_neg hk]
      exact ih

theorem mapSet_map {α β : Type} (f : α → β) (l : List ((Int × Int) × α))
    (k : Int × Int) (v : α) :
    mapSet (l.map (fun e => (e.1, f e.2))) k (f v) =
    (mapSet l k v).map (fun e => (e.1, f e.2)) := by
  induction l with
  | nil => simp [mapSet]
  | cons e rest ih =>
    obtain ⟨k', v'⟩ := e
    rw [List.map_cons, mapSet, mapSet]
    by_cases hk : k' = k
    · rw [if_pos hk, if_pos hk, List.map_cons]
    · rw [if_neg hk, if_neg hk, List.map_cons, ih]

theorem pollMin_map {α β : Type} (f : α → β) (l : List (α × Int)) :
    pollMin (l.map (fun e => (f e.1, e.2))) =
    (pollMin l).map
      (fun r => ((f r.1.1, r.1.2), r.2.map (fun e => (f e.1, e.2)))) := by
  induction l with
  | nil => simp [pollMin]
  | cons e rest ih =>
    rw [List.map_cons, pollMin, pollMin, ih]
    cases h : pollMin rest with
    | none => rfl
    | some r =>
      obtain ⟨m, rest'⟩ := r
      by_cases hlt : m.2 < e.2
      · simp [hlt]
      · simp [hlt]

theorem pollMin_none {α : Type} {l : List (α × Int)} :
    pollMin l = none ↔ l = [] := by
  cases l with
  | nil => simp [pollMin]
  | cons e rest =>
    rw [pollMin]
    cases h : pollMin rest with
    | none => simp
    | some r => by_cases hlt : r.1.2 < e.2 <;> simp [hlt]

theorem pollMin_perm {α : Type} {l rest : List (α × Int)} {e : α × Int}
    (h : pollMin l = some (e, rest)) : l.Perm (e :: rest) := by
  induction l generalizing e rest with
  | nil => simp [pollMin] at h
  | cons e' l' ih =>
    rw [pollMin] at h
    split at h
    next hrec =>
      cases h
      have hl : l' = [] := pollMin_none.mp hrec
      subst hl
      exact List.Perm.refl _
    next m rest' hrec =>
      by_cases hlt : m.2 < e'.2
      · rw [if_pos hlt] at h
        cases h
        exact ((ih hrec).cons e').trans (List.Perm.swap _ _ _)
      · rw [if_neg hlt] at h
        cases h
        exact List.Perm.refl _

theorem pollMin_le {α : Type} {l rest : List (α × Int)} {e : α × Int}
    (h : pollMin l = some (e, rest)) : ∀ x ∈ l, e.2 ≤ x.2 := by
  induction l generalizing e rest with
  | nil => simp [pollMin] at h
  | cons e' l' ih =>
    rw [pollMin] at h
    split at h
    next hrec =>
      cases h
      have hl : l' = [] := pollMin_none.mp hrec
      subst hl
      intro x hx
      rw [List.mem_singleton] at hx
      subst hx
      exact le_refl _
    next m rest' hrec =>
      by_cases hlt : m.2 < e'.2
      · rw [if_pos hlt] at h
        cases h
        intro x hx
        rcases List.mem_cons.mp hx with rfl | hx
        · exact le_of_lt hlt
        · exact ih hrec x hx
      · rw [if_neg hlt] at h
        cases h
        intro x hx
        rcases List.mem_cons.mp hx with rfl | hx
        · exact le_refl _
        · exact le_trans (not_lt.mp hlt) (ih hrec x hx)

/-! ### Erasing object identities (bridge to the value-level search) -/

/-- Coordinate values of an object reference. -/
def eraseObj (o : JsObj) : Int × Int := (o.x, o.y)

/-- Coordinate values of a pointer-like value. -/
def erasePtr : JsPtr JsObj → JsPtr (Int × Int)
  | .obj o => .obj (eraseObj o)
  | .null => .null
  | .missing => .missing

/-- Coordinate values of a search state. -/
def eraseSt (st : ObjSt) : ValSt :=
  ⟨st.frontier.map (fun e => (eraseObj e.1, e.2)), st.costs,
   st.visited.map (fun e => (e.1, erasePtr e.2))⟩

theorem relaxObj_erase (tc : Int → Int → Int)
    (heur : (Int × Int) → (Int × Int) → Int) (trav : Int → Int → Bool)
    (target : Int × Int) (cur : JsObj) (st : ObjSt) (cand : Int × Int) :
    eraseSt (relaxObj tc heur trav target cur st cand) =
    relaxVal tc heur trav target (eraseObj cur) (eraseSt st) cand := by
  rw [relaxObj, relaxVal]
  by_cases htr : trav cand.1 cand.2
  · rw [if_pos htr, if_pos htr]
    simp only [eraseSt, eraseObj]
    by_cases himp : (match mapGet st.costs cand with
      | none => true
      | some old =>
          decide ((mapGet st.costs (cur.x, cur.y)).getD 0 + tc cand.1 cand.2 < old)) = true
    · rw [if_pos himp, if_pos himp]
      simp only [eraseSt, eraseObj, ValSt.mk.injEq]
      refine ⟨?_, trivial, ?_⟩
      · simp [eraseObj]
      · rw [← mapSet_map erasePtr]
        rfl
    · rw [if_neg himp, if_neg himp]
  · rw [if_neg htr, if_neg htr]

theorem foldl_relax_erase (tc : Int → Int → Int)
    (heur : (Int × Int) → (Int × Int) → Int) (trav : Int → Int → Bool)
    (target : Int × Int) (cur : JsObj) (cands : List (Int × Int)) (st : ObjSt) :
    eraseSt (cands.foldl (relaxObj tc heur trav target cur) st) =
    cands.foldl (relaxVal tc heur trav target (eraseObj cur)) (eraseSt st) := by
  induction cands generalizing st with
  | nil => rfl
  | cons c rest ih =>
    rw [List.foldl_cons, List.foldl_cons, ih, relaxObj_erase]

theorem loopObj_succ_none (adj : Int → Int → List (Int × Int))
    (heur : (Int × Int) → (Int × Int) → Int) (tc : Int → Int → Int)
    (trav : Int → Int → Bool) (target : Int × Int) (fuel : Nat) (st : ObjSt)
    (h : pollMin st.frontier = none) :
    loopObj adj heur tc trav target (fuel + 1) st = .ok st := by
  rw [loopObj, h]

theorem loopObj_succ_some (adj : Int → Int → List (Int × Int))
    (heur : (Int × Int) → (Int × Int) → Int) (tc : Int → Int → Int)
    (trav : Int → Int → Bool) (target : Int × Int) (fuel : Nat) (st : ObjSt)
    {cur : JsObj} {pri : Int} {rest : List (JsObj × Int)}
    (h : pollMin st.frontier = some ((cur, pri), rest)) :
    loopObj adj heur tc trav target (fuel + 1) st =
      if cur.x = target.1 ∧ cur.y = target.2 then
        .ok ⟨rest, st.costs, st.visited, st.ctr⟩
      else
        loopObj adj heur tc trav target fuel
          ((adj cur.x cur.y).foldl (relaxObj tc heur trav target cur)
            ⟨rest, st.costs, st.visited, st.ctr⟩) := by
  rw [loopObj, h]

theorem loopVal_succ_none (adj : Int → Int → List (Int × Int))
    (heur : (Int × Int) → (Int × Int) → Int) (tc : Int → Int → Int)
    (trav : Int → Int → Bool) (target : Int × Int) (fuel : Nat) (st : ValSt)
    (h : pollMin st.frontier = none) :
    loopVal adj heur tc trav target (fuel + 1) st = .ok st := by
  rw [loopVal, h]

theorem loopVal_succ_some (adj : Int → Int → List (Int × Int))
    (heur : (Int × Int) → (Int × Int) → Int) (tc : Int → Int → Int)
    (trav : Int → Int → Bool) (target : Int × Int) (fuel : Nat) (st : ValSt)
    {cur : Int × Int} {pri : Int} {rest : List ((Int × Int) × Int)}
    (h : pollMin st.frontier = some ((cur, pri), rest)) :
    loopVal adj heur tc trav target (fuel + 1) st =
      if cur = target then .ok ⟨rest, st.costs, st.visited⟩
      else
        loopVal adj heur tc trav target fuel
          ((adj cur.1 cur.2).foldl (relaxVal tc heur trav target cur)
            ⟨rest, st.costs, st.visited⟩) := by
  rw [loopVal, h]

theorem loopObj_erase (adj : Int → Int → List (Int × Int))
    (heur : (Int × Int) → (Int × Int) → Int) (tc : Int → Int → Int)
    (trav : Int → Int → Bool) (tx ty : Int) (fuel : Nat) (st : ObjSt) :
    (loopObj adj heur tc trav (tx, ty) fuel st).map eraseSt =
    loopVal adj heur tc trav (tx, ty) fuel (eraseSt st) := by
  induction fuel generalizing st with
  | zero => rfl
  | succ fuel ih =>
    cases hq : pollMin st.frontier with
    | none =>
      have hpm : pollMin (eraseSt st).frontier = none := by
        have h := pollMin_map eraseObj st.frontier
        rw [hq] at h
        exact h
      rw [loopObj_succ_none _ _ _ _ _ _ _ hq,
        loopVal_succ_none _ _ _ _ _ _ _ hpm]
      rfl
    | some r =>
      obtain ⟨⟨cur, pri⟩, rest⟩ := r
      have hpm : pollMin (eraseSt st).frontier =
          some ((eraseObj cur, pri), rest.map (fun e => (eraseObj e.1, e.2))) := by
        have h := pollMin_map eraseObj st.frontier
        rw [hq] at h
        exact h
      rw [loopObj_succ_some _ _ _ _ _ _ _ hq,
        loopVal_succ_some _ _ _ _ _ _ _ hpm]
      by_cases hbrk : cur.x = tx ∧ cur.y = ty
      · rw [if_pos hbrk, if_pos (show eraseObj cur = (tx, ty) by
          rw [eraseObj, hbrk.1, hbrk.2])]
        rfl
      · rw [if_neg hbrk, if_neg (show ¬eraseObj cur = (tx, ty) by
          rw [eraseObj, Prod.mk.injEq]; exact hbrk)]
        refine (ih _).trans ?_
        rw [foldl_relax_erase]
        rfl


/-! ### Object-identity invariant of the search loop -/

/-- An object agrees with the origin on identity exactly when it agrees on
coordinate values. -/
def ObjOk (origin : JsObj) (o : JsObj) : Prop :=
  o.oid = origin.oid ↔ (o.x, o.y) = (origin.x, origin.y)

/-- `ObjOk` lifted to pointer-like values. -/
def PtrOk (origin : JsObj) : JsPtr JsObj → Prop
  | .obj o => ObjOk origin o
  | .null => True
  | .missing => True

/-- Invariant of the object-level search state: the fresh-identity counter
sits above the origin identity, every object in the frontier and in the
range of `visited` satisfies `ObjOk`, the origin key keeps cost `0`, and
all costs are nonnegative. -/
def StOk (origin : JsObj) (st : ObjSt) : Prop :=
  origin.oid < st.ctr ∧
  (∀ e ∈ st.frontier, ObjOk origin e.1) ∧
  (∀ e ∈ st.visited, PtrOk origin e.2) ∧
  mapGet st.costs (origin.x, origin.y) = some 0 ∧
  (∀ e ∈ st.costs, 0 ≤ e.2)

theorem objOk_fresh (origin : JsObj) (n : Nat) (c1 c2 : Int)
    (hn : origin.oid < n) (hcne : (c1, c2) ≠ (origin.x, origin.y)) :
    ObjOk origin ⟨n, c1, c2⟩ := by
  rw [ObjOk]
  simp only
  constructor
  · intro h
    exact absurd h (by omega)
  · intro h
    exact absurd h hcne

theorem relaxObj_ok (origin : JsObj) (tc : Int → Int → Int)
    (heur : (Int × Int) → (Int × Int) → Int) (trav : Int → Int → Bool)
    (target : Int × Int) (cur : JsObj) (st : ObjSt) (cand : Int × Int)
    (htc : ∀ x y, 0 ≤ tc x y) (hcur : ObjOk origin cur)
    (h : StOk origin st) :
    StOk origin (relaxObj tc heur trav target cur st cand) := by
  obtain ⟨hctr, hfr, hvis, hor, hnn⟩ := h
  rw [relaxObj]
  by_cases htr : trav cand.1 cand.2
  · rw [if_pos htr]
    have hsum : 0 ≤ (mapGet st.costs (cur.x, cur.y)).getD 0 + tc cand.1 cand.2 := by
      have h0 : 0 ≤ (mapGet st.costs (cur.x, cur.y)).getD 0 := by
        cases hg : mapGet st.costs (cur.x, cur.y) with
        | none => simp
        | some c =>
          simp only [Option.getD_some]
          exact hnn _ (mapGet_mem hg)
      have := htc cand.1 cand.2
      omega
    by_cases himp : (match mapGet st.costs cand with
      | none => true
      | some old =>
          decide ((mapGet st.costs (cur.x, cur.y)).getD 0 + tc cand.1 cand.2 < old)) = true
    · rw [if_pos himp]
      have hcne : cand ≠ (origin.x, origin.y) := by
        intro hce
        rw [hce, hor] at himp
        simp only [decide_eq_true_eq] at himp
        have h2 := hsum
        rw [hce] at h2
        simp only at h2
        omega
      refine ⟨(show origin.oid < st.ctr + 1 by omega), ?_, ?_, ?_, ?_⟩
      · intro e he
        rcases List.mem_append.mp he with he | he
        · exact hfr e he
        · rw [List.mem_singleton] at he
          subst he
          exact objOk_fresh origin st.ctr cand.1 cand.2 hctr
            (by rw [Prod.mk.eta]; exact hcne)
      · intro e he
        rcases mem_mapSet he with he | he
        · exact hvis e he
        · subst he
          exact hcur
      · rw [mapGet_mapSet_ne _ _ _ _ (fun he => hcne he.symm)]
        exact hor
      · intro e he
        rcases mem_mapSet he with he | he
        · exact hnn e he
        · subst he
          exact hsum
    · rw [if_neg himp]
      exact ⟨hctr, hfr, hvis, hor, hnn⟩
  · rw [if_neg htr]
    exact ⟨hctr, hfr, hvis, hor, hnn⟩

theorem foldl_relax_ok (origin : JsObj) (tc : Int → Int → Int)
    (heur : (Int × Int) → (Int × Int) → Int) (trav : Int → Int → Bool)
    (target : Int × Int) (cur : JsObj) (cands : List (Int × Int)) (st : ObjSt)
    (htc : ∀ x y, 0 ≤ tc x y) (hcur : ObjOk origin cur)
    (h : StOk origin st) :
    StOk origin (cands.foldl (relaxObj tc heur trav target cur) st) := by
  induction cands generalizing st with
  | nil => exact h
  | cons c rest ih =>
    rw [List.foldl_cons]
    exact ih _ (relaxObj_ok origin tc heur trav target cur st c htc hcur h)

theorem loopObj_ok (origin : JsObj) (adj : Int → Int → List (Int × Int))
    (heur : (Int × Int) → (Int × Int) → Int) (tc : Int → Int → Int)
    (trav : Int → Int → Bool) (target : Int × Int) (fuel : Nat) (st st' : ObjSt)
    (htc : ∀ x y, 0 ≤ tc x y)
    (hrun : loopObj adj heur tc trav target fuel st = .ok st')
    (h : StOk origin st) : StOk origin st' := by
  induction fuel generalizing st with
  | zero => exact absurd hrun (by rw [loopObj]; simp)
  | succ fuel ih =>
    obtain ⟨hctr, hfr, hvis, hor, hnn⟩ := h
    cases hq : pollMin st.frontier with
    | none =>
      rw [loopObj_succ_none _ _ _ _ _ _ _ hq] at hrun
      cases hrun
      exact ⟨hctr, hfr, hvis, hor, hnn⟩
    | some r =>
      obtain ⟨⟨cur, pri⟩, rest⟩ := r
      have hrest : ∀ e ∈ rest, ObjOk origin e.1 := fun e he =>
        hfr e ((pollMin_perm hq).mem_iff.mpr (List.mem_cons_of_mem _ he))
      have hcur : ObjOk origin cur :=
        hfr (cur, pri) ((pollMin_perm hq).mem_iff.mpr (List.mem_cons_self _ _))
      rw [loopObj_succ_some _ _ _ _ _ _ _ hq] at hrun
      by_cases hbrk : cur.x = target.1 ∧ cur.y = target.2
      · rw [if_pos hbrk] at hrun
        cases hrun
        exact ⟨hctr, hrest, hvis, hor, hnn⟩
      · rw [if_neg hbrk] at hrun
        exact ih _ hrun
          (foldl_relax_ok origin tc heur trav target cur _ _ htc hcur
            ⟨hctr, hrest, hvis, hor, hnn⟩)


theorem traceGo_obj {α : Type} (isO : α → Bool) (idx : α → Int × Int)
    (paths : List ((Int × Int) × JsPtr α)) (fuel : Nat) (c : α)
    (acc : List α) :
    traceGo isO idx paths (fuel + 1) (.obj c) acc =
      if isO c then .ok acc.reverse
      else
        match mapGet paths (idx c) with
        | some v => traceGo isO idx paths fuel v (acc ++ [c])
        | none => traceGo isO idx paths fuel .missing (acc ++ [c]) := rfl

theorem traceGo_erase (origin : JsObj)
    (paths : List ((Int × Int) × JsPtr JsObj))
    (hp : ∀ e ∈ paths, PtrOk origin e.2) (fuel : Nat) :
    ∀ (start : JsPtr JsObj) (acc : List JsObj), PtrOk origin start →
    (traceGo (fun c => decide (c.oid = origin.oid)) (fun c => (c.x, c.y))
        paths fuel start acc).map (List.map eraseObj) =
    traceGo (fun c => decide (c = (origin.x, origin.y))) (fun c => c)
      (paths.map (fun e => (e.1, erasePtr e.2))) fuel (erasePtr start)
      (acc.map eraseObj) := by
  induction fuel with
  | zero =>
    intro start acc hs
    cases start <;> rfl
  | succ fuel ih =>
    intro start acc hs
    cases start with
    | null => rfl
    | missing => rfl
    | obj c =>
      have hiff : c.oid = origin.oid ↔ (c.x, c.y) = (origin.x, origin.y) := hs
      show (traceGo (fun c => decide (c.oid = origin.oid))
          (fun c => (c.x, c.y)) paths (fuel + 1) (.obj c) acc).map
            (List.map eraseObj) =
        traceGo (fun c => decide (c = (origin.x, origin.y))) (fun c => c)
          (paths.map (fun e => (e.1, erasePtr e.2))) (fuel + 1)
          (.obj (eraseObj c)) (acc.map eraseObj)
      have hiff2 : c.oid = origin.oid ↔ eraseObj c = (origin.x, origin.y) := by
        rw [eraseObj]
        exact hiff
      rw [traceGo_obj, traceGo_obj]
      by_cases hc : c.oid = origin.oid
      · rw [if_pos (by simpa using hc), if_pos (by simpa using hiff2.mp hc)]
        show Except.ok (acc.reverse.map eraseObj) =
          Except.ok ((acc.map eraseObj).reverse)
        rw [List.map_reverse]
      · rw [if_neg (by simpa using hc),
          if_neg (by
            simp only [decide_eq_true_eq]
            exact fun hv => hc (hiff2.mpr hv))]
        cases hg : mapGet paths (c.x, c.y) with
        | some v =>
          have hgv : mapGet (paths.map (fun e => (e.1, erasePtr e.2)))
              (eraseObj c) = some (erasePtr v) := by
            rw [eraseObj, mapGet_map, hg]
            rfl
          rw [hgv]
          have h := ih v (acc ++ [c]) (hp _ (mapGet_mem hg))
          simp only [List.map_append, List.map_cons, List.map_nil] at h
          exact h
        | none =>
          have hgv : mapGet (paths.map (fun e => (e.1, erasePtr e.2)))
              (eraseObj c) = none := by
            rw [eraseObj, mapGet_map, hg]
            rfl
          rw [hgv]
          have h := ih .missing (acc ++ [c]) trivial
          simp only [List.map_append, List.map_cons, List.map_nil] at h
          exact h

/-- The central bridge: for distinct origin and target objects with
distinct coordinate values and nonnegative traversal costs, the
object-level `search` result, erased to coordinate values, is exactly the
value-level search result — so it depends only on the coordinate values of
its inputs. -/
theorem search_bridge (adj : Int → Int → List (Int × Int))
    (heur : (Int × Int) → (Int × Int) → Int) (tc : Int → Int → Int)
    (trav : Int → Int → Bool) (origin target : JsObj) (fuel : Nat)
    (htc : ∀ x y, 0 ≤ tc x y)
    (hne : (origin.x, origin.y) ≠ (target.x, target.y))
    (hoid : origin.oid ≠ target.oid) :
    (searchObj adj heur tc trav origin target fuel).map (List.map eraseObj) =
    searchVal adj heur tc trav (origin.x, origin.y) (target.x, target.y)
      fuel := by
  rw [searchObj, searchVal]
  have hst0 : StOk origin
      ⟨[(origin, 0)], [((origin.x, origin.y), 0)],
       [((origin.x, origin.y), .null)], max origin.oid target.oid + 1⟩ := by
    refine ⟨(show origin.oid < max origin.oid target.oid + 1 from
      Nat.lt_succ_of_le (Nat.le_max_left _ _)), ?_, ?_, ?_, ?_⟩
    · intro e he
      rw [List.mem_singleton] at he
      subst he
      exact ⟨fun _ => rfl, fun _ => rfl⟩
    · intro e he
      rw [List.mem_singleton] at he
      subst he
      trivial
    · rw [mapGet, if_pos rfl]
    · intro e he
      rw [List.mem_singleton] at he
      subst he
      exact le_refl 0
  have hloop := loopObj_erase adj heur tc trav target.x target.y fuel
    ⟨[(origin, 0)], [((origin.x, origin.y), 0)],
     [((origin.x, origin.y), .null)], max origin.oid target.oid + 1⟩
  have herase : eraseSt ⟨[(origin, 0)], [((origin.x, origin.y), 0)],
      [((origin.x, origin.y), .null)], max origin.oid target.oid + 1⟩ =
      ⟨[((origin.x, origin.y), 0)], [((origin.x, origin.y), 0)],
       [((origin.x, origin.y), JsPtr.null)]⟩ := rfl
  rw [herase] at hloop
  cases hrun : loopObj adj heur tc trav (target.x, target.y) fuel
      ⟨[(origin, 0)], [((origin.x, origin.y), 0)],
       [((origin.x, origin.y), .null)], max origin.oid target.oid + 1⟩ with
  | error e =>
    rw [hrun] at hloop
    rw [← hloop]
    rfl
  | ok st' =>
    rw [hrun] at hloop
    rw [← hloop]
    have hok := loopObj_ok origin adj heur tc trav (target.x, target.y) fuel
      _ st' htc hrun hst0
    have htgt : PtrOk origin (.obj target) := by
      constructor
      · intro h
        exact absurd h.symm hoid
      · intro h
        exact absurd h.symm hne
    have h := traceGo_erase origin st'.visited hok.2.2.1 fuel (.obj target)
      [] htgt
    simp only [List.map_nil] at h
    exact h


/-! ## Stage embedding (src/src/stage.js) -/

/-- An entity object: the reference identity `oid` plus the mutable
coordinate fields (`e !== entity` in `filter` compares identities). -/
structure Ent where
  oid : Nat
  x : Int
  y : Int
deriving DecidableEq

/-- `Stage.moveEntityTo`: replace the bucket of the entity's current cell
by the same bucket with the entity filtered out, update the entity's
coordinate fields, then push it onto the destination bucket.  The
occupancy index `entitiesMap` is modelled as a function from `(y, x)` to
the bucket list; the result is the updated index together with the updated
entity. -/
def moveEntityTo (emap : Int → Int → List Ent) (e : Ent) (x y : Int) :
    (Int → Int → List Ent) × Ent :=
  let emap1 := fun yy xx =>
    if yy = e.y ∧ xx = e.x then
      (emap e.y e.x).filter (fun e2 => decide (e2.oid ≠ e.oid))
    else emap yy xx
  let e2 : Ent := ⟨e.oid, x, y⟩
  let emap2 := fun yy xx =>
    if yy = y ∧ xx = x then emap1 yy xx ++ [e2] else emap1 yy xx
  (emap2, e2)

/-- C7: if entity `e` occurs exactly once in the occupancy index — in the
bucket of its own coordinates — then after `moveEntityTo(e, x, y)` with a
destination distinct from the current cell: the old bucket holds no entity
with `e`'s identity, the destination bucket holds exactly one instance of
the moved entity, the entity's coordinate fields are `(x, y)`, and every
other cell's bucket is unchanged. -/
theorem moveEntityTo_atomic (emap : Int → Int → List Ent) (e : Ent)
    (x y : Int)
    (honce : ∀ yy xx, ∀ e2 ∈ emap yy xx, e2.oid = e.oid →
      e2 = e ∧ yy = e.y ∧ xx = e.x)
    (hne : ¬(y = e.y ∧ x = e.x)) :
    (∀ e2 ∈ (moveEntityTo emap e x y).1 e.y e.x, e2.oid ≠ e.oid) ∧
    ((moveEntityTo emap e x y).1 y x).count (moveEntityTo emap e x y).2 = 1 ∧
    (moveEntityTo emap e x y).2.x = x ∧ (moveEntityTo emap e x y).2.y = y ∧
    (∀ yy xx, ¬(yy = e.y ∧ xx = e.x) → ¬(yy = y ∧ xx = x) →
      (moveEntityTo emap e x y).1 yy xx = emap yy xx) := by
  rw [moveEntityTo]
  simp only
  refine ⟨?_, ?_, by trivial, by trivial, ?_⟩
  · intro e2 he2
    rw [if_neg (fun hcon => hne ⟨hcon.1.symm, hcon.2.symm⟩),
      if_pos ⟨by trivial, by trivial⟩] at he2
    have := List.of_mem_filter he2
    simpa using this
  · rw [if_pos ⟨by trivial, by trivial⟩, if_neg hne]
    rw [List.count_append]
    have hnotin : (⟨e.oid, x, y⟩ : Ent) ∉ emap y x := by
      intro hmem
      have h := honce y x _ hmem rfl
      exact hne ⟨h.2.1, h.2.2⟩
    rw [List.count_eq_zero.mpr hnotin]
    simp
  · intro yy xx h1 h2
    rw [if_neg h2, if_neg h1]

/-- Witness for C7 at a concrete instance: a single entity at `(0, 0)`
moved to `(1, 0)`. -/
theorem moveEntityTo_atomic_witness :
    (∀ yy xx, ∀ e2 ∈ (fun yy xx =>
        if yy = (0 : Int) ∧ xx = (0 : Int) then [(⟨1, 0, 0⟩ : Ent)] else [])
          yy xx,
      e2.oid = (⟨1, 0, 0⟩ : Ent).oid →
        e2 = (⟨1, 0, 0⟩ : Ent) ∧ yy = (⟨1, 0, 0⟩ : Ent).y ∧
          xx = (⟨1, 0, 0⟩ : Ent).x) ∧
    (∀ e2 ∈ (moveEntityTo (fun yy xx =>
        if yy = (0 : Int) ∧ xx = (0 : Int) then [(⟨1, 0, 0⟩ : Ent)] else [])
        ⟨1, 0, 0⟩ 1 0).1 (⟨1, 0, 0⟩ : Ent).y (⟨1, 0, 0⟩ : Ent).x,
      e2.oid ≠ (⟨1, 0, 0⟩ : Ent).oid) ∧
    ((moveEntityTo (fun yy xx =>
        if yy = (0 : Int) ∧ xx = (0 : Int) then [(⟨1, 0, 0⟩ : Ent)] else [])
        ⟨1, 0, 0⟩ 1 0).1 0 1).count
      (moveEntityTo (fun yy xx =>
        if yy = (0 : Int) ∧ xx = (0 : Int) then [(⟨1, 0, 0⟩ : Ent)] else [])
        ⟨1, 0, 0⟩ 1 0).2 = 1 := by
  have honce : ∀ yy xx, ∀ e2 ∈ (fun yy xx =>
      if yy = (0 : Int) ∧ xx = (0 : Int) then [(⟨1, 0, 0⟩ : Ent)] else [])
        yy xx,
      e2.oid = (⟨1, 0, 0⟩ : Ent).oid →
        e2 = (⟨1, 0, 0⟩ : Ent) ∧ yy = (⟨1, 0, 0⟩ : Ent).y ∧
          xx = (⟨1, 0, 0⟩ : Ent).x := by
    intro yy xx e2 he2 hoid
    simp only at he2
    by_cases hc : yy = (0 : Int) ∧ xx = (0 : Int)
    · rw [if_pos hc] at he2
      rw [List.mem_singleton] at he2
      exact ⟨he2, hc.1, hc.2⟩
    · rw [if_neg hc] at he2
      exact absurd he2 (List.not_mem_nil _)
  have h := moveEntityTo_atomic (fun yy xx =>
      if yy = (0 : Int) ∧ xx = (0 : Int) then [(⟨1, 0, 0⟩ : Ent)] else [])
    ⟨1, 0, 0⟩ 1 0 honce (by decide)
  exact ⟨honce, h.1, h.2.1⟩

/-- The visibility state of a `Stage`: map dimensions, the opacity
callback, the player position, and the JS `Set`s `visible` and `seen`
(insertion-ordered lists). -/
structure StageVis where
  width : Int
  height : Int
  isOp : Int → Int → Bool
  px : Int
  py : Int
  visible : List (Int × Int)
  seen : List (Int × Int)

/-- `Set.add`. -/
def setAdd (s : List (Int × Int)) (c : Int × Int) : List (Int × Int) :=
  if c ∈ s then s else s ++ [c]

/-- `Stage.revealTile`: insert the coordinate into both `visible` and
`seen`. -/
def revealTile (st : StageVis) (c : Int × Int) : StageVis :=
  ⟨st.width, st.height, st.isOp, st.px, st.py,
   setAdd st.visible c, setAdd st.seen c⟩

/-- `Stage.refreshVisibility`: clear `visible`, then run the FOV refresh
from the player position with radius 16, passing every revealed cell
through `revealTile`; the reveal-callback sequence is the `rev` log of the
FOV embedding. -/
def refreshVisibility (st : StageVis) : StageVis :=
  (refresh st.width st.height st.isOp st.px st.py 16).rev.foldl revealTile
    ⟨st.width, st.height, st.isOp, st.px, st.py, [], st.seen⟩

/-- A sequence of player moves, each followed by the `refreshVisibility`
call of the game loop. -/
def applyMoves (st : StageVis) : List (Int × Int) → StageVis
  | [] => st
  | p :: rest =>
      applyMoves
        (refreshVisibility
          ⟨st.width, st.height, st.isOp, p.1, p.2, st.visible, st.seen⟩) rest

theorem seen_subset_revealTile (st : StageVis) (c d : Int × Int)
    (h : c ∈ st.seen) : c ∈ (revealTile st d).seen := by
  rw [revealTile]
  simp only [setAdd]
  by_cases hc : d ∈ st.seen
  · rw [if_pos hc]
    exact h
  · rw [if_neg hc]
    exact List.mem_append_left _ h

theorem seen_subset_foldl (l : List (Int × Int)) (st : StageVis)
    (c : Int × Int) (h : c ∈ st.seen) : c ∈ (l.foldl revealTile st).seen := by
  induction l generalizing st with
  | nil => exact h
  | cons d rest ih =>
    rw [List.foldl_cons]
    exact ih _ (seen_subset_revealTile st c d h)

theorem seen_subset_refreshVisibility (st : StageVis) (c : Int × Int)
    (h : c ∈ st.seen) : c ∈ (refreshVisibility st).seen := by
  rw [refreshVisibility]
  exact seen_subset_foldl _ _ _ h

theorem applyMoves_append (st : StageVis) (moves : List (Int × Int))
    (p : Int × Int) :
    applyMoves st (moves ++ [p]) =
      (fun st' => refreshVisibility
        ⟨st'.width, st'.height, st'.isOp, p.1, p.2, st'.visible, st'.seen⟩)
        (applyMoves st moves) := by
  induction moves generalizing st with
  | nil => rfl
  | cons q rest ih =>
    rw [List.cons_append, applyMoves, applyMoves, ih]

theorem refreshVisibility_preserves_shape (st : StageVis) :
    (refreshVisibility st).width = st.width ∧
    (refreshVisibility st).height = st.height := by
  rw [refreshVisibility]
  generalize (refresh st.width st.height st.isOp st.px st.py 16).rev = l
  generalize hst : (⟨st.width, st.height, st.isOp, st.px, st.py, [], st.seen⟩ :
    StageVis) = st1
  have hw : st1.width = st.width ∧ st1.height = st.height := by
    rw [← hst]
    exact ⟨rfl, rfl⟩
  clear hst
  induction l generalizing st1 with
  | nil => exact hw
  | cons d rest ih =>
    rw [List.foldl_cons]
    exact ih _ ⟨hw.1, hw.2⟩

/-- C8: the `seen` set grows monotonically along every sequence of
refreshes: a coordinate in `seen` after some sequence of
move-and-refresh calls is still in `seen` after one more call —
`refreshVisibility` clears only `visible`, and `revealTile` only inserts
into `seen`. -/
theorem stage_seen_monotone (st : StageVis) (moves : List (Int × Int))
    (p : Int × Int) (c : Int × Int)
    (hc : c ∈ (applyMoves st moves).seen) :
    c ∈ (applyMoves st (moves ++ [p])).seen := by
  rw [applyMoves_append]
  exact seen_subset_refreshVisibility _ c hc

/-- Witness for C8 at a concrete instance: a 2×2 open stage that has
already seen `(9, 9)`, one further move. -/
theorem stage_seen_monotone_witness :
    (9, 9) ∈ (applyMoves ⟨2, 2, openGrid, 0, 0, [], [((9 : Int), (9 : Int))]⟩
      []).seen ∧
    (9, 9) ∈ (applyMoves ⟨2, 2, openGrid, 0, 0, [], [((9 : Int), (9 : Int))]⟩
      ([] ++ [(1, 1)])).seen :=
  ⟨by decide,
   stage_seen_monotone ⟨2, 2, openGrid, 0, 0, [], [(9, 9)]⟩ [] (1, 1) (9, 9)
     (by decide)⟩


set_option maxRecDepth 20000 in
/-- C5 (counterexample): on the 5×5 grid with a wall column at `x = 2`
for `y = 0..3`, the search from `(0, 2)` to `(4, 2)` with uniform cost 1
and plain Manhattan heuristic returns a path of length 8 — the detour
through `y = 4` costs four extra steps each way — and the exhaustive
breadth-first distance is also 8, so the path of length 6 required by the
claim does not exist and is not returned. -/
theorem astar_wall_detour_length_eight :
    ((searchObj (adjacentPoints 5 5) manhattan (fun _ _ => 1)
      (fun x y => decide (¬(x = 2 ∧ y ≤ 3))) ⟨0, 0, 2⟩ ⟨1, 4, 2⟩ 60).map
      (List.map eraseObj)).toOption =
      some [(1, 2), (1, 3), (1, 4), (2, 4), (3, 4), (4, 4), (4, 3), (4, 2)] ∧
    bfsDist 5 5 (fun x y => decide (¬(x = 2 ∧ y ≤ 3))) (0, 2) (4, 2) =
      some 8 ∧
    (8 : Nat) ≠ 6 :=
  ⟨by decide, by decide, by decide⟩

/-! ### Walks and the breadth-first characterisation -/

theorem walk_append (w h : Int) (trav : Int → Int → Bool) (a b c : Int × Int)
    (l₁ l₂ : List (Int × Int)) (h₁ : Walk w h trav a l₁ b)
    (h₂ : Walk w h trav b l₂ c) : Walk w h trav a (l₁ ++ l₂) c := by
  induction l₁ generalizing a with
  | nil =>
    rw [Walk] at h₁
    subst h₁
    exact h₂
  | cons q rest ih =>
    rw [Walk] at h₁
    rw [List.cons_append, Walk]
    exact ⟨h₁.1, ih q h₁.2⟩

theorem walk_split (w h : Int) (trav : Int → Int → Bool) (a b : Int × Int)
    (l₁ l₂ : List (Int × Int)) (hw : Walk w h trav a (l₁ ++ l₂) b) :
    ∃ c, Walk w h trav a l₁ c ∧ Walk w h trav c l₂ b := by
  induction l₁ generalizing a with
  | nil => exact ⟨a, rfl, hw⟩
  | cons q rest ih =>
    rw [List.cons_append, Walk] at hw
    obtain ⟨c, hc1, hc2⟩ := ih q hw.2
    exact ⟨c, ⟨hw.1, hc1⟩, hc2⟩

theorem mem_foldl_insertPt (l : List (Int × Int)) (acc : List (Int × Int))
    (p : Int × Int) :
    p ∈ l.foldl insertPt acc ↔ p ∈ acc ∨ p ∈ l := by
  induction l generalizing acc with
  | nil => simp
  | cons q rest ih =>
    rw [List.foldl_cons, ih]
    rw [insertPt]
    by_cases hq : q ∈ acc
    · rw [if_pos hq]
      constructor
      · rintro (hp | hp)
        · exact Or.inl hp
        · exact Or.inr (List.mem_cons_of_mem _ hp)
      · rintro (hp | hp)
        · exact Or.inl hp
        · rcases List.mem_cons.mp hp with rfl | hp
          · exact Or.inl hq
          · exact Or.inr hp
    · rw [if_neg hq]
      constructor
      · rintro (hp | hp)
        · rcases List.mem_append.mp hp with hp | hp
          · exact Or.inl hp
          · rw [List.mem_singleton] at hp
            exact Or.inr (hp ▸ List.mem_cons_self _ _)
        · exact Or.inr (List.mem_cons_of_mem _ hp)
      · rintro (hp | hp)
        · exact Or.inl (List.mem_append_left _ hp)
        · rcases List.mem_cons.mp hp with rfl | hp
          · exact Or.inl (List.mem_append_right _ (List.mem_singleton.mpr rfl))
          · exact Or.inr hp

theorem reachIn_succ_mem (w h : Int) (trav : Int → Int → Bool)
    (o p : Int × Int) (n : Nat) :
    p ∈ reachIn w h trav o (n + 1) ↔
      p ∈ reachIn w h trav o n ∨
      ∃ q ∈ reachIn w h trav o n, stepOk w h trav q p := by
  rw [reachIn]
  rw [mem_foldl_insertPt]
  constructor
  · rintro (hp | hp)
    · exact Or.inl hp
    · rw [List.mem_flatten] at hp
      obtain ⟨lq, hlq, hplq⟩ := hp
      rw [List.mem_map] at hlq
      obtain ⟨q, hq, rfl⟩ := hlq
      rw [List.mem_filter] at hplq
      exact Or.inr ⟨q, hq, hplq.1, hplq.2⟩
  · rintro (hp | ⟨q, hq, hstep⟩)
    · exact Or.inl hp
    · refine Or.inr ?_
      rw [List.mem_flatten]
      refine ⟨(adjacentPoints w h q.1 q.2).filter (fun r => trav r.1 r.2),
        ?_, ?_⟩
      · rw [List.mem_map]
        exact ⟨q, hq, rfl⟩
      · rw [List.mem_filter]
        exact ⟨hstep.1, hstep.2⟩

theorem reachIn_mono (w h : Int) (trav : Int → Int → Bool) (o p : Int × Int)
    (n : Nat) (hp : p ∈ reachIn w h trav o n) :
    p ∈ reachIn w h trav o (n + 1) :=
  (reachIn_succ_mem w h trav o p n).mpr (Or.inl hp)

theorem walk_mem_reachIn (w h : Int) (trav : Int → Int → Bool)
    (o : Int × Int) (l : List (Int × Int)) :
    ∀ (p : Int × Int) (n : Nat), Walk w h trav o l p → l.length ≤ n →
    p ∈ reachIn w h trav o n := by
  induction l using List.reverseRecOn with
  | nil =>
    intro p n hw hn
    rw [Walk] at hw
    subst hw
    clear hn
    induction n with
    | zero => rw [reachIn]; exact List.mem_singleton.mpr rfl
    | succ n ih => exact reachIn_mono _ _ _ _ _ _ ih
  | append_singleton l c ih =>
    intro p n hw hn
    obtain ⟨q, hq1, hq2⟩ := walk_split w h trav o p l [c] hw
    rw [Walk] at hq2
    obtain ⟨hstep, hcp⟩ := hq2
    rw [Walk] at hcp
    subst hcp
    rw [List.length_append, List.length_singleton] at hn
    cases n with
    | zero => omega
    | succ n =>
      exact (reachIn_succ_mem w h trav o c n).mpr
        (Or.inr ⟨q, ih q n hq1 (by omega), hstep⟩)

theorem mem_reachIn_walk (w h : Int) (trav : Int → Int → Bool)
    (o p : Int × Int) (n : Nat) (hp : p ∈ reachIn w h trav o n) :
    ∃ l, Walk w h trav o l p ∧ l.length ≤ n := by
  induction n generalizing p with
  | zero =>
    rw [reachIn, List.mem_singleton] at hp
    subst hp
    exact ⟨[], rfl, by simp⟩
  | succ n ih =>
    rcases (reachIn_succ_mem w h trav o p n).mp hp with hp | ⟨q, hq, hstep⟩
    · obtain ⟨l, hl, hlen⟩ := ih p hp
      exact ⟨l, hl, by omega⟩
    · obtain ⟨l, hl, hlen⟩ := ih q hq
      refine ⟨l ++ [p], walk_append w h trav o q p l [p] hl ⟨hstep, rfl⟩, ?_⟩
      rw [List.length_append, List.length_singleton]
      omega

theorem bfsDistGo_spec (w h : Int) (trav : Int → Int → Bool)
    (o t : Int × Int) (b n₀ m : Nat)
    (hrun : bfsDistGo w h trav o t b n₀ = some m) :
    t ∈ reachIn w h trav o m ∧ n₀ ≤ m ∧
      ∀ j, n₀ ≤ j → j < m → t ∉ reachIn w h trav o j := by
  induction b generalizing n₀ with
  | zero => exact absurd hrun (by rw [bfsDistGo]; simp)
  | succ b ih =>
    rw [bfsDistGo] at hrun
    by_cases hm : t ∈ reachIn w h trav o n₀
    · rw [if_pos hm] at hrun
      cases hrun
      exact ⟨hm, le_refl _, fun j h1 h2 => absurd h1 (by omega)⟩
    · rw [if_neg hm] at hrun
      obtain ⟨h1, h2, h3⟩ := ih (n₀ + 1) hrun
      refine ⟨h1, by omega, ?_⟩
      intro j hj1 hj2
      by_cases hj : j = n₀
      · subst hj
        exact hm
      · exact h3 j (by omega) hj2

/-- Consequences of `bfsDist = some m`: a shortest walk of length exactly
`m` exists, and every walk to the target has length at least `m`. -/
theorem bfsDist_spec (w h : Int) (trav : Int → Int → Bool) (o t : Int × Int)
    (m : Nat) (hbfs : bfsDist w h trav o t = some m) :
    (∃ l, Walk w h trav o l t ∧ l.length = m) ∧
    (∀ l, Walk w h trav o l t → m ≤ l.length) := by
  obtain ⟨h1, -, h3⟩ := bfsDistGo_spec w h trav o t _ 0 m hbfs
  have hmin : ∀ l, Walk w h trav o l t → m ≤ l.length := by
    intro l hl
    by_contra hcon
    exact h3 l.length (by omega) (by omega)
      (walk_mem_reachIn w h trav o l t l.length hl (le_refl _))
  obtain ⟨l, hl, hlen⟩ := mem_reachIn_walk w h trav o t m h1
  exact ⟨⟨l, hl, le_antisymm hlen (hmin l hl)⟩, hmin⟩

/-! ### Manhattan admissibility -/

theorem adjacent_dist (w h x y : Int) (q : Int × Int)
    (hq : q ∈ adjacentPoints w h x y) :
    (|x - q.1| + |y - q.2| = 1) ∧ 0 ≤ q.1 ∧ q.1 < w ∧ 0 ≤ q.2 ∧ q.2 < h := by
  rw [adjacentPoints, cardinal] at hq
  rw [List.mem_filter] at hq
  obtain ⟨hmem, hbnd⟩ := hq
  simp only [decide_eq_true_eq] at hbnd
  refine ⟨?_, hbnd.1, hbnd.2.1, hbnd.2.2.1, hbnd.2.2.2⟩
  simp only [List.map_cons, List.map_nil] at hmem
  rcases List.mem_cons.mp hmem with rfl | hmem
  · simp
  rcases List.mem_cons.mp hmem with rfl | hmem
  · simp
  rcases List.mem_cons.mp hmem with rfl | hmem
  · simp
  rcases List.mem_cons.mp hmem with rfl | hmem
  · simp
  exact absurd hmem (List.not_mem_nil _)

theorem manhattan_nonneg (t c : Int × Int) : 0 ≤ manhattan t c := by
  rw [manhattan]
  have := abs_nonneg (t.1 - c.1)
  have := abs_nonneg (t.2 - c.2)
  omega

theorem manhattan_le_walk (w h : Int) (trav : Int → Int → Bool)
    (v t : Int × Int) (l : List (Int × Int)) (hw : Walk w h trav v l t) :
    manhattan t v ≤ l.length := by
  induction l generalizing v with
  | nil =>
    rw [Walk] at hw
    subst hw
    rw [manhattan]
    simp
  | cons q rest ih =>
    rw [Walk] at hw
    obtain ⟨⟨hadj, -⟩, hwq⟩ := hw
    have hd := (adjacent_dist w h v.1 v.2 q hadj).1
    have hq := ih q hwq
    rw [manhattan] at hq ⊢
    have t1 : |t.1 - v.1| ≤ |t.1 - q.1| + |q.1 - v.1| := abs_sub_le _ _ _
    have t2 : |t.2 - v.2| ≤ |t.2 - q.2| + |q.2 - v.2| := abs_sub_le _ _ _
    have s1 : |q.1 - v.1| = |v.1 - q.1| := abs_sub_comm _ _
    have s2 : |q.2 - v.2| = |v.2 - q.2| := abs_sub_comm _ _
    rw [List.length_cons]
    push_cast
    omega


/-! ### Association-list support lemmas for the A* development -/

theorem mapGet_of_mem_nodup {α : Type} {l : List ((Int × Int) × α)}
    {e : (Int × Int) × α} (he : e ∈ l) (hnd : (l.map Prod.fst).Nodup) :
    mapGet l e.1 = some e.2 := by
  induction l with
  | nil => exact absurd he (List.not_mem_nil _)
  | cons e' rest ih =>
    rw [List.map_cons, List.nodup_cons] at hnd
    obtain ⟨k', v'⟩ := e'
    rw [mapGet]
    by_cases hk : k' = e.1
    · rcases List.mem_cons.mp he with heq | he2
      · rw [if_pos hk, heq]
      · refine absurd ?_ hnd.1
        rw [hk]
        exact List.mem_map.mpr ⟨e, he2, rfl⟩
    · rw [if_neg hk]
      rcases List.mem_cons.mp he with heq | he2
      · exact absurd (congrArg Prod.fst heq).symm hk
      · exact ih he2 hnd.2

theorem mem_mapSet_of_ne {α : Type} {l : List ((Int × Int) × α)}
    {e : (Int × Int) × α} {k : Int × Int} {v : α} (he : e ∈ l)
    (hne : e.1 ≠ k) : e ∈ mapSet l k v := by
  induction l with
  | nil => exact absurd he (List.not_mem_nil _)
  | cons e' rest ih =>
    obtain ⟨k', v'⟩ := e'
    rw [mapSet]
    by_cases hk : k' = k
    · rw [if_pos hk]
      rcases List.mem_cons.mp he with rfl | he
      · exact absurd hk hne
      · exact List.mem_cons_of_mem _ he
    · rw [if_neg hk]
      rcases List.mem_cons.mp he with rfl | he
      · exact List.mem_cons_self _ _
      · exact List.mem_cons_of_mem _ (ih he)

theorem mapSet_map_fst_present {α : Type} (l : List ((Int × Int) × α))
    (k : Int × Int) (v : α) (hk : mapGet l k ≠ none) :
    (mapSet l k v).map Prod.fst = l.map Prod.fst := by
  induction l with
  | nil => exact absurd rfl hk
  | cons e rest ih =>
    obtain ⟨k', v'⟩ := e
    rw [mapGet] at hk
    rw [mapSet]
    by_cases hkk : k' = k
    · rw [if_pos hkk, List.map_cons, List.map_cons, hkk]
    · rw [if_neg hkk, List.map_cons, List.map_cons, ih (by rw [if_neg hkk] at hk; exact hk)]

theorem mapSet_map_fst_absent {α : Type} (l : List ((Int × Int) × α))
    (k : Int × Int) (v : α) (hk : mapGet l k = none) :
    (mapSet l k v).map Prod.fst = l.map Prod.fst ++ [k] := by
  induction l with
  | nil => rw [mapSet]; rfl
  | cons e rest ih =>
    obtain ⟨k', v'⟩ := e
    rw [mapGet] at hk
    by_cases hkk : k' = k
    · rw [if_pos hkk] at hk
      cases hk
    · rw [if_neg hkk] at hk
      rw [mapSet, if_neg hkk, List.map_cons, List.map_cons, ih hk,
        List.cons_append]

theorem mapSet_nodup {α : Type} (l : List ((Int × Int) × α)) (k : Int × Int)
    (v : α) (hnd : (l.map Prod.fst).Nodup) :
    ((mapSet l k v).map Prod.fst).Nodup := by
  cases hk : mapGet l k with
  | some old =>
    rw [mapSet_map_fst_present l k v (by rw [hk]; exact fun hcon => by cases hcon)]
    exact hnd
  | none =>
    rw [mapSet_map_fst_absent l k v hk]
    rw [List.nodup_append]
    refine ⟨hnd, List.nodup_singleton _, ?_⟩
    intro a ha hb
    rw [List.mem_singleton] at hb
    subst hb
    rw [List.mem_map] at ha
    obtain ⟨e, he, hek⟩ := ha
    rw [← hek] at hk
    rw [mapGet_of_mem_nodup he hnd] at hk
    cases hk

theorem mapSet_length_present {α : Type} (l : List ((Int × Int) × α))
    (k : Int × Int) (v : α) (hk : mapGet l k ≠ none) :
    (mapSet l k v).length = l.length := by
  have := mapSet_map_fst_present l k v hk
  have h1 := congrArg List.length this
  rw [List.length_map, List.length_map] at h1
  exact h1

theorem mapSet_length_absent {α : Type} (l : List ((Int × Int) × α))
    (k : Int × Int) (v : α) (hk : mapGet l k = none) :
    (mapSet l k v).length = l.length + 1 := by
  have := mapSet_map_fst_absent l k v hk
  have h1 := congrArg List.length this
  rw [List.length_map, List.length_append, List.length_map,
    List.length_singleton] at h1
  exact h1

/-- Total of the (clamped) cost values, for the termination measure. -/
def costsSum (l : List ((Int × Int) × Int)) : Nat :=
  (l.map (fun e => e.2.toNat)).sum

theorem costsSum_mapSet_present (l : List ((Int × Int) × Int))
    (k : Int × Int) (v old : Int) (hk : mapGet l k = some old) :
    costsSum (mapSet l k v) + old.toNat = costsSum l + v.toNat := by
  induction l with
  | nil => rw [mapGet] at hk; cases hk
  | cons e rest ih =>
    obtain ⟨k', v'⟩ := e
    rw [mapGet] at hk
    rw [mapSet]
    by_cases hkk : k' = k
    · rw [if_pos hkk] at hk
      cases hk
      rw [if_pos hkk]
      rw [costsSum, costsSum, List.map_cons, List.map_cons, List.sum_cons,
        List.sum_cons]
      omega
    · rw [if_neg hkk] at hk
      rw [if_neg hkk]
      rw [costsSum, costsSum, List.map_cons, List.map_cons, List.sum_cons,
        List.sum_cons]
      have := ih hk
      rw [costsSum, costsSum] at this
      omega

theorem costsSum_mapSet_absent (l : List ((Int × Int) × Int))
    (k : Int × Int) (v : Int) (hk : mapGet l k = none) :
    costsSum (mapSet l k v) = costsSum l + v.toNat := by
  induction l with
  | nil =>
    rw [mapSet, costsSum, costsSum]
    simp
  | cons e rest ih =>
    obtain ⟨k', v'⟩ := e
    rw [mapGet] at hk
    by_cases hkk : k' = k
    · rw [if_pos hkk] at hk
      cases hk
    · rw [if_neg hkk] at hk
      rw [mapSet, if_neg hkk]
      rw [costsSum, costsSum, List.map_cons, List.map_cons, List.sum_cons,
        List.sum_cons]
      have := ih hk
      rw [costsSum, costsSum] at this
      omega

theorem adjacent_ne (w h x y : Int) (q : Int × Int)
    (hq : q ∈ adjacentPoints w h x y) : q ≠ (x, y) := by
  intro hcon
  have hd := (adjacent_dist w h x y q hq).1
  rw [hcon] at hd
  simp at hd

/-- Pigeonhole bound: a duplicate-free association list whose keys are
either the origin or in-bounds cells has at most `w·h + 1` entries. -/
theorem keylist_length_le (w h : Int) (o : Int × Int)
    (l : List ((Int × Int) × Int)) (hnd : (l.map Prod.fst).Nodup)
    (hkeys : ∀ e ∈ l, e.1 = o ∨
      (0 ≤ e.1.1 ∧ e.1.1 < w ∧ 0 ≤ e.1.2 ∧ e.1.2 < h)) :
    l.length ≤ w.toNat * h.toNat + 1 := by
  classical
  have hcard : (l.map Prod.fst).toFinset.card = l.length := by
    rw [List.toFinset_card_of_nodup hnd, List.length_map]
  have hsub : (l.map Prod.fst).toFinset ⊆
      insert o (Finset.Icc 0 (w - 1) ×ˢ Finset.Icc 0 (h - 1)) := by
    intro a ha
    rw [List.mem_toFinset, List.mem_map] at ha
    obtain ⟨e, he, hek⟩ := ha
    subst hek
    rcases hkeys e he with hk | hk
    · rw [hk]
      exact Finset.mem_insert_self _ _
    · refine Finset.mem_insert_of_mem ?_
      rw [Finset.mem_product, Finset.mem_Icc, Finset.mem_Icc]
      omega
  have hle := Finset.card_le_card hsub
  have hins := Finset.card_insert_le o
    (Finset.Icc 0 (w - 1) ×ˢ Finset.Icc (0 : Int) (h - 1))
  rw [Finset.card_product, Int.card_Icc, Int.card_Icc] at hins
  have hw : (w - 1 + 1 - 0).toNat = w.toNat := by omega
  have hh : (h - 1 + 1 - 0).toNat = h.toNat := by omega
  rw [hw, hh] at hins
  omega

/-- The termination measure of the A* loop. -/
def astarMeasure (w h : Int) (st : ValSt) : Nat :=
  (2 * (w.toNat * h.toNat + 1) + 2) *
      (w.toNat * h.toNat + 1 - st.costs.length) +
    2 * costsSum st.costs + st.frontier.length

/-- Fuel sufficient for the A* loop and path walk-back on a `w × h`
grid. -/
def bigFuel (w h : Int) : Nat :=
  2 * (w.toNat * h.toNat + 1) * (w.toNat * h.toNat + 1) +
    2 * (w.toNat * h.toNat + 1) + 1

/-! ### The A* loop invariant -/

/-- Core invariant of the value-level A* state (ghost list `P`: the
(cell, cost-at-pop) pairs already expanded). -/
structure InvC (w h : Int) (trav : Int → Int → Bool) (o t : Int × Int)
    (st : ValSt) (P : List ((Int × Int) × Int)) : Prop where
  walks : ∀ e ∈ st.costs, ∃ l, Walk w h trav o l e.1 ∧ (l.length : Int) = e.2
  front : ∀ e ∈ st.frontier, ∃ c, mapGet st.costs e.1 = some c ∧ c ≤ e.2
  origin0 : mapGet st.costs o = some 0
  entry : ∀ e ∈ st.costs,
    (e.1, e.2 + manhattan t e.1) ∈ st.frontier ∨ (e.1, e.2) ∈ P ∨
      (e.1 = o ∧ e.2 = 0 ∧ (o, 0) ∈ st.frontier)
  nodup : (st.costs.map Prod.fst).Nodup
  keys : ∀ e ∈ st.costs, e.1 = o ∨
    (0 ≤ e.1.1 ∧ e.1.1 < w ∧ 0 ≤ e.1.2 ∧ e.1.2 < h)
  bound : ∀ e ∈ st.costs, e.2.toNat + 1 ≤ st.costs.length
  visNull : mapGet st.visited o = some .null
  visPred : ∀ k ptr, mapGet st.visited k = some ptr → k ≠ o →
    ∃ p ck cp, ptr = .obj p ∧ mapGet st.costs k = some ck ∧
      mapGet st.costs p = some cp ∧ cp + 1 ≤ ck ∧ stepOk w h trav p k
  visKeys : ∀ e ∈ st.costs, ∃ ptr, mapGet st.visited e.1 = some ptr

/-- Every already-expanded cell is not the target and has all its
traversable neighbours priced at most one above its cost at expansion. -/
def PoppedOk (w h : Int) (trav : Int → Int → Bool) (t : Int × Int)
    (costs : List ((Int × Int) × Int)) (P : List ((Int × Int) × Int)) :
    Prop :=
  ∀ q ∈ P, q.1 ≠ t ∧
    ∀ r ∈ adjacentPoints w h q.1.1 q.1.2, trav r.1 r.2 = true →
      ∃ cr, mapGet costs r = some cr ∧ cr ≤ q.2 + 1

theorem costs_nonneg (w h : Int) (trav : Int → Int → Bool) (o t : Int × Int)
    (st : ValSt) (P : List ((Int × Int) × Int))
    (hI : InvC w h trav o t st P) : ∀ e ∈ st.costs, 0 ≤ e.2 := by
  intro e he
  obtain ⟨l, -, hlen⟩ := hI.walks e he
  rw [← hlen]
  positivity

theorem poppedOk_mono (w h : Int) (trav : Int → Int → Bool) (t : Int × Int)
    (costs costs' : List ((Int × Int) × Int)) (P : List ((Int × Int) × Int))
    (hdec : ∀ k c, mapGet costs k = some c →
      ∃ c', mapGet costs' k = some c' ∧ c' ≤ c)
    (hP : PoppedOk w h trav t costs P) : PoppedOk w h trav t costs' P := by
  intro q hq
  obtain ⟨hqt, hqn⟩ := hP q hq
  refine ⟨hqt, ?_⟩
  intro r hr htr
  obtain ⟨cr, hcr, hle⟩ := hqn r hr htr
  obtain ⟨cr', hcr', hle'⟩ := hdec r cr hcr
  exact ⟨cr', hcr', by omega⟩


/-! ### One relaxation step -/

/-- The relaxation step of the A* instance fixed by claim C5 (uniform
cost 1, plain Manhattan heuristic). -/
def relaxA (trav : Int → Int → Bool) (t cur : Int × Int) (st : ValSt)
    (cand : Int × Int) : ValSt :=
  relaxVal (fun _ _ => 1) manhattan trav t cur st cand

theorem relaxA_skip (trav : Int → Int → Bool) (t cur : Int × Int)
    (st : ValSt) (cand : Int × Int) (h : trav cand.1 cand.2 = false) :
    relaxA trav t cur st cand = st := by
  rw [relaxA, relaxVal, if_neg (by rw [h]; exact Bool.false_ne_true)]

theorem relaxA_stay (trav : Int → Int → Bool) (t cur : Int × Int)
    (st : ValSt) (cand : Int × Int) (ccur old : Int)
    (htr : trav cand.1 cand.2 = true)
    (hccur : mapGet st.costs cur = some ccur)
    (hold : mapGet st.costs cand = some old) (hge : ¬(ccur + 1 < old)) :
    relaxA trav t cur st cand = st := by
  rw [relaxA, relaxVal, if_pos htr]
  simp only [hccur, hold, Option.getD_some]
  rw [if_neg (by simpa using hge)]

theorem relaxA_improve (trav : Int → Int → Bool) (t cur : Int × Int)
    (st : ValSt) (cand : Int × Int) (ccur : Int)
    (htr : trav cand.1 cand.2 = true)
    (hccur : mapGet st.costs cur = some ccur)
    (himp : mapGet st.costs cand = none ∨
      ∃ old, mapGet st.costs cand = some old ∧ ccur + 1 < old) :
    relaxA trav t cur st cand =
      ⟨st.frontier ++ [(cand, ccur + 1 + manhattan t cand)],
       mapSet st.costs cand (ccur + 1),
       mapSet st.visited cand (.obj cur)⟩ := by
  rw [relaxA, relaxVal, if_pos htr]
  simp only [hccur, Option.getD_some]
  rcases himp with hnone | ⟨old, hold, hlt⟩
  · rw [hnone]
    simp only [if_pos]
  · rw [hold]
    rw [if_pos (by simpa using hlt)]

set_option maxHeartbeats 1600000 in
/-- Everything one relaxation step preserves: the core invariant, the
expanding cell's cost, per-key cost decrease, frontier growth, the bound
on the candidate's final cost, and the termination measure. -/
theorem relax_preserve (w h : Int) (trav : Int → Int → Bool)
    (o t : Int × Int) (st : ValSt) (P : List ((Int × Int) × Int))
    (cur : Int × Int) (ccur : Int) (cand : Int × Int)
    (hI : InvC w h trav o t st P)
    (hccur : mapGet st.costs cur = some ccur)
    (hcand : cand ∈ adjacentPoints w h cur.1 cur.2) :
    InvC w h trav o t (relaxA trav t cur st cand) P ∧
    mapGet (relaxA trav t cur st cand).costs cur = some ccur ∧
    (∀ k c, mapGet st.costs k = some c →
      ∃ c', mapGet (relaxA trav t cur st cand).costs k = some c' ∧ c' ≤ c) ∧
    (∀ e ∈ st.frontier, e ∈ (relaxA trav t cur st cand).frontier) ∧
    (trav cand.1 cand.2 = true →
      ∃ cc, mapGet (relaxA trav t cur st cand).costs cand = some cc ∧
        cc ≤ ccur + 1) ∧
    astarMeasure w h (relaxA trav t cur st cand) ≤ astarMeasure w h st := by
  have hnn : 0 ≤ ccur :=
    costs_nonneg w h trav o t st P hI _ (mapGet_mem hccur)
  cases htr : trav cand.1 cand.2 with
  | false =>
    rw [relaxA_skip trav t cur st cand htr]
    exact ⟨hI, hccur, fun k c hk => ⟨c, hk, le_refl _⟩, fun e he => he,
      fun hcon => absurd hcon (by decide), le_refl _⟩
  | true =>
    by_cases himp : mapGet st.costs cand = none ∨
        ∃ old, mapGet st.costs cand = some old ∧ ccur + 1 < old
    · -- the improving branch
      rw [relaxA_improve trav t cur st cand ccur htr hccur himp]
      have hne_cur : cand ≠ cur := by
        have := adjacent_ne w h cur.1 cur.2 cand hcand
        simpa using this
      have hne_o : cand ≠ o := by
        intro hco
        rcases himp with hnone | ⟨old, hold, hlt⟩
        · rw [hco, hI.origin0] at hnone
          cases hnone
        · rw [hco, hI.origin0] at hold
          cases hold
          omega
      have hbnd_cur : ccur.toNat + 1 ≤ st.costs.length :=
        hI.bound _ (mapGet_mem hccur)
      have hstep : stepOk w h trav cur cand := ⟨hcand, htr⟩
      have hget_cand : mapGet (mapSet st.costs cand (ccur + 1)) cand =
          some (ccur + 1) := mapGet_mapSet_self _ _ _
      have hdec : ∀ k c, mapGet st.costs k = some c →
          ∃ c', mapGet (mapSet st.costs cand (ccur + 1)) k = some c' ∧
            c' ≤ c := by
        intro k c hk
        by_cases hkc : k = cand
        · subst hkc
          rcases himp with hnone | ⟨old, hold, hlt⟩
          · rw [hk] at hnone
            cases hnone
          · rw [hk] at hold
            cases hold
            exact ⟨ccur + 1, hget_cand, by omega⟩
        · exact ⟨c, by rw [mapGet_mapSet_ne _ _ _ _ hkc]; exact hk,
            le_refl _⟩
      refine ⟨?_, ?_, hdec, ?_, ?_, ?_⟩
      · refine ⟨?_, ?_, ?_, ?_, ?_, ?_, ?_, ?_, ?_, ?_⟩
        · -- walks
          intro e he
          rcases mem_mapSet he with he | he
          · exact hI.walks e he
          · subst he
            obtain ⟨l, hl, hlen⟩ := hI.walks _ (mapGet_mem hccur)
            refine ⟨l ++ [cand],
              walk_append w h trav o cur cand l [cand] hl ⟨hstep, rfl⟩, ?_⟩
            rw [List.length_append, List.length_singleton]
            push_cast
            omega
        · -- front
          intro e he
          rcases List.mem_append.mp he with he | he
          · obtain ⟨c, hc, hle⟩ := hI.front e he
            obtain ⟨c', hc', hle'⟩ := hdec e.1 c hc
            exact ⟨c', hc', by omega⟩
          · rw [List.mem_singleton] at he
            subst he
            refine ⟨ccur + 1, hget_cand, ?_⟩
            have := manhattan_nonneg t cand
            simp only
            omega
        · -- origin0
          rw [mapGet_mapSet_ne _ _ _ _ (fun hco => hne_o hco.symm)]
          exact hI.origin0
        · -- entry
          intro e he
          rcases mem_mapSet he with he | he
          · rcases hI.entry e he with hf | hp | ho
            · exact Or.inl (List.mem_append_left _ hf)
            · exact Or.inr (Or.inl hp)
            · exact Or.inr (Or.inr
                ⟨ho.1, ho.2.1, List.mem_append_left _ ho.2.2⟩)
          · subst he
            exact Or.inl (List.mem_append_right _ (List.mem_singleton.mpr rfl))
        · -- nodup
          exact mapSet_nodup _ _ _ hI.nodup
        · -- keys
          intro e he
          rcases mem_mapSet he with he | he
          · exact hI.keys e he
          · subst he
            have := (adjacent_dist w h cur.1 cur.2 cand hcand).2
            exact Or.inr (by simpa using this)
        · -- bound
          intro e he
          rcases himp with hnone | ⟨old, hold, hlt⟩
          · rw [mapSet_length_absent _ _ _ hnone]
            rcases mem_mapSet he with he | he
            · have := hI.bound e he
              omega
            · subst he
              simp only
              omega
          · rw [mapSet_length_present _ _ _ (by rw [hold]; simp)]
            rcases mem_mapSet he with he | he
            · exact hI.bound e he
            · subst he
              have hb := hI.bound _ (mapGet_mem hold)
              simp only
              omega
        · -- visNull
          rw [mapGet_mapSet_ne _ _ _ _ (fun hco => hne_o hco.symm)]
          exact hI.visNull
        · -- visPred
          intro k ptr hptr hko
          by_cases hkc : k = cand
          · subst hkc
            rw [mapGet_mapSet_self] at hptr
            cases hptr
            refine ⟨cur, ccur + 1, ccur, rfl, hget_cand, ?_, by omega, hstep⟩
            rw [mapGet_mapSet_ne _ _ _ _ (fun hco => hne_cur hco.symm)]
            exact hccur
          · rw [mapGet_mapSet_ne _ _ _ _ hkc] at hptr
            obtain ⟨p, ck, cp, hptr', hck, hcp, hle, hstep'⟩ :=
              hI.visPred k ptr hptr hko
            obtain ⟨cp', hcp', hlep⟩ := hdec p cp hcp
            refine ⟨p, ck, cp', hptr', ?_, hcp', by omega, hstep'⟩
            rw [mapGet_mapSet_ne _ _ _ _ hkc]
            exact hck
        · -- visKeys
          intro e he
          by_cases hkc : e.1 = cand
          · exact ⟨.obj cur, by rw [hkc, mapGet_mapSet_self]⟩
          · rcases mem_mapSet he with he | he
            · obtain ⟨ptr, hptr⟩ := hI.visKeys e he
              exact ⟨ptr, by rw [mapGet_mapSet_ne _ _ _ _ hkc]; exact hptr⟩
            · exact absurd (congrArg Prod.fst he) hkc
      · -- cur cost unchanged
        simp only
        rw [mapGet_mapSet_ne _ _ _ _ (fun hco => hne_cur hco.symm)]
        exact hccur
      · -- frontier mono
        intro e he
        exact List.mem_append_left _ he
      · -- candidate cost bound
        intro hcon
        exact ⟨ccur + 1, hget_cand, le_refl _⟩
      · -- measure
        rw [astarMeasure, astarMeasure]
        simp only
        rcases himp with hnone | ⟨old, hold, hlt⟩
        · rw [mapSet_length_absent _ _ _ hnone,
            costsSum_mapSet_absent _ _ _ hnone,
            List.length_append, List.length_singleton]
          have hlen : st.costs.length + 1 ≤ w.toNat * h.toNat + 1 := by
            have := keylist_length_le w h o (mapSet st.costs cand (ccur + 1))
              (mapSet_nodup _ _ _ hI.nodup) ?_
            · rw [mapSet_length_absent _ _ _ hnone] at this
              exact this
            · intro e he
              rcases mem_mapSet he with he | he
              · exact hI.keys e he
              · subst he
                have := (adjacent_dist w h cur.1 cur.2 cand hcand).2
                exact Or.inr (by simpa using this)
          have hcc : (ccur + 1).toNat ≤ st.costs.length + 1 := by omega
          have hsplit : w.toNat * h.toNat + 1 - st.costs.length =
              (w.toNat * h.toNat + 1 - (st.costs.length + 1)) + 1 := by
            omega
          have hA : ∀ X : Nat,
              (2 * (w.toNat * h.toNat + 1) + 2) * (X + 1) =
              (2 * (w.toNat * h.toNat + 1) + 2) * X +
                (2 * (w.toNat * h.toNat + 1) + 2) := by
            intro X
            ring
          rw [hsplit, hA]
          omega
        · have hsome : mapGet st.costs cand ≠ none := by
            rw [hold]
            simp
          rw [mapSet_length_present _ _ _ hsome,
            List.length_append, List.length_singleton]
          have hsum := costsSum_mapSet_present st.costs cand (ccur + 1) old
            hold
          have hold_nn : 0 ≤ old := by omega
          have htn : (ccur + 1).toNat < old.toNat := by omega
          omega
    · -- no improvement: state unchanged
      push_neg at himp
      obtain ⟨hnn2, hall⟩ := himp
      cases hget : mapGet st.costs cand with
      | none => exact absurd hget hnn2
      | some old =>
        have hge : ¬(ccur + 1 < old) := by
          have := hall old hget
          omega
        rw [relaxA_stay trav t cur st cand ccur old htr hccur hget hge]
        exact ⟨hI, hccur, fun k c hk => ⟨c, hk, le_refl _⟩, fun e he => he,
          fun _ => ⟨old, hget, by omega⟩, le_refl _⟩


theorem fold_relax_preserve (w h : Int) (trav : Int → Int → Bool)
    (o t : Int × Int) (cur : Int × Int) (ccur : Int)
    (cands : List (Int × Int)) :
    ∀ (st : ValSt) (P : List ((Int × Int) × Int)),
    InvC w h trav o t st P →
    mapGet st.costs cur = some ccur →
    (∀ c ∈ cands, c ∈ adjacentPoints w h cur.1 cur.2) →
    InvC w h trav o t (cands.foldl (relaxA trav t cur) st) P ∧
    mapGet (cands.foldl (relaxA trav t cur) st).costs cur = some ccur ∧
    (∀ k c, mapGet st.costs k = some c →
      ∃ c', mapGet (cands.foldl (relaxA trav t cur) st).costs k = some c' ∧
        c' ≤ c) ∧
    (∀ e ∈ st.frontier, e ∈ (cands.foldl (relaxA trav t cur) st).frontier) ∧
    (∀ c ∈ cands, trav c.1 c.2 = true →
      ∃ cc, mapGet (cands.foldl (relaxA trav t cur) st).costs c = some cc ∧
        cc ≤ ccur + 1) ∧
    astarMeasure w h (cands.foldl (relaxA trav t cur) st) ≤
      astarMeasure w h st := by
  induction cands with
  | nil =>
    intro st P hI hccur hsub
    exact ⟨hI, hccur, fun k c hk => ⟨c, hk, le_refl _⟩, fun e he => he,
      fun c hc => absurd hc (List.not_mem_nil _), le_refl _⟩
  | cons c0 rest ih =>
    intro st P hI hccur hsub
    obtain ⟨hI1, hc1, hdec1, hfr1, hpost1, hmu1⟩ :=
      relax_preserve w h trav o t st P cur ccur c0 hI hccur
        (hsub c0 (List.mem_cons_self _ _))
    obtain ⟨hI2, hc2, hdec2, hfr2, hpost2, hmu2⟩ :=
      ih (relaxA trav t cur st c0) P hI1 hc1
        (fun c hc => hsub c (List.mem_cons_of_mem _ hc))
    rw [List.foldl_cons]
    refine ⟨hI2, hc2, ?_, ?_, ?_, le_trans hmu2 hmu1⟩
    · intro k c hk
      obtain ⟨c', hc', hle'⟩ := hdec1 k c hk
      obtain ⟨c'', hc'', hle''⟩ := hdec2 k c' hc'
      exact ⟨c'', hc'', by omega⟩
    · intro e he
      exact hfr2 e (hfr1 e he)
    · intro c hc htr
      rcases List.mem_cons.mp hc with rfl | hc
      · obtain ⟨cc, hcc, hle⟩ := hpost1 htr
        obtain ⟨cc', hcc', hle'⟩ := hdec2 c cc hcc
        exact ⟨cc', hcc', by omega⟩
      · exact hpost2 c hc htr

theorem pop_step (w h : Int) (trav : Int → Int → Bool) (o t : Int × Int)
    (st : ValSt) (P : List ((Int × Int) × Int)) (cur : Int × Int) (pri : Int)
    (rest : List ((Int × Int) × Int))
    (hI : InvC w h trav o t st P)
    (hP : PoppedOk w h trav t st.costs P)
    (hq : pollMin st.frontier = some ((cur, pri), rest))
    (hnt : cur ≠ t) :
    ∃ ccur, mapGet st.costs cur = some ccur ∧ ccur ≤ pri ∧
      InvC w h trav o t
        ((adjacentPoints w h cur.1 cur.2).foldl (relaxA trav t cur)
          ⟨rest, st.costs, st.visited⟩) (P ++ [(cur, ccur)]) ∧
      PoppedOk w h trav t
        ((adjacentPoints w h cur.1 cur.2).foldl (relaxA trav t cur)
          ⟨rest, st.costs, st.visited⟩).costs (P ++ [(cur, ccur)]) ∧
      astarMeasure w h
        ((adjacentPoints w h cur.1 cur.2).foldl (relaxA trav t cur)
          ⟨rest, st.costs, st.visited⟩) < astarMeasure w h st := by
  have hperm := pollMin_perm hq
  obtain ⟨ccur, hc, hle⟩ := hI.front (cur, pri)
    (hperm.mem_iff.mpr (List.mem_cons_self _ _))
  have hI1 : InvC w h trav o t ⟨rest, st.costs, st.visited⟩
      (P ++ [(cur, ccur)]) := by
    refine ⟨hI.walks, ?_, hI.origin0, ?_, hI.nodup, hI.keys, hI.bound,
      hI.visNull, hI.visPred, hI.visKeys⟩
    · intro e he
      exact hI.front e (hperm.mem_iff.mpr (List.mem_cons_of_mem _ he))
    · intro e he
      rcases hI.entry e he with hf | hp | ho
      · rcases List.mem_cons.mp (hperm.mem_iff.mp hf) with heq | hf
        · have hek : e.1 = cur := congrArg (fun q => q.1) heq
          have hev : e.2 = ccur := by
            have h1 := mapGet_of_mem_nodup he hI.nodup
            rw [hek, hc] at h1
            cases h1
            rfl
          refine Or.inr (Or.inl ?_)
          rw [hek, hev]
          exact List.mem_append_right _ (List.mem_singleton.mpr rfl)
        · exact Or.inl hf
      · exact Or.inr (Or.inl (List.mem_append_left _ hp))
      · rcases List.mem_cons.mp (hperm.mem_iff.mp ho.2.2) with heq | hf
        · have hco : cur = o := (congrArg (fun q => q.1) heq).symm
          have hev : e.2 = ccur := by
            have h1 := mapGet_of_mem_nodup he hI.nodup
            rw [ho.1, ← hco, hc] at h1
            cases h1
            rfl
          refine Or.inr (Or.inl ?_)
          rw [ho.1, hev, ← hco]
          exact List.mem_append_right _ (List.mem_singleton.mpr rfl)
        · exact Or.inr (Or.inr ⟨ho.1, ho.2.1, hf⟩)
  obtain ⟨hI2, hc2, hdec2, hfr2, hpost2, hmu2⟩ :=
    fold_relax_preserve w h trav o t cur ccur
      (adjacentPoints w h cur.1 cur.2) ⟨rest, st.costs, st.visited⟩
      (P ++ [(cur, ccur)]) hI1 hc (fun c hc => hc)
  refine ⟨ccur, hc, hle, hI2, ?_, ?_⟩
  · intro q hqm
    rcases List.mem_append.mp hqm with hqm | hqm
    · exact poppedOk_mono w h trav t st.costs _ P hdec2 hP q hqm
    · rw [List.mem_singleton] at hqm
      subst hqm
      exact ⟨hnt, fun r hr htr => hpost2 r hr htr⟩
  · have hlen : st.frontier.length = rest.length + 1 := hperm.length_eq
    have hmu1 : astarMeasure w h (⟨rest, st.costs, st.visited⟩ : ValSt) + 1 =
        astarMeasure w h st := by
      rw [astarMeasure, astarMeasure]
      simp only
      omega
    omega


/-- The ladder: walking back a shortest path, some frontier entry has
priority at most `m`, the shortest distance to the target. -/
theorem ladder (w h : Int) (trav : Int → Int → Bool) (o t : Int × Int)
    (st : ValSt) (P : List ((Int × Int) × Int)) (m : Nat)
    (hI : InvC w h trav o t st P)
    (hP : PoppedOk w h trav t st.costs P)
    (hmin : ∀ l', Walk w h trav o l' t → m ≤ l'.length) :
    ∀ (l : List (Int × Int)) (v : Int × Int) (c : Int),
      Walk w h trav v l t → mapGet st.costs v = some c →
      c + (l.length : Int) = (m : Int) →
      ∃ e ∈ st.frontier, e.2 ≤ (m : Int) := by
  intro l
  induction l with
  | nil =>
    intro v c hw hv hc
    rw [Walk] at hw
    rcases hI.entry (v, c) (mapGet_mem hv) with hf | hp | ho
    · refine ⟨(v, c + manhattan t v), hf, ?_⟩
      have hz : manhattan t v = 0 := by
        rw [hw, manhattan]
        simp
      have hc' : c = (m : Int) := by
        rw [List.length_nil] at hc
        push_cast at hc
        omega
      simp only
      rw [hz, hc']
      omega
    · exact absurd hw (hP (v, c) hp).1
    · refine ⟨(o, 0), ho.2.2, ?_⟩
      simp only
      positivity
  | cons q rest ih =>
    intro v c hw hv hc
    rw [Walk] at hw
    obtain ⟨hstep, hwq⟩ := hw
    rcases hI.entry (v, c) (mapGet_mem hv) with hf | hp | ho
    · refine ⟨(v, c + manhattan t v), hf, ?_⟩
      have hman := manhattan_le_walk w h trav v t (q :: rest) ⟨hstep, hwq⟩
      rw [List.length_cons] at hman hc
      simp only
      push_cast at hman hc ⊢
      omega
    · obtain ⟨-, hqn⟩ := hP (v, c) hp
      obtain ⟨cq, hcq, hcqle⟩ := hqn q hstep.1 hstep.2
      obtain ⟨lq, hlq, hlqlen⟩ := hI.walks (q, cq) (mapGet_mem hcq)
      have hlow : (m : Int) ≤ cq + (rest.length : Int) := by
        have hm := hmin (lq ++ rest)
          (walk_append w h trav o q t lq rest hlq hwq)
        rw [List.length_append] at hm
        simp only at hlqlen
        omega
      rw [List.length_cons] at hc
      push_cast at hc
      have hcq1 : cq = c + 1 := by
        simp only at hcqle
        omega
      exact ih q cq hwq hcq (by rw [hcq1]; omega)
    · refine ⟨(o, 0), ho.2.2, ?_⟩
      simp only
      positivity

set_option maxHeartbeats 800000 in
/-- Running the A* loop from an invariant state with enough fuel: it
terminates by popping the target, whose recorded cost is exactly the
shortest distance, and the final state supports the walk-back. -/
theorem loopA_post (w h : Int) (trav : Int → Int → Bool) (o t : Int × Int)
    (m : Nat)
    (hmin : ∀ l, Walk w h trav o l t → m ≤ l.length)
    (hex : ∃ l, Walk w h trav o l t ∧ l.length = m) :
    ∀ (fuel : Nat) (st : ValSt) (P : List ((Int × Int) × Int)),
    InvC w h trav o t st P → PoppedOk w h trav t st.costs P →
    astarMeasure w h st < fuel →
    ∃ st', loopVal (adjacentPoints w h) manhattan (fun _ _ => 1) trav t fuel
        st = .ok st' ∧
      mapGet st'.costs t = some (m : Int) ∧
      mapGet st'.visited o = some .null ∧
      (∀ k ptr, mapGet st'.visited k = some ptr → k ≠ o →
        ∃ p ck cp, ptr = .obj p ∧ mapGet st'.costs k = some ck ∧
          mapGet st'.costs p = some cp ∧ cp + 1 ≤ ck ∧ stepOk w h trav p k) ∧
      (∀ e ∈ st'.costs, e.2.toNat + 1 ≤ st'.costs.length) ∧
      st'.costs.length ≤ w.toNat * h.toNat + 1 ∧
      (∀ e ∈ st'.costs, 0 ≤ e.2) ∧
      (∀ e ∈ st'.costs, ∃ ptr, mapGet st'.visited e.1 = some ptr) := by
  intro fuel
  induction fuel with
  | zero =>
    intro st P hI hP hmu
    omega
  | succ fuel ih =>
    intro st P hI hP hmu
    cases hq : pollMin st.frontier with
    | none =>
      obtain ⟨l, hl, hlen⟩ := hex
      obtain ⟨e, hef, -⟩ := ladder w h trav o t st P m hI hP hmin l o 0 hl
        hI.origin0 (by rw [hlen]; simp)
      rw [pollMin_none.mp hq] at hef
      exact absurd hef (List.not_mem_nil _)
    | some r =>
      obtain ⟨⟨cur, pri⟩, rest⟩ := r
      by_cases hbrk : cur = t
      · rw [loopVal_succ_some _ _ _ _ _ _ _ hq, if_pos hbrk]
        refine ⟨⟨rest, st.costs, st.visited⟩, rfl, ?_, hI.visNull,
          hI.visPred, hI.bound,
          keylist_length_le w h o st.costs hI.nodup hI.keys,
          costs_nonneg w h trav o t st P hI, hI.visKeys⟩
        obtain ⟨c, hc, hcle⟩ := hI.front (cur, pri)
          ((pollMin_perm hq).mem_iff.mpr (List.mem_cons_self _ _))
        rw [hbrk] at hc
        obtain ⟨l, hl, hlen⟩ := hI.walks (t, c) (mapGet_mem hc)
        have hge : (m : Int) ≤ c := by
          have := hmin l hl
          simp only at hlen
          omega
        obtain ⟨e, hef, hele⟩ := ladder w h trav o t st P m hI hP hmin
          (Classical.choose hex) o 0 (Classical.choose_spec hex).1
          hI.origin0 (by rw [(Classical.choose_spec hex).2]; simp)
        have hple := pollMin_le hq e hef
        have hc_eq : c = (m : Int) := by
          simp only at hcle
          omega
        rw [← hc_eq]
        exact hc
      · obtain ⟨ccur, hc, hcle, hI2, hP2, hmu2⟩ :=
          pop_step w h trav o t st P cur pri rest hI hP hq hbrk
        rw [loopVal_succ_some _ _ _ _ _ _ _ hq,
          if_neg (by simpa using hbrk)]
        have hfold : (adjacentPoints w h cur.1 cur.2).foldl
            (relaxVal (fun _ _ => 1) manhattan trav t cur)
            ⟨rest, st.costs, st.visited⟩ =
            (adjacentPoints w h cur.1 cur.2).foldl (relaxA trav t cur)
            ⟨rest, st.costs, st.visited⟩ := rfl
        rw [hfold]
        exact ih _ (P ++ [(cur, ccur)]) hI2 hP2 (by omega)


theorem traceGo_obj_done {α : Type} (isO : α → Bool) (idx : α → Int × Int)
    (paths : List ((Int × Int) × JsPtr α)) (fuel : Nat) (c : α)
    (acc : List α) (hyes : isO c = true) :
    traceGo isO idx paths (fuel + 1) (.obj c) acc = .ok acc.reverse := by
  rw [traceGo_obj, if_pos hyes]

theorem traceGo_obj_step {α : Type} (isO : α → Bool) (idx : α → Int × Int)
    (paths : List ((Int × Int) × JsPtr α)) (fuel : Nat) (c : α)
    (acc : List α) (v : JsPtr α) (hno : isO c = false)
    (hget : mapGet paths (idx c) = some v) :
    traceGo isO idx paths (fuel + 1) (.obj c) acc =
      traceGo isO idx paths fuel v (acc ++ [c]) := by
  rw [traceGo_obj, hget, if_neg (by rw [hno]; exact Bool.false_ne_true)]

/-- Walking the `visited` chain back from a cell of cost `ck` reaches the
origin in at most `ck` steps, yielding the recorded path. -/
theorem trace_extract (w h : Int) (trav : Int → Int → Bool)
    (o : Int × Int) (costs : List ((Int × Int) × Int))
    (visited : List ((Int × Int) × JsPtr (Int × Int)))
    (hvisPred : ∀ k ptr, mapGet visited k = some ptr → k ≠ o →
      ∃ p ck cp, ptr = .obj p ∧ mapGet costs k = some ck ∧
        mapGet costs p = some cp ∧ cp + 1 ≤ ck ∧ stepOk w h trav p k)
    (hnn : ∀ e ∈ costs, 0 ≤ e.2)
    (hvk : ∀ e ∈ costs, ∃ ptr, mapGet visited e.1 = some ptr) :
    ∀ (n : Nat) (k : Int × Int) (ck : Int) (fuel : Nat)
      (acc : List (Int × Int)),
    mapGet costs k = some ck → ck.toNat ≤ n → k ≠ o → ck.toNat < fuel →
    ∃ l, traceGo (fun c => decide (c = o)) (fun c => c) visited fuel
        (.obj k) acc = .ok ((acc ++ l).reverse) ∧
      Walk w h trav o l.reverse k ∧ 1 ≤ l.length ∧ (l.length : Int) ≤ ck := by
  intro n
  induction n with
  | zero =>
    intro k ck fuel acc hck hckn hko hfuel
    obtain ⟨ptr, hptr⟩ := hvk (k, ck) (mapGet_mem hck)
    obtain ⟨p, ck', cp, -, hck', hcp, hle, -⟩ := hvisPred k ptr
      (by simpa using hptr) hko
    rw [hck] at hck'
    cases hck'
    have h0 := hnn (p, cp) (mapGet_mem hcp)
    simp only at h0
    omega
  | succ n ih =>
    intro k ck fuel acc hck hckn hko hfuel
    obtain ⟨ptr, hptr⟩ := hvk (k, ck) (mapGet_mem hck)
    simp only at hptr
    obtain ⟨p, ck', cp, hobj, hck', hcp, hle, hstep⟩ :=
      hvisPred k ptr hptr hko
    rw [hck] at hck'
    cases hck'
    subst hobj
    have hcp0 := hnn (p, cp) (mapGet_mem hcp)
    simp only at hcp0
    cases fuel with
    | zero => omega
    | succ f =>
      rw [traceGo_obj_step _ _ _ _ _ _ _ (by simpa using hko) hptr]
      by_cases hpo : p = o
      · refine ⟨[k], ?_, ?_, by simp, by simp; omega⟩
        · cases f with
          | zero => omega
          | succ f' =>
            rw [traceGo_obj_done _ _ _ _ _ _ (by rw [hpo]; simp)]
        · show Walk w h trav o [k] k
          rw [Walk]
          exact ⟨hpo ▸ hstep, rfl⟩
      · obtain ⟨l', heq, hwalk, hlen1, hlenle⟩ :=
          ih p cp f (acc ++ [k]) hcp (by omega) hpo (by omega)
        refine ⟨k :: l', ?_, ?_, by simp, ?_⟩
        · rw [heq]
          congr 1
          rw [List.append_assoc]
          rfl
        · rw [List.reverse_cons]
          exact walk_append w h trav o p k l'.reverse [k] hwalk ⟨hstep, rfl⟩
        · rw [List.length_cons]
          push_cast
          omega

/-- The initial search state satisfies the invariant with an empty ghost
list, within the fuel bound. -/
theorem init_state_inv (w h : Int) (trav : Int → Int → Bool)
    (o t : Int × Int) :
    InvC w h trav o t ⟨[(o, 0)], [(o, 0)], [(o, .null)]⟩ [] ∧
    PoppedOk w h trav t
      (⟨[(o, 0)], [(o, 0)], [(o, .null)]⟩ : ValSt).costs [] ∧
    astarMeasure w h ⟨[(o, 0)], [(o, 0)], [(o, .null)]⟩ < bigFuel w h := by
  have hI0 : InvC w h trav o t ⟨[(o, 0)], [(o, 0)], [(o, .null)]⟩ [] := by
    refine ⟨?_, ?_, ?_, ?_, ?_, ?_, ?_, ?_, ?_, ?_⟩
    · intro e he
      rw [List.mem_singleton] at he
      subst he
      exact ⟨[], rfl, rfl⟩
    · intro e he
      rw [List.mem_singleton] at he
      subst he
      exact ⟨0, by rw [mapGet, if_pos rfl], le_refl _⟩
    · rw [mapGet, if_pos rfl]
    · intro e he
      rw [List.mem_singleton] at he
      subst he
      exact Or.inr (Or.inr ⟨rfl, rfl, List.mem_singleton.mpr rfl⟩)
    · simp
    · intro e he
      rw [List.mem_singleton] at he
      subst he
      exact Or.inl rfl
    · intro e he
      rw [List.mem_singleton] at he
      subst he
      simp
    · rw [mapGet, if_pos rfl]
    · intro k ptr hptr hko
      rw [mapGet] at hptr
      by_cases hk : o = k
      · exact absurd hk.symm hko
      · rw [if_neg hk, mapGet] at hptr
        cases hptr
    · intro e he
      rw [List.mem_singleton] at he
      subst he
      exact ⟨.null, by rw [mapGet, if_pos rfl]⟩
  have hP0 : PoppedOk w h trav t
      (⟨[(o, 0)], [(o, 0)], [(o, .null)]⟩ : ValSt).costs [] := by
    intro q hq
    exact absurd hq (List.not_mem_nil _)
  have hmu0 : astarMeasure w h ⟨[(o, 0)], [(o, 0)], [(o, .null)]⟩ <
      bigFuel w h := by
    rw [astarMeasure, bigFuel]
    simp only [List.length_singleton]
    rw [costsSum]
    simp only [List.map_cons, List.map_nil, List.sum_cons, List.sum_nil]
    have hsplit : (2 * (w.toNat * h.toNat + 1) + 2) *
        (w.toNat * h.toNat + 1 - 1) + (2 * (w.toNat * h.toNat + 1) + 2) =
        (2 * (w.toNat * h.toNat + 1) + 2) * (w.toNat * h.toNat + 1) := by
      have h1 : w.toNat * h.toNat + 1 - 1 + 1 = w.toNat * h.toNat + 1 := by
        omega
      calc (2 * (w.toNat * h.toNat + 1) + 2) * (w.toNat * h.toNat + 1 - 1) +
            (2 * (w.toNat * h.toNat + 1) + 2) =
          (2 * (w.toNat * h.toNat + 1) + 2) *
            ((w.toNat * h.toNat + 1 - 1) + 1) := by ring
        _ = _ := by rw [h1]
    have hY : (2 * (w.toNat * h.toNat + 1) + 2) * (w.toNat * h.toNat + 1) =
        2 * (w.toNat * h.toNat + 1) * (w.toNat * h.toNat + 1) +
          2 * (w.toNat * h.toNat + 1) := by ring
    omega
  exact ⟨hI0, hP0, hmu0⟩

set_option maxHeartbeats 800000 in
/-- The value-level pathfinder on the grid instance of claim C5 returns a
path of exactly the breadth-first shortest length. -/
theorem searchVal_shortest (w h : Int) (trav : Int → Int → Bool)
    (o t : Int × Int) (m : Nat) (hne : o ≠ t)
    (hbfs : bfsDist w h trav o t = some m) :
    ∃ path, searchVal (adjacentPoints w h) manhattan (fun _ _ => 1) trav o t
      (bigFuel w h) = .ok path ∧ path.length = m := by
  obtain ⟨hex, hmin⟩ := bfsDist_spec w h trav o t m hbfs
  obtain ⟨hI0, hP0, hmu0⟩ := init_state_inv w h trav o t
  obtain ⟨st', hrun, hct, hvnull, hvpred, hbound, hlenN, hnn, hvk⟩ :=
    loopA_post w h trav o t m hmin hex (bigFuel w h)
      ⟨[(o, 0)], [(o, 0)], [(o, .null)]⟩ [] hI0 hP0 hmu0
  have hmN : m < bigFuel w h := by
    have hb := hbound (t, (m : Int)) (mapGet_mem hct)
    rw [bigFuel]
    simp only [Int.toNat_natCast] at hb
    omega
  obtain ⟨l, heq, hwalk, hlen1, hlenle⟩ :=
    trace_extract w h trav o st'.costs st'.visited hvpred hnn hvk m t
      (m : Int) (bigFuel w h) [] hct (by simp) (fun hcon => hne hcon.symm)
      (by simpa using hmN)
  refine ⟨l.reverse, ?_, ?_⟩
  · rw [searchVal]
    rw [hrun]
    show traceGo (fun c => decide (c = o)) (fun c => c) st'.visited
      (bigFuel w h) (.obj t) [] = .ok l.reverse
    rw [heq]
    simp
  · have hge := hmin l.reverse hwalk
    rw [List.length_reverse] at hge ⊢
    omega


/-- C5 (amended): with uniform traversal cost 1 and the plain Manhattan
heuristic, for origin and target objects with distinct coordinate values
(and distinct identities, as distinct objects have) whose target is
reachable, `search` returns a path whose length equals the true
shortest-path distance computed by exhaustive breadth-first search.  (For
equal-valued origin/target pairs the search crashes instead — see the
counterexample — and on the 5×5 wall-column instance the common length is
8, not the 6 required by the claim.) -/
theorem astar_returns_shortest (w h : Int) (trav : Int → Int → Bool)
    (origin target : JsObj) (m : Nat)
    (hoid : origin.oid ≠ target.oid)
    (hne : (origin.x, origin.y) ≠ (target.x, target.y))
    (hbfs : bfsDist w h trav (origin.x, origin.y) (target.x, target.y) =
      some m) :
    ∃ p, searchObj (adjacentPoints w h) manhattan (fun _ _ => 1) trav
      origin target (bigFuel w h) = .ok p ∧ p.length = m := by
  have hbr := search_bridge (adjacentPoints w h) manhattan (fun _ _ => 1)
    trav origin target (bigFuel w h) (fun _ _ => zero_le_one) hne hoid
  obtain ⟨path, hrun, hlen⟩ := searchVal_shortest w h trav
    (origin.x, origin.y) (target.x, target.y) m hne hbfs
  rw [hrun] at hbr
  cases hres : searchObj (adjacentPoints w h) manhattan (fun _ _ => 1) trav
      origin target (bigFuel w h) with
  | error e =>
    rw [hres] at hbr
    simp only [Except.map] at hbr
    cases hbr
  | ok p =>
    rw [hres] at hbr
    refine ⟨p, rfl, ?_⟩
    simp only [Except.map] at hbr
    have hmap : p.map eraseObj = path := Except.ok.inj hbr
    have hl := congrArg List.length hmap
    rw [List.length_map] at hl
    omega

set_option maxRecDepth 40000 in
/-- Witness for C5 at the 5×5 wall-column instance of the claim: the
search from `(0, 2)` to `(4, 2)` returns a path of length 8, the
breadth-first shortest distance. -/
theorem astar_returns_shortest_witness :
    ((⟨0, 0, 2⟩ : JsObj).oid ≠ (⟨1, 4, 2⟩ : JsObj).oid) ∧
    bfsDist 5 5 (fun x y => decide (¬(x = 2 ∧ y ≤ 3))) (0, 2) (4, 2) =
      some 8 ∧
    ∃ p, searchObj (adjacentPoints 5 5) manhattan (fun _ _ => 1)
      (fun x y => decide (¬(x = 2 ∧ y ≤ 3))) ⟨0, 0, 2⟩ ⟨1, 4, 2⟩
      (bigFuel 5 5) = .ok p ∧ p.length = 8 :=
  ⟨by decide, by decide,
   astar_returns_shortest 5 5 (fun x y => decide (¬(x = 2 ∧ y ≤ 3)))
     ⟨0, 0, 2⟩ ⟨1, 4, 2⟩ 8 (by decide) (by decide) (by decide)⟩

/-! ### Unreachable targets (claim C2) -/

theorem bfsDistGo_none (w h : Int) (trav : Int → Int → Bool)
    (o t : Int × Int) :
    ∀ (b n₀ : Nat), bfsDistGo w h trav o t b n₀ = none →
    ∀ j, n₀ ≤ j → j < n₀ + b → t ∉ reachIn w h trav o j := by
  intro b
  induction b with
  | zero =>
    intro n₀ hrun j hj1 hj2
    omega
  | succ b ih =>
    intro n₀ hrun j hj1 hj2
    rw [bfsDistGo] at hrun
    by_cases hm : t ∈ reachIn w h trav o n₀
    · rw [if_pos hm] at hrun
      cases hrun
    · rw [if_neg hm] at hrun
      by_cases hj : j = n₀
      · subst hj
        exact hm
      · exact ih (n₀ + 1) hrun j (by omega) (by omega)

/-- Running the A* loop from an invariant state with enough fuel always
terminates in `.ok`, and the final costs and `visited` maps keep the
invariant facts the walk-back needs (no reachability assumption). -/
theorem loopB_post (w h : Int) (trav : Int → Int → Bool) (o t : Int × Int) :
    ∀ (fuel : Nat) (st : ValSt) (P : List ((Int × Int) × Int)),
    InvC w h trav o t st P → PoppedOk w h trav t st.costs P →
    astarMeasure w h st < fuel →
    ∃ st', loopVal (adjacentPoints w h) manhattan (fun _ _ => 1) trav t fuel
        st = .ok st' ∧
      (∀ e ∈ st'.costs, ∃ l, Walk w h trav o l e.1 ∧
        (l.length : Int) = e.2) ∧
      (∀ e ∈ st'.costs, e.2.toNat + 1 ≤ st'.costs.length) ∧
      st'.costs.length ≤ w.toNat * h.toNat + 1 ∧
      mapGet st'.visited o = some .null ∧
      (∀ k ptr, mapGet st'.visited k = some ptr → k ≠ o →
        ∃ p ck cp, ptr = .obj p ∧ mapGet st'.costs k = some ck ∧
          mapGet st'.costs p = some cp ∧ cp + 1 ≤ ck ∧
          stepOk w h trav p k) := by
  intro fuel
  induction fuel with
  | zero =>
    intro st P hI hP hmu
    omega
  | succ fuel ih =>
    intro st P hI hP hmu
    cases hq : pollMin st.frontier with
    | none =>
      rw [loopVal_succ_none _ _ _ _ _ _ _ hq]
      exact ⟨st, rfl, hI.walks, hI.bound,
        keylist_length_le w h o st.costs hI.nodup hI.keys, hI.visNull,
        hI.visPred⟩
    | some r =>
      obtain ⟨⟨cur, pri⟩, rest⟩ := r
      by_cases hbrk : cur = t
      · rw [loopVal_succ_some _ _ _ _ _ _ _ hq, if_pos hbrk]
        exact ⟨⟨rest, st.costs, st.visited⟩, rfl, hI.walks, hI.bound,
          keylist_length_le w h o st.costs hI.nodup hI.keys, hI.visNull,
          hI.visPred⟩
      · obtain ⟨ccur, hc, hcle, hI2, hP2, hmu2⟩ :=
          pop_step w h trav o t st P cur pri rest hI hP hq hbrk
        rw [loopVal_succ_some _ _ _ _ _ _ _ hq,
          if_neg (by simpa using hbrk)]
        have hfold : (adjacentPoints w h cur.1 cur.2).foldl
            (relaxVal (fun _ _ => 1) manhattan trav t cur)
            ⟨rest, st.costs, st.visited⟩ =
            (adjacentPoints w h cur.1 cur.2).foldl (relaxA trav t cur)
            ⟨rest, st.costs, st.visited⟩ := rfl
        rw [hfold]
        exact ih _ (P ++ [(cur, ccur)]) hI2 hP2 (by omega)

theorem traceGo_obj_stuck {α : Type} (isO : α → Bool) (idx : α → Int × Int)
    (paths : List ((Int × Int) × JsPtr α)) (fuel : Nat) (c : α)
    (acc : List α) (hno : isO c = false)
    (hget : mapGet paths (idx c) = none) :
    traceGo isO idx paths (fuel + 2) (.obj c) acc = .error .typeError := by
  rw [traceGo_obj, hget, if_neg (by rw [hno]; exact Bool.false_ne_true)]
  rfl

/-- The value-level search on an unreachable target raises `TypeError`:
the frontier empties without the target ever entering the maps, and
`tracePath` steps from the target to `undefined`. -/
theorem searchVal_unreachable (w h : Int) (trav : Int → Int → Bool)
    (o t : Int × Int) (hne : o ≠ t)
    (hbfs : bfsDist w h trav o t = none) :
    searchVal (adjacentPoints w h) manhattan (fun _ _ => 1) trav o t
      (bigFuel w h) = .error .typeError := by
  obtain ⟨hI0, hP0, hmu0⟩ := init_state_inv w h trav o t
  obtain ⟨st', hrun, hwalks, hbound, hlenN, hvnull, hvpred⟩ :=
    loopB_post w h trav o t (bigFuel w h)
      ⟨[(o, 0)], [(o, 0)], [(o, .null)]⟩ [] hI0 hP0 hmu0
  have hvt : mapGet st'.visited t = none := by
    cases hg : mapGet st'.visited t with
    | none => rfl
    | some ptr =>
      obtain ⟨p, ck, cp, -, hck, -, -, -⟩ := hvpred t ptr hg
        (fun hcon => hne hcon.symm)
      obtain ⟨l, hl, hlen⟩ := hwalks (t, ck) (mapGet_mem hck)
      have hb := hbound (t, ck) (mapGet_mem hck)
      have hreach : t ∈ reachIn w h trav o (w.toNat * h.toNat) := by
        refine walk_mem_reachIn w h trav o l t (w.toNat * h.toNat) hl ?_
        simp only at hlen hb
        omega
      rw [bfsDist] at hbfs
      exact absurd hreach
        (bfsDistGo_none w h trav o t (w.toNat * h.toNat + 1) 0 hbfs
          (w.toNat * h.toNat) (by omega) (by omega))
  rw [searchVal]
  rw [hrun]
  show traceGo (fun c => decide (c = o)) (fun c => c) st'.visited
    (bigFuel w h) (.obj t) [] = .error .typeError
  obtain ⟨f, hf⟩ : ∃ f, bigFuel w h = f + 2 := by
    refine ⟨bigFuel w h - 2, ?_⟩
    rw [bigFuel]
    omega
  rw [hf]
  exact traceGo_obj_stuck _ _ _ f t []
    (by rw [decide_eq_false_iff_not]; exact fun hcon => hne hcon.symm) hvt

/-- C2 (amended): for every grid and every pair of distinct origin and
target objects with distinct coordinates whose target is unreachable
(exhaustive breadth-first search finds no route), `search` raises
`TypeError` instead of returning a defined empty result: the frontier
empties without visiting the target, `tracePath` obtains `undefined` from
`paths.get`, and `index(undefined)` reads `.x`. -/
theorem search_unreachable_raises (w h : Int) (trav : Int → Int → Bool)
    (origin target : JsObj)
    (hoid : origin.oid ≠ target.oid)
    (hne : (origin.x, origin.y) ≠ (target.x, target.y))
    (hbfs : bfsDist w h trav (origin.x, origin.y) (target.x, target.y) =
      none) :
    searchObj (adjacentPoints w h) manhattan (fun _ _ => 1) trav origin
      target (bigFuel w h) = .error .typeError := by
  have hbr := search_bridge (adjacentPoints w h) manhattan (fun _ _ => 1)
    trav origin target (bigFuel w h) (fun _ _ => zero_le_one) hne hoid
  rw [searchVal_unreachable w h trav _ _ hne hbfs] at hbr
  cases hres : searchObj (adjacentPoints w h) manhattan (fun _ _ => 1) trav
      origin target (bigFuel w h) with
  | error e =>
    rw [hres] at hbr
    simp only [Except.map] at hbr
    rw [Except.error.inj hbr]
  | ok p =>
    rw [hres] at hbr
    simp only [Except.map] at hbr
    cases hbr

/-- Witness for the amended C2 at the concrete instance of the
counterexample: the 3×1 strip with a blocked middle cell. -/
theorem search_unreachable_raises_witness :
    ((⟨0, 0, 0⟩ : JsObj).oid ≠ (⟨1, 2, 0⟩ : JsObj).oid) ∧
    bfsDist 3 1 (fun x _ => decide (x ≠ 1)) (0, 0) (2, 0) = none ∧
    searchObj (adjacentPoints 3 1) manhattan (fun _ _ => 1)
      (fun x _ => decide (x ≠ 1)) ⟨0, 0, 0⟩ ⟨1, 2, 0⟩ (bigFuel 3 1) =
      .error .typeError :=
  ⟨by decide, by decide,
   search_unreachable_raises 3 1 (fun x _ => decide (x ≠ 1))
     ⟨0, 0, 0⟩ ⟨1, 2, 0⟩ (by decide) (by decide) (by decide)⟩

/-! ### Identity relabeling (claim C9): the search result depends only on
coordinate values, for arbitrary costs and heuristics -/

/-- Relabel the object identities of one run of `search` into those of
another: the origin's identity becomes the second origin's, the target's
the second target's, and fresh identities are shifted from one fresh
range to the other.  Coordinate values are untouched. -/
def relabel (o₁ t₁ o₂ t₂ : JsObj) (c : JsObj) : JsObj :=
  ⟨if c.oid = o₁.oid then o₂.oid
    else if c.oid = t₁.oid then t₂.oid
    else c.oid - (max o₁.oid t₁.oid + 1) + (max o₂.oid t₂.oid + 1),
   c.x, c.y⟩

/-- `relabel` lifted to pointer-like values. -/
def relabelPtr (o₁ t₁ o₂ t₂ : JsObj) : JsPtr JsObj → JsPtr JsObj
  | .obj c => .obj (relabel o₁ t₁ o₂ t₂ c)
  | .null => .null
  | .missing => .missing

/-- `relabel` lifted to search states. -/
def relabelSt (o₁ t₁ o₂ t₂ : JsObj) (st : ObjSt) : ObjSt :=
  ⟨st.frontier.map (fun e => (relabel o₁ t₁ o₂ t₂ e.1, e.2)), st.costs,
   st.visited.map (fun e => (e.1, relabelPtr o₁ t₁ o₂ t₂ e.2)),
   st.ctr - (max o₁.oid t₁.oid + 1) + (max o₂.oid t₂.oid + 1)⟩

theorem relabel_oid_iff (o₁ t₁ o₂ t₂ c : JsObj) (h2 : o₂.oid ≠ t₂.oid) :
    ((relabel o₁ t₁ o₂ t₂ c).oid = o₂.oid) ↔ (c.oid = o₁.oid) := by
  rw [relabel]
  simp only
  by_cases ho : c.oid = o₁.oid
  · rw [if_pos ho]
    simp [ho]
  · rw [if_neg ho]
    by_cases ht : c.oid = t₁.oid
    · rw [if_pos ht]
      constructor
      · intro hh
        exact absurd hh.symm h2
      · intro hh
        exact absurd hh ho
    · rw [if_neg ht]
      constructor
      · intro hh
        omega
      · intro hh
        exact absurd hh ho

theorem relabel_fresh (o₁ t₁ o₂ t₂ : JsObj) (n : Nat) (x y : Int)
    (hn : max o₁.oid t₁.oid + 1 ≤ n) :
    relabel o₁ t₁ o₂ t₂ ⟨n, x, y⟩ =
      ⟨n - (max o₁.oid t₁.oid + 1) + (max o₂.oid t₂.oid + 1), x, y⟩ := by
  rw [relabel]
  simp only
  rw [if_neg (by omega), if_neg (by omega)]

theorem relaxObj_ctr_le (tc : Int → Int → Int)
    (heur : (Int × Int) → (Int × Int) → Int) (trav : Int → Int → Bool)
    (target : Int × Int) (cur : JsObj) (st : ObjSt) (cand : Int × Int) :
    st.ctr ≤ (relaxObj tc heur trav target cur st cand).ctr := by
  rw [relaxObj]
  by_cases htr : trav cand.1 cand.2
  · rw [if_pos htr]
    by_cases himp : (match mapGet st.costs cand with
      | none => true
      | some old =>
          decide ((mapGet st.costs (cur.x, cur.y)).getD 0 +
            tc cand.1 cand.2 < old)) = true
    · rw [if_pos himp]
      exact Nat.le_succ _
    · rw [if_neg himp]
  · rw [if_neg htr]

theorem relaxObj_relabel (o₁ t₁ o₂ t₂ : JsObj) (tc : Int → Int → Int)
    (heur : (Int × Int) → (Int × Int) → Int) (trav : Int → Int → Bool)
    (target : Int × Int) (cur : JsObj) (st : ObjSt) (cand : Int × Int)
    (hctr : max o₁.oid t₁.oid + 1 ≤ st.ctr) :
    relabelSt o₁ t₁ o₂ t₂ (relaxObj tc heur trav target cur st cand) =
    relaxObj tc heur trav target (relabel o₁ t₁ o₂ t₂ cur)
      (relabelSt o₁ t₁ o₂ t₂ st) cand := by
  rw [relaxObj, relaxObj]
  by_cases htr : trav cand.1 cand.2
  · rw [if_pos htr, if_pos htr]
    simp only [relabelSt, relabel]
    by_cases himp : (match mapGet st.costs cand with
      | none => true
      | some old =>
          decide ((mapGet st.costs (cur.x, cur.y)).getD 0 +
            tc cand.1 cand.2 < old)) = true
    · rw [if_pos himp, if_pos himp]
      simp only [ObjSt.mk.injEq]
      refine ⟨?_, trivial, ?_, by omega⟩
      · simp only [List.map_append, List.map_cons, List.map_nil]
        rw [if_neg (show ¬(st.ctr = o₁.oid) by omega),
          if_neg (show ¬(st.ctr = t₁.oid) by omega)]
      · rw [← mapSet_map (relabelPtr o₁ t₁ o₂ t₂)]
        rfl
    · rw [if_neg himp, if_neg himp]
  · rw [if_neg htr, if_neg htr]

theorem foldl_relax_relabel (o₁ t₁ o₂ t₂ : JsObj) (tc : Int → Int → Int)
    (heur : (Int × Int) → (Int × Int) → Int) (trav : Int → Int → Bool)
    (target : Int × Int) (cur : JsObj) (cands : List (Int × Int)) :
    ∀ (st : ObjSt), max o₁.oid t₁.oid + 1 ≤ st.ctr →
    relabelSt o₁ t₁ o₂ t₂
        (cands.foldl (relaxObj tc heur trav target cur) st) =
      cands.foldl (relaxObj tc heur trav target (relabel o₁ t₁ o₂ t₂ cur))
        (relabelSt o₁ t₁ o₂ t₂ st) ∧
    max o₁.oid t₁.oid + 1 ≤
      (cands.foldl (relaxObj tc heur trav target cur) st).ctr := by
  induction cands with
  | nil => exact fun st hctr => ⟨rfl, hctr⟩
  | cons c rest ih =>
    intro st hctr
    rw [List.foldl_cons, List.foldl_cons,
      ← relaxObj_relabel o₁ t₁ o₂ t₂ tc heur trav target cur st c hctr]
    exact ih _ (le_trans hctr (relaxObj_ctr_le tc heur trav target cur st c))

theorem loopObj_relabel (o₁ t₁ o₂ t₂ : JsObj)
    (adj : Int → Int → List (Int × Int))
    (heur : (Int × Int) → (Int × Int) → Int) (tc : Int → Int → Int)
    (trav : Int → Int → Bool) (tx ty : Int) (fuel : Nat) :
    ∀ (st : ObjSt), max o₁.oid t₁.oid + 1 ≤ st.ctr →
    loopObj adj heur tc trav (tx, ty) fuel (relabelSt o₁ t₁ o₂ t₂ st) =
    (loopObj adj heur tc trav (tx, ty) fuel st).map
      (relabelSt o₁ t₁ o₂ t₂) := by
  induction fuel with
  | zero => exact fun st hctr => rfl
  | succ fuel ih =>
    intro st hctr
    cases hq : pollMin st.frontier with
    | none =>
      have hpm : pollMin (relabelSt o₁ t₁ o₂ t₂ st).frontier = none := by
        have hmm := pollMin_map (relabel o₁ t₁ o₂ t₂) st.frontier
        rw [hq] at hmm
        exact hmm
      rw [loopObj_succ_none _ _ _ _ _ _ _ hpm,
        loopObj_succ_none _ _ _ _ _ _ _ hq]
      rfl
    | some r =>
      obtain ⟨⟨cur, pri⟩, rest⟩ := r
      have hpm : pollMin (relabelSt o₁ t₁ o₂ t₂ st).frontier =
          some ((relabel o₁ t₁ o₂ t₂ cur, pri),
            rest.map (fun e => (relabel o₁ t₁ o₂ t₂ e.1, e.2))) := by
        have hmm := pollMin_map (relabel o₁ t₁ o₂ t₂) st.frontier
        rw [hq] at hmm
        exact hmm
      rw [loopObj_succ_some _ _ _ _ _ _ _ hpm,
        loopObj_succ_some _ _ _ _ _ _ _ hq]
      by_cases hbrk : cur.x = tx ∧ cur.y = ty
      · rw [if_pos hbrk, if_pos (show (relabel o₁ t₁ o₂ t₂ cur).x = tx ∧
          (relabel o₁ t₁ o₂ t₂ cur).y = ty from hbrk)]
        rfl
      · rw [if_neg hbrk, if_neg (show ¬((relabel o₁ t₁ o₂ t₂ cur).x = tx ∧
          (relabel o₁ t₁ o₂ t₂ cur).y = ty) from hbrk)]
        obtain ⟨hcomm, hctr2⟩ := foldl_relax_relabel o₁ t₁ o₂ t₂ tc heur
          trav (tx, ty) cur (adj cur.x cur.y)
          ⟨rest, st.costs, st.visited, st.ctr⟩ hctr
        show loopObj adj heur tc trav (tx, ty) fuel
            ((adj cur.x cur.y).foldl
              (relaxObj tc heur trav (tx, ty) (relabel o₁ t₁ o₂ t₂ cur))
              (relabelSt o₁ t₁ o₂ t₂ ⟨rest, st.costs, st.visited, st.ctr⟩)) =
          (loopObj adj heur tc trav (tx, ty) fuel
            ((adj cur.x cur.y).foldl (relaxObj tc heur trav (tx, ty) cur)
              ⟨rest, st.costs, st.visited, st.ctr⟩)).map
            (relabelSt o₁ t₁ o₂ t₂)
        rw [← hcomm]
        exact ih _ hctr2

theorem traceGo_relabel (o₁ t₁ o₂ t₂ : JsObj) (h2 : o₂.oid ≠ t₂.oid)
    (paths : List ((Int × Int) × JsPtr JsObj)) (fuel : Nat) :
    ∀ (start : JsPtr JsObj) (acc : List JsObj),
    (traceGo (fun c => decide (c.oid = o₁.oid)) (fun c => (c.x, c.y))
        paths fuel start acc).map (List.map (relabel o₁ t₁ o₂ t₂)) =
    traceGo (fun c => decide (c.oid = o₂.oid)) (fun c => (c.x, c.y))
      (paths.map (fun e => (e.1, relabelPtr o₁ t₁ o₂ t₂ e.2))) fuel
      (relabelPtr o₁ t₁ o₂ t₂ start) (acc.map (relabel o₁ t₁ o₂ t₂)) := by
  induction fuel with
  | zero =>
    intro start acc
    cases start <;> rfl
  | succ fuel ih =>
    intro start acc
    cases start with
    | null => rfl
    | missing => rfl
    | obj c =>
      have hiff : c.oid = o₁.oid ↔
          (relabel o₁ t₁ o₂ t₂ c).oid = o₂.oid :=
        (relabel_oid_iff o₁ t₁ o₂ t₂ c h2).symm
      show (traceGo (fun c => decide (c.oid = o₁.oid))
          (fun c => (c.x, c.y)) paths (fuel + 1) (.obj c) acc).map
            (List.map (relabel o₁ t₁ o₂ t₂)) =
        traceGo (fun c => decide (c.oid = o₂.oid)) (fun c => (c.x, c.y))
          (paths.map (fun e => (e.1, relabelPtr o₁ t₁ o₂ t₂ e.2)))
          (fuel + 1) (.obj (relabel o₁ t₁ o₂ t₂ c))
          (acc.map (relabel o₁ t₁ o₂ t₂))
      rw [traceGo_obj, traceGo_obj]
      by_cases hc : c.oid = o₁.oid
      · rw [if_pos (by simpa using hc), if_pos (by simpa using hiff.mp hc)]
        show Except.ok (acc.reverse.map (relabel o₁ t₁ o₂ t₂)) =
          Except.ok ((acc.map (relabel o₁ t₁ o₂ t₂)).reverse)
        rw [List.map_reverse]
      · rw [if_neg (by simpa using hc),
          if_neg (by
            simp only [decide_eq_true_eq]
            exact fun hv => hc (hiff.mpr hv))]
        cases hg : mapGet paths (c.x, c.y) with
        | some v =>
          have hgv : mapGet
              (paths.map (fun e => (e.1, relabelPtr o₁ t₁ o₂ t₂ e.2)))
              ((relabel o₁ t₁ o₂ t₂ c).x, (relabel o₁ t₁ o₂ t₂ c).y) =
              some (relabelPtr o₁ t₁ o₂ t₂ v) := by
            rw [show ((relabel o₁ t₁ o₂ t₂ c).x,
              (relabel o₁ t₁ o₂ t₂ c).y) = (c.x, c.y) from rfl,
              mapGet_map, hg]
            rfl
          rw [hgv]
          have hstep := ih v (acc ++ [c])
          simp only [List.map_append, List.map_cons, List.map_nil] at hstep
          exact hstep
        | none =>
          have hgv : mapGet
              (paths.map (fun e => (e.1, relabelPtr o₁ t₁ o₂ t₂ e.2)))
              ((relabel o₁ t₁ o₂ t₂ c).x, (relabel o₁ t₁ o₂ t₂ c).y) =
              none := by
            rw [show ((relabel o₁ t₁ o₂ t₂ c).x,
              (relabel o₁ t₁ o₂ t₂ c).y) = (c.x, c.y) from rfl,
              mapGet_map, hg]
            rfl
          rw [hgv]
          have hstep := ih .missing (acc ++ [c])
          simp only [List.map_append, List.map_cons, List.map_nil] at hstep
          exact hstep

theorem searchObj_relabel (adj : Int → Int → List (Int × Int))
    (heur : (Int × Int) → (Int × Int) → Int) (tc : Int → Int → Int)
    (trav : Int → Int → Bool) (o₁ t₁ o₂ t₂ : JsObj) (fuel : Nat)
    (hvo : (o₁.x, o₁.y) = (o₂.x, o₂.y)) (hvt : (t₁.x, t₁.y) = (t₂.x, t₂.y))
    (h1 : o₁.oid ≠ t₁.oid) (h2 : o₂.oid ≠ t₂.oid) :
    searchObj adj heur tc trav o₂ t₂ fuel =
    (searchObj adj heur tc trav o₁ t₁ fuel).map
      (List.map (relabel o₁ t₁ o₂ t₂)) := by
  have hvox : o₁.x = o₂.x := congrArg Prod.fst hvo
  have hvoy : o₁.y = o₂.y := congrArg Prod.snd hvo
  have hvtx : t₁.x = t₂.x := congrArg Prod.fst hvt
  have hvty : t₁.y = t₂.y := congrArg Prod.snd hvt
  have ho : relabel o₁ t₁ o₂ t₂ o₁ = o₂ := by
    rw [relabel]
    rw [if_pos (rfl : o₁.oid = o₁.oid), hvox, hvoy]
  have ht : relabel o₁ t₁ o₂ t₂ t₁ = t₂ := by
    rw [relabel]
    rw [if_neg (show ¬(t₁.oid = o₁.oid) from fun hcon => h1 hcon.symm),
      if_pos (rfl : t₁.oid = t₁.oid), hvtx, hvty]
  have hst0 : relabelSt o₁ t₁ o₂ t₂
      ⟨[(o₁, 0)], [((o₁.x, o₁.y), 0)], [((o₁.x, o₁.y), .null)],
        max o₁.oid t₁.oid + 1⟩ =
      ⟨[(o₂, 0)], [((o₂.x, o₂.y), 0)], [((o₂.x, o₂.y), .null)],
        max o₂.oid t₂.oid + 1⟩ := by
    rw [relabelSt]
    simp only [List.map_cons, List.map_nil, relabelPtr, ObjSt.mk.injEq]
    refine ⟨by rw [ho], by rw [hvox, hvoy], by rw [hvox, hvoy], by omega⟩
  rw [searchObj, searchObj]
  have hloop := loopObj_relabel o₁ t₁ o₂ t₂ adj heur tc trav t₁.x t₁.y fuel
    ⟨[(o₁, 0)], [((o₁.x, o₁.y), 0)], [((o₁.x, o₁.y), .null)],
      max o₁.oid t₁.oid + 1⟩ (le_refl _)
  rw [hst0] at hloop
  rw [← hvtx, ← hvty, hloop]
  cases hres : loopObj adj heur tc trav (t₁.x, t₁.y) fuel
      ⟨[(o₁, 0)], [((o₁.x, o₁.y), 0)], [((o₁.x, o₁.y), .null)],
        max o₁.oid t₁.oid + 1⟩ with
  | error e => rfl
  | ok st' =>
    show traceGo (fun c => decide (c.oid = o₂.oid)) (fun c => (c.x, c.y))
        (st'.visited.map (fun e => (e.1, relabelPtr o₁ t₁ o₂ t₂ e.2)))
        fuel (.obj t₂) [] =
      (traceGo (fun c => decide (c.oid = o₁.oid)) (fun c => (c.x, c.y))
        st'.visited fuel (.obj t₁) []).map
          (List.map (relabel o₁ t₁ o₂ t₂))
    have hptr : (JsPtr.obj t₂ : JsPtr JsObj) =
        relabelPtr o₁ t₁ o₂ t₂ (.obj t₁) := by
      rw [relabelPtr, ht]
    rw [hptr]
    have htr := traceGo_relabel o₁ t₁ o₂ t₂ h2 st'.visited fuel (.obj t₁) []
    simp only [List.map_nil] at htr
    exact htr.symm

/-- C9 (amended): for origin/target pairs that are distinct object
references, the result of `search` depends only on the coordinate values
of its arguments: replacing the origin and the target by any other pair of
distinct objects with the same coordinate values leaves the coordinate
sequence of the result (including whether it errs) unchanged, for
arbitrary cost and heuristic functions.  (When the origin and the target
are the same object reference the property fails, see the
counterexample.) -/
theorem pathfinder_value_interchangeable (adj : Int → Int → List (Int × Int))
    (heur : (Int × Int) → (Int × Int) → Int) (tc : Int → Int → Int)
    (trav : Int → Int → Bool) (o₁ t₁ o₂ t₂ : JsObj) (fuel : Nat)
    (hvo : (o₁.x, o₁.y) = (o₂.x, o₂.y)) (hvt : (t₁.x, t₁.y) = (t₂.x, t₂.y))
    (h₁ : o₁.oid ≠ t₁.oid) (h₂ : o₂.oid ≠ t₂.oid) :
    (searchObj adj heur tc trav o₁ t₁ fuel).map (List.map eraseObj) =
    (searchObj adj heur tc trav o₂ t₂ fuel).map (List.map eraseObj) := by
  rw [searchObj_relabel adj heur tc trav o₁ t₁ o₂ t₂ fuel hvo hvt h₁ h₂]
  cases searchObj adj heur tc trav o₁ t₁ fuel with
  | error e => rfl
  | ok l =>
    show Except.ok (l.map eraseObj) =
      Except.ok ((l.map (relabel o₁ t₁ o₂ t₂)).map eraseObj)
    rw [List.map_map]
    rfl

/-- Witness for C9 at a concrete instance: a 2×1 corridor, two different
identity assignments for the same origin/target coordinate values. -/
theorem pathfinder_value_interchangeable_witness :
    (((⟨0, 0, 0⟩ : JsObj).x, (⟨0, 0, 0⟩ : JsObj).y) =
        ((⟨5, 0, 0⟩ : JsObj).x, (⟨5, 0, 0⟩ : JsObj).y)) ∧
    (((⟨1, 1, 0⟩ : JsObj).x, (⟨1, 1, 0⟩ : JsObj).y) =
        ((⟨7, 1, 0⟩ : JsObj).x, (⟨7, 1, 0⟩ : JsObj).y)) ∧
    (⟨0, 0, 0⟩ : JsObj).oid ≠ (⟨1, 1, 0⟩ : JsObj).oid ∧
    (⟨5, 0, 0⟩ : JsObj).oid ≠ (⟨7, 1, 0⟩ : JsObj).oid ∧
    (searchObj (adjacentPoints 2 1) manhattan (fun _ _ => 1)
        (fun _ _ => true) ⟨0, 0, 0⟩ ⟨1, 1, 0⟩ 9).map (List.map eraseObj) =
      (searchObj (adjacentPoints 2 1) manhattan (fun _ _ => 1)
        (fun _ _ => true) ⟨5, 0, 0⟩ ⟨7, 1, 0⟩ 9).map (List.map eraseObj) :=
  ⟨by decide, by decide, by decide, by decide,
   pathfinder_value_interchangeable (adjacentPoints 2 1) manhattan
     (fun _ _ => 1) (fun _ _ => true) ⟨0, 0, 0⟩ ⟨1, 1, 0⟩ ⟨5, 0, 0⟩ ⟨7, 1, 0⟩ 9
     (by decide) (by decide) (by decide) (by decide)⟩

end Rogue
